import Mathlib

/-!
# zynq-aes: chunk framing, DMA submission and completion handling

A shallow embedding of `src/driver/zynqaes.c`.

Modelling conventions.

* A byte is a `Nat`; a buffer is a `List Nat`.
* A `u32` is a `Nat` reduced modulo `2 ^ 32` wherever the C code stores one.
  The driver also keeps some of these quantities in `int` parameters and
  fields (`payload_nbytes`, `tx_nbytes`, `rx_nbytes`); the conversions between
  `int` and `unsigned int` keep the 32-bit pattern, so the model keeps that
  pattern as a `Nat`.  The local `int nbytes_i` of
  `zynqaes_enqueue_next_dma_op` is added to pointers, where its sign matters:
  it is an `Int`, obtained with `i32`.
* A pointer that is only read (`payload_buf`, `rx_kbuf`) is the list of bytes
  found at the pointer.  A buffer that is written through a pointer argument
  (`tx_kbuf`) is passed in and returned.  The pointers `src_buf_ptr` and
  `dst_buf_ptr` of a chunk are `rctx->src_buf + nbytes_i` and
  `rctx->dst_buf + nbytes_i`: they are signed byte offsets from the start of
  the request buffers.  A negative offset (a request position of `2 ^ 31` or
  more) points before the buffer; what the C code finds or overwrites there is
  not part of the request and is not modelled.
* Results of `kmalloc`, of the DMA engine calls and the value of the
  uninitialised local `ret` come from the environment and are explicit
  arguments.
-/

namespace ZynqAes

/-! ## Constants -/

abbrev ZYNQAES_CMD_LEN : Nat := 4

abbrev ZYNQAES_FIFO_NBYTES : Nat := 32768

abbrev ZYNQAES_ECB_ENCRYPT : Nat := 0x20
abbrev ZYNQAES_ECB_DECRYPT : Nat := 0x30

abbrev ZYNQAES_CBC_ENCRYPT : Nat := 0x40
abbrev ZYNQAES_CBC_DECRYPT : Nat := 0x41

/-- Kernel constant `AES_BLOCK_SIZE` of `crypto/aes.h`. -/
abbrev AES_BLOCK_SIZE : Nat := 16

/-- Kernel constant `AES_KEYSIZE_128` of `crypto/aes.h`. -/
abbrev AES_KEYSIZE_128 : Nat := 16

/-- Kernel errno `ENOMEM`. -/
abbrev ENOMEM : Int := 12

/-- Kernel errno `ECOMM`. -/
abbrev ECOMM : Int := 70

/-- Conversion of an `int` value to `unsigned int`. -/
def u32 (x : Int) : Nat := (x % 4294967296).toNat

/-- Conversion of an `unsigned int` value to `int` (two's complement: values
from `2 ^ 31` on become negative). -/
def i32 (x : Nat) : Int :=
  if x % 4294967296 < 2147483648 then ((x % 4294967296 : Nat) : Int)
  else ((x % 4294967296 : Nat) : Int) - 4294967296

/-! ## Data model -/

/-- The transform context `struct zynqaes_ctx`: the raw key. -/
structure zynqaes_ctx where
  key : List Nat
deriving DecidableEq

/-- The request context `struct zynqaes_reqctx`.  The back-reference `areq` is
kept in the system state `Sys` below. -/
structure zynqaes_reqctx where
  cmd : Nat
  iv : List Nat
  src_buf : List Nat
  dst_buf : List Nat
  nbytes_total : Nat
  nbytes_remaining : Nat
  nbytes_i : Nat
  ctx : zynqaes_ctx
deriving DecidableEq

/-- The chunk context `struct zynqaes_dma_ctx` (cookies, DMA handles and the
work item carry no data the driver logic reads back).  `src_buf_ptr` and
`dst_buf_ptr` are the signed byte offsets of the two pointers from
`rctx->src_buf` and `rctx->dst_buf`. -/
structure zynqaes_dma_ctx where
  tx_buf : List Nat
  rx_buf : List Nat
  tx_nbytes : Nat
  rx_nbytes : Nat
  src_buf_ptr : Int
  dst_buf_ptr : Int
  is_last : Bool
deriving DecidableEq

/-- The fields of `struct ablkcipher_request` the driver uses: the length, the
source and destination scatterlists (flattened) and the IV pointer `info`. -/
structure ablkcipher_request where
  nbytes : Nat
  src : List Nat
  dst : List Nat
  info : List Nat
deriving DecidableEq

/-! ## Memory helpers -/

/-- C library call `memcpy(dst + off, src, n)`: the bytes `off .. off + n` of `dst` are
replaced by the first `n` bytes of `src`.  C requires both regions to be in
bounds (`off + n ≤ dst.length`, `n ≤ src.length`). -/
def memcpy (dst : List Nat) (off : Nat) (src : List Nat) (n : Nat) : List Nat :=
  dst.take off ++ src.take n ++ dst.drop (off + n)

/-- The bytes of the buffer `buf` found at the pointer `buf + off`.  With
`off < 0` the pointer lies before the buffer: the C code then reads memory that
is not part of the request, of which the model knows no byte. -/
def bytes_at (buf : List Nat) (off : Int) : List Nat :=
  if off < 0 then [] else buf.drop off.toNat

/-- The four bytes of a `u32` in memory on the little-endian target. -/
def cmd_bytes (cmd : Nat) : List Nat :=
  [cmd % 256, cmd / 256 % 256, cmd / 65536 % 256, cmd / 16777216 % 256]

/-! ## Chunk framing -/

def is_cbc_op (cmd : Nat) : Bool :=
  (cmd == ZYNQAES_CBC_ENCRYPT) || (cmd == ZYNQAES_CBC_DECRYPT)

def is_ecb_op (cmd : Nat) : Bool :=
  (cmd == ZYNQAES_ECB_ENCRYPT) || (cmd == ZYNQAES_ECB_DECRYPT)

/-- Source function `zynqaes_ecb_set_txkbuf`: returns the written `tx_kbuf` and the frame
length. -/
def zynqaes_ecb_set_txkbuf (rctx : zynqaes_reqctx) (src_buf tx_kbuf : List Nat)
    (payload_nbytes : Nat) (cmd : Nat) : List Nat × Nat :=
  let ctx := rctx.ctx
  let t1 := memcpy tx_kbuf 0 (cmd_bytes cmd) ZYNQAES_CMD_LEN
  let t2 := memcpy t1 ZYNQAES_CMD_LEN ctx.key AES_KEYSIZE_128
  let t3 := memcpy t2 (ZYNQAES_CMD_LEN + AES_KEYSIZE_128) src_buf payload_nbytes
  (t3, u32 (payload_nbytes + AES_KEYSIZE_128 + ZYNQAES_CMD_LEN))

/-- Source function `zynqaes_cbc_set_txkbuf`: returns the written `tx_kbuf` and the frame
length. -/
def zynqaes_cbc_set_txkbuf (rctx : zynqaes_reqctx) (payload_buf tx_kbuf : List Nat)
    (payload_nbytes : Nat) (cmd : Nat) : List Nat × Nat :=
  let ctx := rctx.ctx
  let t1 := memcpy tx_kbuf 0 (cmd_bytes cmd) ZYNQAES_CMD_LEN
  let t2 := memcpy t1 ZYNQAES_CMD_LEN ctx.key AES_KEYSIZE_128
  let t3 := memcpy t2 (ZYNQAES_CMD_LEN + AES_KEYSIZE_128) rctx.iv AES_BLOCK_SIZE
  let t4 := memcpy t3 (ZYNQAES_CMD_LEN + AES_KEYSIZE_128 + AES_BLOCK_SIZE) payload_buf
    payload_nbytes
  (t4, u32 (ZYNQAES_CMD_LEN + AES_KEYSIZE_128 + AES_BLOCK_SIZE + payload_nbytes))

/-- Source function `zynqaes_set_txkbuf`: the `default` branch leaves `tx_kbuf` alone and
returns `-ENOMEM` converted to the `unsigned int` return type. -/
def zynqaes_set_txkbuf (rctx : zynqaes_reqctx) (payload_buf tx_kbuf : List Nat)
    (payload_nbytes : Nat) (cmd : Nat) : List Nat × Nat :=
  if cmd = ZYNQAES_ECB_ENCRYPT ∨ cmd = ZYNQAES_ECB_DECRYPT then
    zynqaes_ecb_set_txkbuf rctx payload_buf tx_kbuf payload_nbytes cmd
  else if cmd = ZYNQAES_CBC_ENCRYPT ∨ cmd = ZYNQAES_CBC_DECRYPT then
    zynqaes_cbc_set_txkbuf rctx payload_buf tx_kbuf payload_nbytes cmd
  else
    (tx_kbuf, u32 (-ENOMEM))

/-- Source function `zynqaes_get_rxkbuf`.  `src_buf` and `dst_buf` are `rctx->src_buf + src_off`
and `rctx->dst_buf + dst_off`; `dst_buf` is never `NULL` there
(`zynqaes_crypt_req` returns early when the allocation of `rctx->dst_buf`
fails), so the copy-out is always performed.  `payload_nbytes - AES_BLOCK_SIZE`
is truncated subtraction: for `payload_nbytes < 16` the C code reads before the
chunk, which the model does not follow. -/
def zynqaes_get_rxkbuf (rctx : zynqaes_reqctx) (src_off dst_off : Nat)
    (rx_kbuf : List Nat) (payload_nbytes : Nat) (cmd : Nat) : zynqaes_reqctx :=
  let rctx1 := { rctx with dst_buf := memcpy rctx.dst_buf dst_off rx_kbuf payload_nbytes }
  if cmd = ZYNQAES_CBC_ENCRYPT then
    let last := rctx1.dst_buf.drop (dst_off + (payload_nbytes - AES_BLOCK_SIZE))
    { rctx1 with iv := memcpy rctx1.iv 0 last AES_BLOCK_SIZE }
  else if cmd = ZYNQAES_CBC_DECRYPT then
    let last := rctx1.src_buf.drop (src_off + (payload_nbytes - AES_BLOCK_SIZE))
    { rctx1 with iv := memcpy rctx1.iv 0 last AES_BLOCK_SIZE }
  else
    rctx1

/-! ## Environment -/

/-- The answers of the environment during one call of
`zynqaes_enqueue_next_dma_op`: the three `kmalloc` calls of
`zynqaes_create_dma_ctx` (a buffer comes with its indeterminate contents), the
four DMA engine calls of `zynqaes_dma_op`, and the indeterminate value of the
local `ret`, which is returned unset when `zynqaes_create_dma_ctx` fails. -/
structure ChunkEnv where
  kmalloc_dma_ctx : Bool
  kmalloc_tx_buf : Option (List Nat)
  kmalloc_rx_buf : Option (List Nat)
  tx_prep : Bool
  tx_submit : Bool
  rx_prep : Bool
  rx_submit : Bool
  ret_uninit : Int
deriving DecidableEq

/-- Every allocation returns a buffer of the requested size and the channels
accept both descriptors. -/
def ChunkEnv.ok (env : ChunkEnv) : Bool :=
  env.kmalloc_dma_ctx
  && (match env.kmalloc_tx_buf with
      | some b => b.length == ZYNQAES_FIFO_NBYTES + ZYNQAES_CMD_LEN + 2 * AES_KEYSIZE_128
      | none => false)
  && (match env.kmalloc_rx_buf with
      | some b => b.length == ZYNQAES_FIFO_NBYTES
      | none => false)
  && env.tx_prep && env.tx_submit && env.rx_prep && env.rx_submit

/-- The answers of the environment during `zynqaes_crypt_req`: the two request
buffers and one `ChunkEnv` per iteration of the dispatch loop. -/
structure ReqEnv where
  kmalloc_src_buf : Option (List Nat)
  kmalloc_dst_buf : Option (List Nat)
  chunks : List ChunkEnv
deriving DecidableEq

/-- Both request buffers are allocated with `nbytes` bytes and every chunk of
the dispatch loop is served. -/
def ReqEnv.ok (env : ReqEnv) (nbytes : Nat) : Bool :=
  (match env.kmalloc_src_buf with
   | some b => b.length == nbytes
   | none => false)
  && (match env.kmalloc_dst_buf with
      | some b => b.length == nbytes
      | none => false)
  && env.chunks.all ChunkEnv.ok

/-! ## DMA transfer manager -/

/-- Source function `zynqaes_create_dma_ctx`: `NULL` as soon as one allocation fails.  The
fields set later by the caller start at `0`. -/
def zynqaes_create_dma_ctx (env : ChunkEnv) : Option zynqaes_dma_ctx :=
  if !env.kmalloc_dma_ctx then none
  else
    match env.kmalloc_tx_buf with
    | none => none
    | some tx_buf =>
      match env.kmalloc_rx_buf with
      | none => none
      | some rx_buf =>
        some { tx_buf := tx_buf, rx_buf := rx_buf, tx_nbytes := 0, rx_nbytes := 0,
               src_buf_ptr := 0, dst_buf_ptr := 0, is_last := false }

/-- Source function `zynqaes_dma_op`: `0` when both descriptors are prepared
and submitted (the receive descriptor carries `zynqaes_dma_callback`), `-ECOMM`
at the first call the channel rejects.  Whether a channel accepts a descriptor
for the lengths it is given is decided by the DMA engine, outside the driver:
it is the answer of the environment to that call.  A transmit descriptor
accepted before a later rejection carries no callback and is not tracked. -/
def zynqaes_dma_op (env : ChunkEnv) (_dma_ctx : zynqaes_dma_ctx)
    (_src_nbytes _dst_nbytes : Nat) : Int :=
  if !env.tx_prep then -ECOMM
  else if !env.tx_submit then -ECOMM
  else if !env.rx_prep then -ECOMM
  else if !env.rx_submit then -ECOMM
  else 0

/-- Source function `zynqaes_enqueue_next_dma_op`: the return value, the request context after
the call, and the chunk handed to the DMA channels when `zynqaes_dma_op`
returned `0`.  The local `nbytes_i` is an `int`: `rctx->nbytes_i` is converted
on the way in (`i32`), the two chunk pointers are the request buffers plus
that signed value, `nbytes_i += dma_nbytes` is computed in `unsigned int` and
converted back, and the result is stored in the unsigned field.
`nbytes_remaining -= dma_nbytes` cannot wrap, since
`dma_nbytes ≤ nbytes_remaining`. -/
def zynqaes_enqueue_next_dma_op (env : ChunkEnv) (rctx : zynqaes_reqctx) :
    Int × zynqaes_reqctx × Option zynqaes_dma_ctx :=
  let nbytes_remaining := rctx.nbytes_remaining
  let nbytes_i : Int := i32 rctx.nbytes_i
  let dma_nbytes :=
    if nbytes_remaining < ZYNQAES_FIFO_NBYTES then nbytes_remaining else ZYNQAES_FIFO_NBYTES
  match zynqaes_create_dma_ctx env with
  | none => (env.ret_uninit, rctx, none)
  | some dma_ctx =>
    let dma_ctx :=
      if nbytes_remaining = dma_nbytes then { dma_ctx with is_last := true } else dma_ctx
    let dma_ctx := { dma_ctx with src_buf_ptr := nbytes_i, dst_buf_ptr := nbytes_i }
    let tx := zynqaes_set_txkbuf rctx (bytes_at rctx.src_buf dma_ctx.src_buf_ptr) dma_ctx.tx_buf
      dma_nbytes rctx.cmd
    let in_nbytes := tx.2
    let dma_ctx := { dma_ctx with tx_buf := tx.1, tx_nbytes := in_nbytes, rx_nbytes := dma_nbytes }
    let ret := zynqaes_dma_op env dma_ctx in_nbytes dma_nbytes
    if ret ≠ 0 then (ret, rctx, none)
    else
      let nbytes_i : Int := i32 (u32 nbytes_i + dma_nbytes)
      let nbytes_remaining := nbytes_remaining - dma_nbytes
      (0, { rctx with nbytes_i := u32 nbytes_i, nbytes_remaining := nbytes_remaining },
        some dma_ctx)

/-! ## System state -/

/-- Observable actions of the core. -/
inductive Event where
  /-- Call of `zynqaes_dma_op` that returned `0`, for the chunk that starts at
  position `off` of the request (the value of `rctx->nbytes_i` at the call) and
  has `len` payload bytes. -/
  | submit (off len : Nat)
  /-- Call of `zynqaes_get_rxkbuf` for the output of a chunk of `len` bytes whose
  destination pointer is `rctx->dst_buf + ptr`. -/
  | copy_out (ptr : Int) (len : Nat) (is_last : Bool)
  /-- Call of `queue_work` for the chunk whose destination pointer is
  `rctx->dst_buf + ptr`. -/
  | queue_work (ptr : Int)
  /-- Call of `crypto_finalize_cipher_request(dd->engine, areq, err)`. -/
  | finalize (err : Int)
deriving DecidableEq

/-- One request in the core: its context, the originating request, the chunks
whose receive descriptor is with the DMA channel (oldest first), the work
items queued on `dd->wq`, and the record of actions, newest first. -/
structure Sys where
  rctx : zynqaes_reqctx
  areq : ablkcipher_request
  inflight : List zynqaes_dma_ctx
  wq : List zynqaes_dma_ctx
  log : List Event
deriving DecidableEq

/-- Kernel call `scatterwalk_map_and_copy(buf, sg, start, nbytes, out)`: copies `nbytes`
bytes from the scatterlist into `buf` (`out = 0`) or from `buf` into the
scatterlist (`out = 1`).  Returns `(buf, sg)`. -/
def scatterwalk_map_and_copy (buf sg : List Nat) (start nbytes : Nat) (out : Bool) :
    List Nat × List Nat :=
  if out then (buf, memcpy sg start buf nbytes)
  else (memcpy buf 0 (sg.drop start) nbytes, sg)

/-- One call of `zynqaes_enqueue_next_dma_op` on the request of `s`; a chunk
accepted by the channels joins `inflight`. -/
def Sys.enqueue (env : ChunkEnv) (s : Sys) : Int × Sys :=
  let r := zynqaes_enqueue_next_dma_op env s.rctx
  match r.2.2 with
  | some c =>
    (r.1, { s with rctx := r.2.1, inflight := s.inflight ++ [c],
                   log := Event.submit s.rctx.nbytes_i c.rx_nbytes :: s.log })
  | none => (r.1, { s with rctx := r.2.1 })

/-- The call `zynqaes_get_rxkbuf(rctx, dma_ctx->src_buf_ptr,
dma_ctx->dst_buf_ptr, dma_ctx->rx_buf, dma_ctx->rx_nbytes, rctx->cmd)` made by
`zynqaes_dma_callback`.  With pointers into the request buffers it is
`zynqaes_get_rxkbuf` at their offsets.  With a pointer before its buffer the C
code copies the output to, and takes the next IV from, memory that is not part
of the request; the request context then keeps its buffers and IV here. -/
def get_rxkbuf_at (rctx : zynqaes_reqctx) (dma_ctx : zynqaes_dma_ctx) : zynqaes_reqctx :=
  if dma_ctx.src_buf_ptr < 0 ∨ dma_ctx.dst_buf_ptr < 0 then rctx
  else
    zynqaes_get_rxkbuf rctx dma_ctx.src_buf_ptr.toNat dma_ctx.dst_buf_ptr.toNat dma_ctx.rx_buf
      dma_ctx.rx_nbytes rctx.cmd

/-- Source function `zynqaes_dma_callback` for the completed chunk `dma_ctx`. -/
def zynqaes_dma_callback (s : Sys) (dma_ctx : zynqaes_dma_ctx) : Sys :=
  let rctx := get_rxkbuf_at s.rctx dma_ctx
  let log := Event.copy_out dma_ctx.dst_buf_ptr dma_ctx.rx_nbytes dma_ctx.is_last :: s.log
  if dma_ctx.is_last then
    let dst := (scatterwalk_map_and_copy rctx.dst_buf s.areq.dst 0 rctx.nbytes_total true).2
    { s with rctx := rctx, areq := { s.areq with dst := dst }, log := Event.finalize 0 :: log }
  else if is_cbc_op rctx.cmd then
    { s with rctx := rctx, wq := s.wq ++ [dma_ctx],
             log := Event.queue_work dma_ctx.dst_buf_ptr :: log }
  else
    { s with rctx := rctx, log := log }

/-- Source function `zynqaes_done_task` for the oldest queued work item. -/
def zynqaes_done_task (env : ChunkEnv) (s : Sys) : Sys :=
  match s.wq with
  | [] => s
  | _dma_ctx :: rest => (Sys.enqueue env { s with wq := rest }).2

/-- The `while (rctx->nbytes_remaining != 0)` loop of `zynqaes_crypt_req`, one
`ChunkEnv` per iteration; `none` when the list of answers is used up before the
loop ends.  The result carries the error `ret` of a failed iteration
(`goto out_dst_buf`) or `0`. -/
def crypt_req_loop : List ChunkEnv → Sys → Option (Int × Sys)
  | [], s => if s.rctx.nbytes_remaining = 0 then some (0, s) else none
  | env :: envs, s =>
    if s.rctx.nbytes_remaining = 0 then some (0, s)
    else
      let r := Sys.enqueue env s
      if r.1 ≠ 0 then some (r.1, r.2)
      else if is_cbc_op r.2.rctx.cmd then some (0, r.2)
      else crypt_req_loop envs r.2

/-- Source function `zynqaes_crypt`: stores the command in the request context (the request
then reaches `zynqaes_crypt_req` through the crypto engine). -/
def zynqaes_crypt (rctx : zynqaes_reqctx) (cmd : Nat) : zynqaes_reqctx :=
  { rctx with cmd := cmd }

/-- The part of `zynqaes_crypt_req` before the dispatch loop: allocation of the
request buffers, initialisation of the counters, gather of the source
scatterlist, and the copy of the IV for CBC.  `rctx` is the request context
memory (with `cmd` set by `zynqaes_crypt`), `ctx` the transform context.  A
non-zero first component is the error of `goto out` / `goto out_src_buf`. -/
def crypt_req_setup (env : ReqEnv) (rctx : zynqaes_reqctx) (ctx : zynqaes_ctx)
    (areq : ablkcipher_request) : Int × Sys :=
  let nbytes_total := areq.nbytes
  match env.kmalloc_src_buf with
  | none => (-ENOMEM, { rctx := rctx, areq := areq, inflight := [], wq := [], log := [] })
  | some src_mem =>
    let rctx := { rctx with src_buf := src_mem }
    match env.kmalloc_dst_buf with
    | none => (-ENOMEM, { rctx := rctx, areq := areq, inflight := [], wq := [], log := [] })
    | some dst_mem =>
      let rctx := { rctx with dst_buf := dst_mem, nbytes_i := 0, nbytes_remaining := nbytes_total,
                              ctx := ctx, nbytes_total := nbytes_total }
      let rctx :=
        { rctx with src_buf := (scatterwalk_map_and_copy rctx.src_buf areq.src 0 nbytes_total
                                  false).1 }
      let rctx :=
        if is_cbc_op rctx.cmd then { rctx with iv := memcpy rctx.iv 0 areq.info AES_BLOCK_SIZE }
        else rctx
      (0, { rctx := rctx, areq := areq, inflight := [], wq := [], log := [] })

/-- Source function `zynqaes_crypt_req`: the set-up above followed by the
dispatch loop.  Returns the return value and the state of the request; `none`
when `env.chunks` is used up before the loop ends. -/
def zynqaes_crypt_req (env : ReqEnv) (rctx : zynqaes_reqctx) (ctx : zynqaes_ctx)
    (areq : ablkcipher_request) : Option (Int × Sys) :=
  let r := crypt_req_setup env rctx ctx areq
  if r.1 ≠ 0 then some r
  else crypt_req_loop env.chunks r.2

/-! ## Completion delivery -/

/-- The DMA pair completes the oldest chunk in flight: the device receives the
first `tx_nbytes` bytes of `tx_buf`, its output `hw frame` fills the first
`rx_nbytes` bytes of `rx_buf`, and the receive descriptor calls
`zynqaes_dma_callback`.  `none` when nothing is in flight or when the device
delivers fewer than `rx_nbytes` bytes (the receive descriptor never
completes). -/
def dma_complete (hw : List Nat → List Nat) (s : Sys) : Option Sys :=
  match s.inflight with
  | [] => none
  | c :: rest =>
    let out := hw (c.tx_buf.take c.tx_nbytes)
    if out.length < c.rx_nbytes then none
    else
      some (zynqaes_dma_callback { s with inflight := rest }
        { c with rx_buf := memcpy c.rx_buf 0 out c.rx_nbytes })

/-- The request after dispatch, with every completion delivered (oldest chunk
first) and every queued work item run, for at most `fuel` steps. -/
def run (hw : List Nat → List Nat) : Nat → List ChunkEnv → Sys → Sys
  | 0, _, s => s
  | fuel + 1, envs, s =>
    match dma_complete hw s with
    | some s1 => run hw fuel envs s1
    | none =>
      match s.wq, envs with
      | _ :: _, env :: envs1 => run hw fuel envs1 (zynqaes_done_task env s)
      | _, _ => s

/-- Number of `crypto_finalize_cipher_request` calls in a record. -/
def count_finalize : List Event → Nat
  | [] => 0
  | Event.finalize _ :: es => count_finalize es + 1
  | _ :: es => count_finalize es

/-- Number of `crypto_finalize_cipher_request` calls recorded. -/
def finalize_count (s : Sys) : Nat := count_finalize s.log

/-- What the caller of the crypto API gets: the first `nbytes` bytes of the
destination scatterlist once the request has been finalized with success. -/
def Sys.result (s : Sys) : Option (List Nat) :=
  if Event.finalize 0 ∈ s.log then some (s.areq.dst.take s.areq.nbytes) else none


/-! ## Sequential submission (the comparison schedule of ECB independence) -/

/-- Follows the spec's words "submitting them sequentially one completion at a
time": while bytes remain, one chunk is submitted with
`zynqaes_enqueue_next_dma_op` and its completion is handled before the next
chunk is submitted.  One `ChunkEnv` per chunk. -/
def run_sequential (hw : List Nat → List Nat) : List ChunkEnv → Sys → Sys
  | [], s => s
  | env :: envs, s =>
    if s.rctx.nbytes_remaining = 0 then s
    else
      let r := Sys.enqueue env s
      if r.1 ≠ 0 then r.2
      else
        match dma_complete hw r.2 with
        | some s1 => run_sequential hw envs s1
        | none => r.2

/-! ## Reference ciphers and the accelerator -/

/-- Bytewise exclusive or of two blocks. -/
def xor_block (a b : List Nat) : List Nat := List.zipWith (fun x y => x ^^^ y) a b

/-- ECB over `n` blocks of 16 bytes with the block function `F`. -/
def ecb_blocks (F : List Nat → List Nat → List Nat) (key : List Nat) :
    Nat → List Nat → List Nat
  | 0, _ => []
  | n + 1, data => F key (data.take 16) ++ ecb_blocks F key n (data.drop 16)

/-- CBC encryption of `n` blocks of 16 bytes with the block cipher `E`. -/
def cbc_encrypt_blocks (E : List Nat → List Nat → List Nat) (key : List Nat) :
    Nat → List Nat → List Nat → List Nat
  | 0, _, _ => []
  | n + 1, iv, data =>
    let c := E key (xor_block (data.take 16) iv)
    c ++ cbc_encrypt_blocks E key n c (data.drop 16)

/-- CBC decryption of `n` blocks of 16 bytes with the inverse cipher `D`. -/
def cbc_decrypt_blocks (D : List Nat → List Nat → List Nat) (key : List Nat) :
    Nat → List Nat → List Nat → List Nat
  | 0, _, _ => []
  | n + 1, iv, data =>
    let c := data.take 16
    xor_block (D key c) iv ++ cbc_decrypt_blocks D key n c (data.drop 16)

/-- Reference ECB in a single pass over the whole buffer. -/
def ecb_reference (F : List Nat → List Nat → List Nat) (key data : List Nat) : List Nat :=
  ecb_blocks F key (data.length / 16) data

/-- Reference CBC encryption in a single pass over the whole buffer. -/
def cbc_encrypt_reference (E : List Nat → List Nat → List Nat) (key iv data : List Nat) :
    List Nat :=
  cbc_encrypt_blocks E key (data.length / 16) iv data

/-- Reference CBC decryption in a single pass over the whole buffer. -/
def cbc_decrypt_reference (D : List Nat → List Nat → List Nat) (key iv data : List Nat) :
    List Nat :=
  cbc_decrypt_blocks D key (data.length / 16) iv data

/-- The command word of a frame, read back from its first four bytes. -/
def frame_cmd (frame : List Nat) : Nat :=
  frame.getD 0 0 + 256 * frame.getD 1 0 + 65536 * frame.getD 2 0 + 16777216 * frame.getD 3 0

/-- Modelled from the spec: the accelerator (hardware, not part of the driver
source) as a function of the received frame.  It reads the command and the key
(and, for CBC, the IV) from the frame and applies the reference cipher built
from the block-cipher pair `(E, D)` to the payload. -/
def accelerator (E D : List Nat → List Nat → List Nat) (frame : List Nat) : List Nat :=
  let cmd := frame_cmd frame
  let key := (frame.drop 4).take 16
  if cmd = ZYNQAES_ECB_ENCRYPT then ecb_reference E key (frame.drop 20)
  else if cmd = ZYNQAES_ECB_DECRYPT then ecb_reference D key (frame.drop 20)
  else if cmd = ZYNQAES_CBC_ENCRYPT then
    cbc_encrypt_reference E key ((frame.drop 20).take 16) (frame.drop 36)
  else if cmd = ZYNQAES_CBC_DECRYPT then
    cbc_decrypt_reference D key ((frame.drop 20).take 16) (frame.drop 36)
  else []


/-- Repeated application of `zynqaes_enqueue_next_dma_op` from `rctx` until
`nbytes_remaining` is `0`, one `ChunkEnv` per call: the chunks produced, in
order.  The result is `none` when a call does not hand a chunk to the DMA
channels or when the list of answers is used up first. -/
def enqueue_all : List ChunkEnv → zynqaes_reqctx → Option (List zynqaes_dma_ctx)
  | [], rctx => if rctx.nbytes_remaining = 0 then some [] else none
  | env :: envs, rctx =>
    if rctx.nbytes_remaining = 0 then some []
    else
      match zynqaes_enqueue_next_dma_op env rctx with
      | (_, rctx1, some c) => (enqueue_all envs rctx1).map (fun cs => c :: cs)
      | (_, _, none) => none

/-! ## Step relation and serialization of the record -/

/-- One step of a dispatched request: the DMA pair completes the oldest chunk
in flight (`zynqaes_dma_callback` runs), or the work queue runs the oldest
queued item (`zynqaes_done_task`), with any answers of the environment. -/
inductive Step (hw : List Nat → List Nat) : Sys → Sys → Prop
  | complete (s s1 : Sys) : dma_complete hw s = some s1 → Step hw s s1
  | work (s : Sys) (env : ChunkEnv) : s.wq ≠ [] → Step hw s (zynqaes_done_task env s)

/-- States reachable from `s0` by steps. -/
inductive Reachable (hw : List Nat → List Nat) (s0 : Sys) : Sys → Prop
  | start : Reachable hw s0 s0
  | step (s s1 : Sys) : Reachable hw s0 s → Step hw s s1 → Reachable hw s0 s1

/-- Offsets of the submitted chunks, newest first. -/
def submit_offsets : List Event → List Nat
  | [] => []
  | Event.submit off _ :: es => off :: submit_offsets es
  | _ :: es => submit_offsets es

/-- Number of copy-outs recorded. -/
def n_copy_out : List Event → Nat
  | [] => 0
  | Event.copy_out _ _ _ :: es => n_copy_out es + 1
  | _ :: es => n_copy_out es

/-- A record (newest first) is serialized when at every submission every
earlier submitted chunk has had its completion handled (as many copy-outs as
submissions before it) and the offset is above every earlier submitted
offset. -/
def serialized : List Event → Bool
  | [] => true
  | Event.submit off _ :: older =>
    ((submit_offsets older).length == n_copy_out older)
      && (submit_offsets older).all (fun o => decide (o < off))
      && serialized older
  | _ :: older => serialized older

/-! ## Closed forms used in the proofs -/

/-- The chunk context that `zynqaes_enqueue_next_dma_op` hands to the DMA
channels for `rctx` when it is given the fresh buffers `tx` and `rx`. -/
def chunk_of (rctx : zynqaes_reqctx) (tx rx : List Nat) : zynqaes_dma_ctx :=
  { tx_buf := (zynqaes_set_txkbuf rctx (bytes_at rctx.src_buf (i32 rctx.nbytes_i)) tx
      (min rctx.nbytes_remaining 32768) rctx.cmd).1,
    rx_buf := rx,
    tx_nbytes := (zynqaes_set_txkbuf rctx (bytes_at rctx.src_buf (i32 rctx.nbytes_i)) tx
      (min rctx.nbytes_remaining 32768) rctx.cmd).2,
    rx_nbytes := min rctx.nbytes_remaining 32768,
    src_buf_ptr := i32 rctx.nbytes_i,
    dst_buf_ptr := i32 rctx.nbytes_i,
    is_last := decide (rctx.nbytes_remaining ≤ 32768) }

/-- The request context after a chunk has been submitted. -/
def advance (rctx : zynqaes_reqctx) : zynqaes_reqctx :=
  { rctx with nbytes_i := (rctx.nbytes_i + min rctx.nbytes_remaining 32768) % 4294967296,
              nbytes_remaining := rctx.nbytes_remaining - min rctx.nbytes_remaining 32768 }

/-- The wire frame of a chunk: command word, key, the IV for the CBC commands,
payload. -/
def frame_of (cmd : Nat) (key iv payload : List Nat) : List Nat :=
  cmd_bytes cmd ++ key ++ (if is_cbc_op cmd then iv else []) ++ payload

/-- The running IV after a chunk of `n` bytes with payload `payload` and device
output `out`. -/
def next_iv (cmd : Nat) (iv out payload : List Nat) (n : Nat) : List Nat :=
  if cmd = ZYNQAES_CBC_ENCRYPT then (out.take n).drop (n - 16)
  else if cmd = ZYNQAES_CBC_DECRYPT then payload.drop (n - 16)
  else iv

/-- Chunk-by-chunk closed form of a request over the source `src`: starting at
offset `off` with running IV `iv` and destination buffer `dst`, each chunk of
`min (bytes left) 32768` bytes is framed, answered by the device and copied
out; the destination buffer after the last chunk is the result.  `none` when
the device delivers too few bytes for a chunk or when `k` chunks do not
suffice. -/
def ref_chunks (hw : List Nat → List Nat) (cmd : Nat) (key src : List Nat) :
    Nat → List Nat → Nat → List Nat → Option (List Nat)
  | 0, _, _, _ => none
  | k + 1, iv, off, dst =>
    let n := min (src.length - off) 32768
    let payload := (src.drop off).take n
    let out := hw (frame_of cmd key iv payload)
    if out.length < n then none
    else if src.length - off ≤ 32768 then some (memcpy dst off out n)
    else ref_chunks hw cmd key src k (next_iv cmd iv out payload n) (off + n)
      (memcpy dst off out n)

/-- Shape of the request context of a request over `src` under `cmd` and
`key`, between two chunks. -/
structure ReqWf (cmd : Nat) (key src : List Nat) (rctx : zynqaes_reqctx) : Prop where
  cmd_eq : rctx.cmd = cmd
  key_eq : rctx.ctx.key = key
  src_eq : rctx.src_buf = src
  total : rctx.nbytes_total = src.length
  sum : rctx.nbytes_i + rctx.nbytes_remaining = src.length
  dst_len : rctx.dst_buf.length = src.length
  iv_len : rctx.iv.length = 16
  blocks_i : 16 ∣ rctx.nbytes_i

/-- The chunk context `c` carries the chunk of the request over `src` that
starts at offset `off`, framed with the running IV `iv`. -/
structure ChunkAt (cmd : Nat) (key src iv : List Nat) (off : Nat) (c : zynqaes_dma_ctx) :
    Prop where
  sp : c.src_buf_ptr = (off : Int)
  dp : c.dst_buf_ptr = (off : Int)
  rn : c.rx_nbytes = min (src.length - off) 32768
  fr : c.tx_buf.take c.tx_nbytes
        = frame_of cmd key iv ((src.drop off).take (min (src.length - off) 32768))
  rl : c.rx_buf.length = 32768
  last : c.is_last = decide (src.length - off ≤ 32768)

/-- The chunk contexts `cs` carry, in order, the chunks of the request over
`src` from offset `off` to the end. -/
def ChunksFrom (cmd : Nat) (key src iv : List Nat) : Nat → List zynqaes_dma_ctx → Prop
  | off, [] => src.length ≤ off
  | off, c :: cs =>
    off < src.length ∧ ChunkAt cmd key src iv off c
      ∧ ChunksFrom cmd key src iv (off + min (src.length - off) 32768) cs

/-- The state `s2` is the state `s` after the completion of the chunk at
offset `off` (`n` payload bytes, device output `out`) has been handled, with
`rest` still in flight. -/
structure Completed (cmd : Nat) (src : List Nat) (s s2 : Sys)
    (rest : List zynqaes_dma_ctx) (off n : Nat) (out : List Nat) : Prop where
  inflight : s2.inflight = rest
  dst : s2.rctx.dst_buf = memcpy s.rctx.dst_buf off out n
  iv : s2.rctx.iv = next_iv cmd s.rctx.iv out ((src.drop off).take n) n
  cmd_eq : s2.rctx.cmd = s.rctx.cmd
  src_eq : s2.rctx.src_buf = s.rctx.src_buf
  ctx_eq : s2.rctx.ctx = s.rctx.ctx
  total : s2.rctx.nbytes_total = s.rctx.nbytes_total
  remaining : s2.rctx.nbytes_remaining = s.rctx.nbytes_remaining
  pos : s2.rctx.nbytes_i = s.rctx.nbytes_i
  nbytes : s2.areq.nbytes = s.areq.nbytes
  last : src.length - off ≤ 32768 →
    s2.wq = s.wq ∧ Sys.result s2 = some (memcpy s.rctx.dst_buf off out n)
  more : 32768 < src.length - off →
    s2.areq = s.areq ∧ (Event.finalize 0 ∉ s.log → Event.finalize 0 ∉ s2.log)
      ∧ (is_cbc_op cmd = true → ∃ w, s2.wq = s.wq ++ [w])
      ∧ (is_cbc_op cmd = false → s2.wq = s.wq)

/-- Invariant of a dispatched CBC request, used to prove serialization. -/
structure CbcInv (s : Sys) : Prop where
  cbc : is_cbc_op s.rctx.cmd = true
  sum : s.rctx.nbytes_i + s.rctx.nbytes_remaining = s.rctx.nbytes_total
  fits : s.rctx.nbytes_total < 4294967296
  one : s.inflight.length + s.wq.length ≤ 1
  count : (submit_offsets s.log).length = n_copy_out s.log + s.inflight.length
  below : ∀ o ∈ submit_offsets s.log, o < s.rctx.nbytes_i
  more_inflight : ∀ c ∈ s.inflight, c.is_last = false → s.rctx.nbytes_remaining ≠ 0
  more_wq : s.wq ≠ [] → s.rctx.nbytes_remaining ≠ 0
  ser : serialized s.log = true

/-- Invariant of a dispatched request under any command, used to prove that
the request is finalized at most once: only the newest chunk in flight can be
the final one, and after the finalization nothing is in flight or queued. -/
structure FinInv (s : Sys) : Prop where
  sum : s.rctx.nbytes_i + s.rctx.nbytes_remaining = s.rctx.nbytes_total
  fits : s.rctx.nbytes_total < 4294967296
  wq_cbc : s.wq ≠ [] →
    is_cbc_op s.rctx.cmd = true ∧ s.inflight = [] ∧ s.rctx.nbytes_remaining ≠ 0
  lasts : ∀ c ∈ s.inflight.dropLast, c.is_last = false
  last_rem : ∀ c ∈ s.inflight, c.is_last = true → s.rctx.nbytes_remaining = 0
  more_rem : is_cbc_op s.rctx.cmd = true →
    ∀ c ∈ s.inflight, c.is_last = false → s.rctx.nbytes_remaining ≠ 0
  cbc_one : is_cbc_op s.rctx.cmd = true → s.inflight.length + s.wq.length ≤ 1
  fin : finalize_count s = 0
    ∨ (finalize_count s = 1
        ∧ (∃ off n older, s.log = Event.finalize 0 :: Event.copy_out off n true :: older)
        ∧ s.inflight = [] ∧ s.wq = [])

/-! ## Sample inputs -/

/-- A sample 16-byte key. -/
def sample_key : List Nat := [1, 2, 3, 4, 5, 6, 7, 8, 9, 10, 11, 12, 13, 14, 15, 16]

/-- A sample 16-byte IV. -/
def sample_iv : List Nat := [16, 15, 14, 13, 12, 11, 10, 9, 8, 7, 6, 5, 4, 3, 2, 1]

/-- A sample payload of one block. -/
def sample_payload : List Nat := [0, 17, 34, 51, 68, 85, 102, 119, 136, 153, 170, 187, 204, 221, 238, 255]

/-- A sample request context holding `sample_key` and `sample_iv`, with one
block in each request buffer. -/
def sample_rctx (cmd : Nat) : zynqaes_reqctx :=
  { cmd := cmd, iv := sample_iv, src_buf := sample_payload, dst_buf := List.replicate 16 0,
    nbytes_total := 16, nbytes_remaining := 16, nbytes_i := 0, ctx := { key := sample_key } }

/-- A sample environment in which every allocation and DMA call succeeds. -/
def sample_env : ChunkEnv :=
  { kmalloc_dma_ctx := true,
    kmalloc_tx_buf := some (List.replicate 32804 0),
    kmalloc_rx_buf := some (List.replicate 32768 0),
    tx_prep := true, tx_submit := true, rx_prep := true, rx_submit := true,
    ret_uninit := 0 }

/-- A sample request of one block. -/
def sample_areq : ablkcipher_request :=
  { nbytes := 16, src := sample_payload, dst := List.replicate 16 0, info := sample_iv }

/-- A sample environment for `zynqaes_crypt_req` on `sample_areq`. -/
def sample_renv : ReqEnv :=
  { kmalloc_src_buf := some (List.replicate 16 0),
    kmalloc_dst_buf := some (List.replicate 16 0),
    chunks := [sample_env] }

/-- The state in which `zynqaes_crypt_req` leaves `sample_areq`. -/
def sample_dispatched (cmd : Nat) : Int × Sys :=
  (0, { rctx := advance (sample_rctx cmd),
        areq := sample_areq,
        inflight := [chunk_of (sample_rctx cmd) (List.replicate 32804 0)
                      (List.replicate 32768 0)],
        wq := [],
        log := [Event.submit 0 16] })

/-- A request of length zero. -/
def zero_areq : ablkcipher_request :=
  { nbytes := 0, src := [], dst := [], info := sample_iv }

/-- An environment for `zero_areq`: `kmalloc(0)` hands back a buffer without
bytes, and a chunk would be served. -/
def zero_renv : ReqEnv :=
  { kmalloc_src_buf := some [], kmalloc_dst_buf := some [], chunks := [sample_env] }

/-- What happens to `zero_areq` under command `cmd`: the return value of
`zynqaes_crypt_req`, then, after `fuel` steps of completion delivery and
continuation, the chunks in flight, the queued work, the number of
`crypto_finalize_cipher_request` calls and the result seen by the caller. -/
def zero_length_outcome (hw : List Nat → List Nat) (fuel : Nat) (envs : List ChunkEnv)
    (cmd : Nat) :
    Option (Int × List zynqaes_dma_ctx × List zynqaes_dma_ctx × Nat × Option (List Nat)) :=
  (zynqaes_crypt_req zero_renv (zynqaes_crypt (sample_rctx 0) cmd) ⟨sample_key⟩ zero_areq).map
    (fun r =>
      (r.1, (run hw fuel envs r.2).inflight, (run hw fuel envs r.2).wq,
        finalize_count (run hw fuel envs r.2), (run hw fuel envs r.2).result))

/-- A sample block cipher: exclusive or with the key, then byte reversal. -/
def sample_E (key b : List Nat) : List Nat := (xor_block b key).reverse

/-- The inverse of `sample_E`. -/
def sample_D (key c : List Nat) : List Nat := xor_block c.reverse key

/-- A sample payload of two chunks: 32768 bytes and one more block. -/
def big_payload : List Nat := List.replicate 32784 7

/-- A destination scatterlist for a request of `big_payload.length` bytes. -/
def big_dst : List Nat := List.replicate 32784 0

/-- A sample environment for `zynqaes_crypt_req` on a request of
`big_payload.length` bytes, serving two chunks. -/
def big_renv : ReqEnv :=
  { kmalloc_src_buf := some (List.replicate 32784 0),
    kmalloc_dst_buf := some (List.replicate 32784 0),
    chunks := [sample_env, sample_env] }


/-! # Theorems -/

/-! ## Memory lemmas -/

theorem memcpy_length (dst src : List Nat) (off n : Nat) (h1 : off + n ≤ dst.length)
    (h2 : n ≤ src.length) : (memcpy dst off src n).length = dst.length := by
  simp [memcpy]; omega

theorem memcpy_take_end (dst src : List Nat) (off n : Nat) (h1 : off ≤ dst.length)
    (h2 : n ≤ src.length) : (memcpy dst off src n).take (off + n) = dst.take off ++ src.take n := by
  unfold memcpy
  rw [List.take_append_of_le_length (by simp; omega)]
  rw [List.take_of_length_le (by simp; omega)]

theorem memcpy_take_before (dst src : List Nat) (off n k : Nat) (h1 : off ≤ dst.length)
    (hk : k ≤ off) : (memcpy dst off src n).take k = dst.take k := by
  unfold memcpy
  rw [List.append_assoc, List.take_append_of_le_length (by simp; omega)]
  rw [List.take_take]
  simp [Nat.min_eq_left hk]

theorem memcpy_drop_end (dst src : List Nat) (off n : Nat) (h1 : off ≤ dst.length)
    (h2 : n ≤ src.length) : (memcpy dst off src n).drop (off + n) = dst.drop (off + n) := by
  unfold memcpy
  rw [List.drop_append_eq_append_drop]
  have hl : (dst.take off ++ src.take n).length = off + n := by simp; omega
  rw [List.drop_of_length_le (by omega)]
  simp [hl]

theorem memcpy_zero_full (dst src : List Nat) (n : Nat) (h1 : dst.length = n) :
    memcpy dst 0 src n = src.take n := by
  unfold memcpy
  simp [List.drop_of_length_le (Nat.le_of_eq h1)]


/-! ## Framing lemmas -/

theorem cmd_bytes_length (cmd : Nat) : (cmd_bytes cmd).length = 4 := rfl

theorem i32_of_lt (x : Nat) (h : x < 2147483648) : i32 x = (x : Int) := by
  unfold i32
  have hm : x % 4294967296 = x := Nat.mod_eq_of_lt (by omega)
  rw [hm, if_pos h]

theorem u32_i32 (x : Nat) : u32 (i32 x) = x % 4294967296 := by
  unfold u32 i32
  split_ifs with h <;> omega

theorem nbytes_i_step (x d : Nat) : u32 (i32 (u32 (i32 x) + d)) = (x + d) % 4294967296 := by
  rw [u32_i32, u32_i32]
  omega

theorem bytes_at_natCast (buf : List Nat) (off : Nat) : bytes_at buf (off : Int) = buf.drop off := by
  unfold bytes_at
  rw [if_neg (by omega), Int.toNat_ofNat]

theorem u32_natCast (n : Nat) (h : n < 4294967296) : u32 (n : Int) = n := by
  unfold u32
  have : ((n : Int) % 4294967296) = (n : Int) := Int.emod_eq_of_lt (by omega) (by omega)
  rw [this]; simp

theorem ecb_set_txkbuf_spec (rctx : zynqaes_reqctx) (src tx : List Nat) (n cmd : Nat)
    (hkey : rctx.ctx.key.length = 16) (hsrc : n ≤ src.length) (hcap : n + 20 ≤ tx.length)
    (hint : n + 20 < 4294967296) :
    (zynqaes_ecb_set_txkbuf rctx src tx n cmd).2 = n + 20
    ∧ (zynqaes_ecb_set_txkbuf rctx src tx n cmd).1.take (n + 20)
        = cmd_bytes cmd ++ rctx.ctx.key ++ src.take n
    ∧ (zynqaes_ecb_set_txkbuf rctx src tx n cmd).1.length = tx.length := by
  have hcb := cmd_bytes_length cmd
  have l1 : (memcpy tx 0 (cmd_bytes cmd) 4).length = tx.length :=
    memcpy_length _ _ _ _ (by omega) (by omega)
  have l2 : (memcpy (memcpy tx 0 (cmd_bytes cmd) 4) 4 rctx.ctx.key 16).length = tx.length := by
    rw [memcpy_length _ _ _ _ (by omega) (by omega), l1]
  have t1 : (memcpy tx 0 (cmd_bytes cmd) 4).take 4 = cmd_bytes cmd := by
    have := memcpy_take_end tx (cmd_bytes cmd) 0 4 (by omega) (by omega)
    simpa [List.take_of_length_le (Nat.le_of_eq hcb)] using this
  have t2 : (memcpy (memcpy tx 0 (cmd_bytes cmd) 4) 4 rctx.ctx.key 16).take 20
      = cmd_bytes cmd ++ rctx.ctx.key := by
    have := memcpy_take_end (memcpy tx 0 (cmd_bytes cmd) 4) rctx.ctx.key 4 16 (by omega) (by omega)
    rw [t1, List.take_of_length_le (Nat.le_of_eq hkey)] at this
    simpa using this
  refine ⟨?_, ?_, ?_⟩
  · simp only [zynqaes_ecb_set_txkbuf]
    have : ((n : Int) + (16 : Nat) + (4 : Nat)) = ((n + 20 : Nat) : Int) := by push_cast; ring
    rw [this, u32_natCast _ hint]
  · simp only [zynqaes_ecb_set_txkbuf]
    have := memcpy_take_end (memcpy (memcpy tx 0 (cmd_bytes cmd) 4) 4 rctx.ctx.key 16) src 20 n
      (by omega) hsrc
    rw [t2] at this
    rw [Nat.add_comm n 20]
    simpa using this
  · simp only [zynqaes_ecb_set_txkbuf, ZYNQAES_CMD_LEN, AES_KEYSIZE_128, Nat.reduceAdd]
    rw [memcpy_length _ _ _ _ (by omega) hsrc, l2]

theorem cbc_set_txkbuf_spec (rctx : zynqaes_reqctx) (src tx : List Nat) (n cmd : Nat)
    (hkey : rctx.ctx.key.length = 16) (hiv : rctx.iv.length = 16) (hsrc : n ≤ src.length)
    (hcap : n + 36 ≤ tx.length) (hint : n + 36 < 4294967296) :
    (zynqaes_cbc_set_txkbuf rctx src tx n cmd).2 = n + 36
    ∧ (zynqaes_cbc_set_txkbuf rctx src tx n cmd).1.take (n + 36)
        = cmd_bytes cmd ++ rctx.ctx.key ++ rctx.iv ++ src.take n
    ∧ (zynqaes_cbc_set_txkbuf rctx src tx n cmd).1.length = tx.length := by
  have hcb := cmd_bytes_length cmd
  have l1 : (memcpy tx 0 (cmd_bytes cmd) 4).length = tx.length :=
    memcpy_length _ _ _ _ (by omega) (by omega)
  have l2 : (memcpy (memcpy tx 0 (cmd_bytes cmd) 4) 4 rctx.ctx.key 16).length = tx.length := by
    rw [memcpy_length _ _ _ _ (by omega) (by omega), l1]
  have l3 : (memcpy (memcpy (memcpy tx 0 (cmd_bytes cmd) 4) 4 rctx.ctx.key 16) 20
      rctx.iv 16).length = tx.length := by
    rw [memcpy_length _ _ _ _ (by omega) (by omega), l2]
  have t1 : (memcpy tx 0 (cmd_bytes cmd) 4).take 4 = cmd_bytes cmd := by
    have := memcpy_take_end tx (cmd_bytes cmd) 0 4 (by omega) (by omega)
    simpa [List.take_of_length_le (Nat.le_of_eq hcb)] using this
  have t2 : (memcpy (memcpy tx 0 (cmd_bytes cmd) 4) 4 rctx.ctx.key 16).take 20
      = cmd_bytes cmd ++ rctx.ctx.key := by
    have := memcpy_take_end (memcpy tx 0 (cmd_bytes cmd) 4) rctx.ctx.key 4 16 (by omega) (by omega)
    rw [t1, List.take_of_length_le (Nat.le_of_eq hkey)] at this
    simpa using this
  have t3 : (memcpy (memcpy (memcpy tx 0 (cmd_bytes cmd) 4) 4 rctx.ctx.key 16) 20
      rctx.iv 16).take 36 = cmd_bytes cmd ++ rctx.ctx.key ++ rctx.iv := by
    have := memcpy_take_end (memcpy (memcpy tx 0 (cmd_bytes cmd) 4) 4 rctx.ctx.key 16) rctx.iv
      20 16 (by omega) (by omega)
    rw [t2, List.take_of_length_le (Nat.le_of_eq hiv)] at this
    simpa using this
  refine ⟨?_, ?_, ?_⟩
  · simp only [zynqaes_cbc_set_txkbuf]
    have : (((4 : Nat) : Int) + (16 : Nat) + (16 : Nat) + n) = ((n + 36 : Nat) : Int) := by
      push_cast; ring
    rw [this, u32_natCast _ hint]
  · simp only [zynqaes_cbc_set_txkbuf]
    have := memcpy_take_end (memcpy (memcpy (memcpy tx 0 (cmd_bytes cmd) 4) 4 rctx.ctx.key 16) 20
      rctx.iv 16) src 36 n (by omega) hsrc
    rw [t3] at this
    rw [Nat.add_comm n 36]
    simpa using this
  · simp only [zynqaes_cbc_set_txkbuf, ZYNQAES_CMD_LEN, AES_KEYSIZE_128, AES_BLOCK_SIZE,
      Nat.reduceAdd]
    rw [memcpy_length _ _ _ _ (by omega) hsrc, l3]


theorem cmd_bytes_of_lt (cmd : Nat) (h : cmd < 256) : cmd_bytes cmd = [cmd, 0, 0, 0] := by
  unfold cmd_bytes
  have h1 : cmd % 256 = cmd := Nat.mod_eq_of_lt h
  have h2 : cmd / 256 = 0 := Nat.div_eq_of_lt h
  have h3 : cmd / 65536 = 0 := Nat.div_eq_of_lt (by omega)
  have h4 : cmd / 16777216 = 0 := Nat.div_eq_of_lt (by omega)
  simp [h1, h2, h3, h4]

theorem memcpy_slice (dst rx : List Nat) (off n k : Nat) (h1 : off + n ≤ dst.length)
    (h2 : n ≤ rx.length) (hk : k ≤ n) :
    ((memcpy dst off rx n).drop (off + k)).take (n - k) = (rx.take n).drop k := by
  unfold memcpy
  rw [List.append_assoc, List.drop_append_eq_append_drop]
  have hl : (dst.take off).length = off := by simp; omega
  rw [List.drop_of_length_le (by omega), hl, List.nil_append]
  have hk2 : off + k - off = k := by omega
  rw [hk2, List.drop_append_eq_append_drop]
  have hl2 : (rx.take n).length = n := by simp; omega
  rw [hl2, Nat.sub_eq_zero_of_le hk, List.drop_zero]
  rw [List.take_append_of_le_length (by simp; omega)]
  rw [List.take_of_length_le (by simp; omega)]


/-! ## Copy-out lemmas -/

theorem get_rxkbuf_dst (rctx : zynqaes_reqctx) (so d n cmd : Nat) (rx : List Nat) :
    (zynqaes_get_rxkbuf rctx so d rx n cmd).dst_buf = memcpy rctx.dst_buf d rx n := by
  unfold zynqaes_get_rxkbuf
  split_ifs <;> rfl

theorem get_rxkbuf_frame (rctx : zynqaes_reqctx) (so d n cmd : Nat) (rx : List Nat) :
    (zynqaes_get_rxkbuf rctx so d rx n cmd).src_buf = rctx.src_buf
    ∧ (zynqaes_get_rxkbuf rctx so d rx n cmd).cmd = rctx.cmd
    ∧ (zynqaes_get_rxkbuf rctx so d rx n cmd).ctx = rctx.ctx
    ∧ (zynqaes_get_rxkbuf rctx so d rx n cmd).nbytes_total = rctx.nbytes_total
    ∧ (zynqaes_get_rxkbuf rctx so d rx n cmd).nbytes_remaining = rctx.nbytes_remaining
    ∧ (zynqaes_get_rxkbuf rctx so d rx n cmd).nbytes_i = rctx.nbytes_i := by
  unfold zynqaes_get_rxkbuf
  split_ifs <;> simp

theorem get_rxkbuf_at_frame (rctx : zynqaes_reqctx) (c : zynqaes_dma_ctx) :
    (get_rxkbuf_at rctx c).src_buf = rctx.src_buf
    ∧ (get_rxkbuf_at rctx c).cmd = rctx.cmd
    ∧ (get_rxkbuf_at rctx c).ctx = rctx.ctx
    ∧ (get_rxkbuf_at rctx c).nbytes_total = rctx.nbytes_total
    ∧ (get_rxkbuf_at rctx c).nbytes_remaining = rctx.nbytes_remaining
    ∧ (get_rxkbuf_at rctx c).nbytes_i = rctx.nbytes_i := by
  unfold get_rxkbuf_at
  split_ifs
  · exact ⟨rfl, rfl, rfl, rfl, rfl, rfl⟩
  · exact get_rxkbuf_frame _ _ _ _ _ _

theorem get_rxkbuf_at_ptr (rctx : zynqaes_reqctx) (c : zynqaes_dma_ctx) (off : Nat)
    (hs : c.src_buf_ptr = (off : Int)) (hd : c.dst_buf_ptr = (off : Int)) :
    get_rxkbuf_at rctx c = zynqaes_get_rxkbuf rctx off off c.rx_buf c.rx_nbytes rctx.cmd := by
  unfold get_rxkbuf_at
  rw [hs, hd, if_neg (by omega), Int.toNat_ofNat]

theorem get_rxkbuf_iv_enc (rctx : zynqaes_reqctx) (so d n : Nat) (rx : List Nat)
    (hiv : rctx.iv.length = 16) (hn : 16 ≤ n) (hd : d + n ≤ rctx.dst_buf.length)
    (hrx : n ≤ rx.length) :
    (zynqaes_get_rxkbuf rctx so d rx n ZYNQAES_CBC_ENCRYPT).iv = (rx.take n).drop (n - 16) := by
  unfold zynqaes_get_rxkbuf
  simp only [if_true]
  rw [memcpy_zero_full _ _ 16 hiv]
  have := memcpy_slice rctx.dst_buf rx d n (n - 16) hd hrx (by omega)
  have h16 : n - (n - 16) = 16 := by omega
  rw [h16] at this
  exact this

theorem get_rxkbuf_iv_dec (rctx : zynqaes_reqctx) (so d n : Nat) (rx : List Nat)
    (hiv : rctx.iv.length = 16) :
    (zynqaes_get_rxkbuf rctx so d rx n ZYNQAES_CBC_DECRYPT).iv
      = (rctx.src_buf.drop (so + (n - 16))).take 16 := by
  unfold zynqaes_get_rxkbuf
  have hne : ¬ (ZYNQAES_CBC_DECRYPT = ZYNQAES_CBC_ENCRYPT) := by decide
  simp only [hne, if_false, if_true]
  rw [memcpy_zero_full _ _ 16 hiv]

theorem get_rxkbuf_iv_other (rctx : zynqaes_reqctx) (so d n cmd : Nat) (rx : List Nat)
    (h : is_cbc_op cmd = false) : (zynqaes_get_rxkbuf rctx so d rx n cmd).iv = rctx.iv := by
  unfold zynqaes_get_rxkbuf
  simp only [is_cbc_op, Bool.or_eq_false_iff, beq_eq_false_iff_ne, ne_eq] at h
  simp [h.1, h.2]

theorem get_rxkbuf_iv_length (rctx : zynqaes_reqctx) (so d n cmd : Nat) (rx : List Nat)
    (hiv : rctx.iv.length = 16) (hn : 16 ≤ n) (hd : d + n ≤ rctx.dst_buf.length)
    (hrx : n ≤ rx.length) (hs : so + n ≤ rctx.src_buf.length) :
    (zynqaes_get_rxkbuf rctx so d rx n cmd).iv.length = 16 := by
  by_cases h1 : cmd = ZYNQAES_CBC_ENCRYPT
  · subst h1
    rw [get_rxkbuf_iv_enc rctx so d n rx hiv hn hd hrx]
    simp; omega
  · by_cases h2 : cmd = ZYNQAES_CBC_DECRYPT
    · subst h2
      rw [get_rxkbuf_iv_dec rctx so d n rx hiv]
      simp; omega
    · rw [get_rxkbuf_iv_other rctx so d n cmd rx (by simp [is_cbc_op, h1, h2])]
      exact hiv

theorem frame_iv_slot (a b iv p t : List Nat) (m : Nat) (ha : a.length = 4) (hb : b.length = 16)
    (hiv : iv.length = 16) (h : t.take (m + 36) = a ++ b ++ iv ++ p) :
    (t.drop 20).take 16 = iv := by
  have h1 : (t.drop 20).take 16 = ((t.take (m + 36)).drop 20).take 16 := by
    rw [List.drop_take, List.take_take]
    congr 1
    omega
  rw [h1, h]
  have : a ++ b ++ iv ++ p = (a ++ b) ++ (iv ++ p) := by simp
  rw [this, List.drop_left' (by simp; omega)]
  rw [List.take_left' hiv]


/-! ## Frame layout -/

/-- C1: for every key, IV and payload of `n` bytes, `zynqaes_set_txkbuf` writes
the frame `[cmd, 0, 0, 0]` (the little-endian command word), the 16 key bytes
and the `n` payload bytes and returns `n + 20` for the ECB commands; for the CBC
commands the 16 bytes of the running IV stand between key and payload and the
return value is `n + 36`.  The transmit buffer is large enough for the frame
and the frame length fits the `int` the length is passed in. -/
theorem set_txkbuf_frame (rctx : zynqaes_reqctx) (payload rest tx_kbuf : List Nat) (cmd : Nat)
    (hkey : rctx.ctx.key.length = 16) (hiv : rctx.iv.length = 16)
    (hcap : payload.length + 36 ≤ tx_kbuf.length) (hint : payload.length + 36 < 2147483648) :
    ((cmd = 0x20 ∨ cmd = 0x30) →
      (zynqaes_set_txkbuf rctx (payload ++ rest) tx_kbuf payload.length cmd).2
          = payload.length + 20
      ∧ (zynqaes_set_txkbuf rctx (payload ++ rest) tx_kbuf payload.length cmd).1.take
            (payload.length + 20)
          = [cmd, 0, 0, 0] ++ rctx.ctx.key ++ payload)
    ∧ ((cmd = 0x40 ∨ cmd = 0x41) →
      (zynqaes_set_txkbuf rctx (payload ++ rest) tx_kbuf payload.length cmd).2
          = payload.length + 36
      ∧ (zynqaes_set_txkbuf rctx (payload ++ rest) tx_kbuf payload.length cmd).1.take
            (payload.length + 36)
          = [cmd, 0, 0, 0] ++ rctx.ctx.key ++ rctx.iv ++ payload) := by
  have hsrc : payload.length ≤ (payload ++ rest).length := by simp
  have htk : (payload ++ rest).take payload.length = payload := List.take_left' rfl
  constructor
  · intro hc
    have hlt : cmd < 256 := by rcases hc with h | h <;> omega
    have hsel : zynqaes_set_txkbuf rctx (payload ++ rest) tx_kbuf payload.length cmd
        = zynqaes_ecb_set_txkbuf rctx (payload ++ rest) tx_kbuf payload.length cmd := by
      unfold zynqaes_set_txkbuf
      rw [if_pos hc]
    obtain ⟨h1, h2, _⟩ := ecb_set_txkbuf_spec rctx (payload ++ rest) tx_kbuf payload.length cmd
      hkey hsrc (by omega) (by omega)
    rw [hsel, h1, h2, htk, cmd_bytes_of_lt cmd hlt]
    exact ⟨rfl, rfl⟩
  · intro hc
    have hlt : cmd < 256 := by rcases hc with h | h <;> omega
    have hne : ¬ (cmd = ZYNQAES_ECB_ENCRYPT ∨ cmd = ZYNQAES_ECB_DECRYPT) := by
      rcases hc with h | h <;> subst h <;> decide
    have hsel : zynqaes_set_txkbuf rctx (payload ++ rest) tx_kbuf payload.length cmd
        = zynqaes_cbc_set_txkbuf rctx (payload ++ rest) tx_kbuf payload.length cmd := by
      unfold zynqaes_set_txkbuf
      rw [if_neg hne, if_pos hc]
    obtain ⟨h1, h2, _⟩ := cbc_set_txkbuf_spec rctx (payload ++ rest) tx_kbuf payload.length cmd
      hkey hiv hsrc (by omega) (by omega)
    rw [hsel, h1, h2, htk, cmd_bytes_of_lt cmd hlt]
    exact ⟨rfl, rfl⟩

theorem set_txkbuf_frame_witness :
    ((0x40 = 0x20 ∨ 0x40 = 0x30) →
      (zynqaes_set_txkbuf (sample_rctx 0x40) (sample_payload ++ []) (List.replicate 32804 0)
          sample_payload.length 0x40).2 = sample_payload.length + 20
      ∧ (zynqaes_set_txkbuf (sample_rctx 0x40) (sample_payload ++ []) (List.replicate 32804 0)
          sample_payload.length 0x40).1.take (sample_payload.length + 20)
          = [0x40, 0, 0, 0] ++ (sample_rctx 0x40).ctx.key ++ sample_payload)
    ∧ ((0x40 = 0x40 ∨ 0x40 = 0x41) →
      (zynqaes_set_txkbuf (sample_rctx 0x40) (sample_payload ++ []) (List.replicate 32804 0)
          sample_payload.length 0x40).2 = sample_payload.length + 36
      ∧ (zynqaes_set_txkbuf (sample_rctx 0x40) (sample_payload ++ []) (List.replicate 32804 0)
          sample_payload.length 0x40).1.take (sample_payload.length + 36)
          = [0x40, 0, 0, 0] ++ (sample_rctx 0x40).ctx.key ++ (sample_rctx 0x40).iv
              ++ sample_payload) :=
  set_txkbuf_frame (sample_rctx 0x40) sample_payload [] (List.replicate 32804 0) 0x40
    (by decide) (by decide) (by rw [List.length_replicate]; decide) (by decide)

/-! ## IV chaining between consecutive chunks -/

/-- C3: after `zynqaes_get_rxkbuf` has handled a chunk of `n ≥ 16` payload bytes
at offset `off`, the IV slot (bytes 20 to 35) of the frame that
`zynqaes_cbc_set_txkbuf` builds next holds, for CBC-encrypt, the last 16 bytes
of the received output, which are also the last 16 bytes of the chunk's slice
of the destination buffer, and, for CBC-decrypt, the last 16 bytes of the
chunk's slice of the source buffer; for the ECB commands the IV field of the
request is unchanged. -/
theorem cbc_iv_chaining (rctx : zynqaes_reqctx) (off n : Nat) (rx_kbuf : List Nat)
    (next_payload next_tx : List Nat) (m : Nat)
    (hkey : rctx.ctx.key.length = 16) (hiv : rctx.iv.length = 16) (hn : 16 ≤ n)
    (hrx : n ≤ rx_kbuf.length) (hdst : off + n ≤ rctx.dst_buf.length)
    (hsrc : off + n ≤ rctx.src_buf.length) (hm : m ≤ next_payload.length)
    (hcap : m + 36 ≤ next_tx.length) (hint : m + 36 < 2147483648) :
    (((zynqaes_cbc_set_txkbuf (zynqaes_get_rxkbuf rctx off off rx_kbuf n 0x40)
          next_payload next_tx m 0x40).1.drop 20).take 16 = (rx_kbuf.take n).drop (n - 16)
      ∧ (rx_kbuf.take n).drop (n - 16)
          = (((zynqaes_get_rxkbuf rctx off off rx_kbuf n 0x40).dst_buf.drop off).take n).drop
              (n - 16))
    ∧ ((zynqaes_cbc_set_txkbuf (zynqaes_get_rxkbuf rctx off off rx_kbuf n 0x41)
          next_payload next_tx m 0x41).1.drop 20).take 16
        = ((rctx.src_buf.drop off).take n).drop (n - 16)
    ∧ (zynqaes_get_rxkbuf rctx off off rx_kbuf n 0x20).iv = rctx.iv
    ∧ (zynqaes_get_rxkbuf rctx off off rx_kbuf n 0x30).iv = rctx.iv := by
  have hfr := fun c => get_rxkbuf_frame rctx off off n c rx_kbuf
  have hl := fun c => get_rxkbuf_iv_length rctx off off n c rx_kbuf hiv hn hdst hrx hsrc
  have slot : ∀ c, ((zynqaes_cbc_set_txkbuf (zynqaes_get_rxkbuf rctx off off rx_kbuf n c)
      next_payload next_tx m c).1.drop 20).take 16
      = (zynqaes_get_rxkbuf rctx off off rx_kbuf n c).iv := by
    intro c
    have hk : (zynqaes_get_rxkbuf rctx off off rx_kbuf n c).ctx.key.length = 16 := by
      rw [(hfr c).2.2.1]; exact hkey
    obtain ⟨_, h2, _⟩ := cbc_set_txkbuf_spec (zynqaes_get_rxkbuf rctx off off rx_kbuf n c)
      next_payload next_tx m c hk (hl c) hm hcap (by omega)
    exact frame_iv_slot _ _ _ _ _ m (cmd_bytes_length c) hk (hl c) h2
  refine ⟨⟨?_, ?_⟩, ?_, ?_, ?_⟩
  · rw [slot]
    exact get_rxkbuf_iv_enc rctx off off n rx_kbuf hiv hn hdst hrx
  · rw [get_rxkbuf_dst]
    have h0 := memcpy_slice rctx.dst_buf rx_kbuf off n 0 hdst hrx (by omega)
    simp only [Nat.add_zero, Nat.sub_zero, List.drop_zero] at h0
    rw [h0]
  · rw [slot]
    rw [show (0x41 : Nat) = ZYNQAES_CBC_DECRYPT from rfl]
    rw [get_rxkbuf_iv_dec rctx off off n rx_kbuf hiv]
    rw [List.drop_take, List.drop_drop]
    have e1 : n - (n - 16) = 16 := by omega
    have e2 : off + (n - 16) = n - 16 + off := by omega
    rw [e1, e2]
  · exact get_rxkbuf_iv_other rctx off off n 0x20 rx_kbuf (by decide)
  · exact get_rxkbuf_iv_other rctx off off n 0x30 rx_kbuf (by decide)


theorem cbc_iv_chaining_witness :
    (((zynqaes_cbc_set_txkbuf (zynqaes_get_rxkbuf (sample_rctx 0x40) 0 0 sample_iv 16 0x40)
          sample_payload (List.replicate 32804 0) 16 0x40).1.drop 20).take 16
        = (sample_iv.take 16).drop (16 - 16)
      ∧ (sample_iv.take 16).drop (16 - 16)
          = (((zynqaes_get_rxkbuf (sample_rctx 0x40) 0 0 sample_iv 16 0x40).dst_buf.drop 0).take
              16).drop (16 - 16))
    ∧ ((zynqaes_cbc_set_txkbuf (zynqaes_get_rxkbuf (sample_rctx 0x40) 0 0 sample_iv 16 0x41)
          sample_payload (List.replicate 32804 0) 16 0x41).1.drop 20).take 16
        = (((sample_rctx 0x40).src_buf.drop 0).take 16).drop (16 - 16)
    ∧ (zynqaes_get_rxkbuf (sample_rctx 0x40) 0 0 sample_iv 16 0x20).iv = (sample_rctx 0x40).iv
    ∧ (zynqaes_get_rxkbuf (sample_rctx 0x40) 0 0 sample_iv 16 0x30).iv = (sample_rctx 0x40).iv :=
  cbc_iv_chaining (sample_rctx 0x40) 0 16 sample_iv sample_payload (List.replicate 32804 0) 16
    (by decide) (by decide) (by decide) (by decide) (by decide) (by decide) (by decide)
    (by rw [List.length_replicate]; decide) (by decide)


/-! ## One call of `zynqaes_enqueue_next_dma_op` -/

theorem dma_nbytes_eq_min (r : Nat) :
    (if r < ZYNQAES_FIFO_NBYTES then r else ZYNQAES_FIFO_NBYTES) = min r 32768 := by
  split_ifs with h
  · exact (Nat.min_eq_left (Nat.le_of_lt h)).symm
  · exact (Nat.min_eq_right (Nat.le_of_not_lt h)).symm

theorem chunk_env_ok_iff (env : ChunkEnv) :
    env.ok = true ↔
      env.kmalloc_dma_ctx = true
      ∧ (∃ tx, env.kmalloc_tx_buf = some tx ∧ tx.length = 32804)
      ∧ (∃ rx, env.kmalloc_rx_buf = some rx ∧ rx.length = 32768)
      ∧ env.tx_prep = true ∧ env.tx_submit = true ∧ env.rx_prep = true
      ∧ env.rx_submit = true := by
  unfold ChunkEnv.ok
  cases h1 : env.kmalloc_tx_buf <;> cases h2 : env.kmalloc_rx_buf <;>
    simp [Bool.and_eq_true, and_assoc, ZYNQAES_FIFO_NBYTES, ZYNQAES_CMD_LEN, AES_KEYSIZE_128]

theorem enqueue_of_ok (env : ChunkEnv) (rctx : zynqaes_reqctx) (hok : env.ok = true) :
    ∃ tx rx, env.kmalloc_tx_buf = some tx ∧ env.kmalloc_rx_buf = some rx
      ∧ tx.length = 32804 ∧ rx.length = 32768
      ∧ zynqaes_enqueue_next_dma_op env rctx = (0, advance rctx, some (chunk_of rctx tx rx)) := by
  obtain ⟨h0, ⟨tx, htx, htl⟩, ⟨rx, hrx, hrl⟩, h1, h2, h3, h4⟩ := (chunk_env_ok_iff env).1 hok
  refine ⟨tx, rx, htx, hrx, htl, hrl, ?_⟩
  unfold zynqaes_enqueue_next_dma_op zynqaes_create_dma_ctx zynqaes_dma_op
  simp only [h0, htx, hrx, h1, h2, h3, h4, dma_nbytes_eq_min]
  simp only [Bool.not_true, Bool.false_eq_true, if_false, ne_eq, not_true_eq_false]
  unfold advance chunk_of
  by_cases hle : rctx.nbytes_remaining ≤ 32768
  · have : rctx.nbytes_remaining = min rctx.nbytes_remaining 32768 := (Nat.min_eq_left hle).symm
    simp [hle, ← this, nbytes_i_step]
  · have : ¬ rctx.nbytes_remaining = min rctx.nbytes_remaining 32768 := by
      rw [Nat.min_eq_right (by omega)]; omega
    simp [hle, this, nbytes_i_step]


theorem dma_op_const (env : ChunkEnv) :
    ∃ ret : Int, ∀ c a b, zynqaes_dma_op env c a b = ret :=
  ⟨_, fun _ _ _ => rfl⟩

theorem enqueue_cases (env : ChunkEnv) (rctx : zynqaes_reqctx) :
    (∃ ret, zynqaes_enqueue_next_dma_op env rctx = (ret, rctx, none))
    ∨ (∃ tx rx, zynqaes_enqueue_next_dma_op env rctx
        = (0, advance rctx, some (chunk_of rctx tx rx))) := by
  obtain ⟨ret, hret⟩ := dma_op_const env
  unfold zynqaes_enqueue_next_dma_op zynqaes_create_dma_ctx
  simp only [hret, dma_nbytes_eq_min]
  cases h0 : env.kmalloc_dma_ctx with
  | false => left; exact ⟨env.ret_uninit, by simp⟩
  | true =>
    cases htx : env.kmalloc_tx_buf with
    | none => left; exact ⟨env.ret_uninit, by simp⟩
    | some tx =>
      cases hrx : env.kmalloc_rx_buf with
      | none => left; exact ⟨env.ret_uninit, by simp⟩
      | some rx =>
        by_cases hr : ret = 0
        · right
          refine ⟨tx, rx, ?_⟩
          subst hr
          unfold advance chunk_of
          by_cases hle : rctx.nbytes_remaining ≤ 32768
          · have : rctx.nbytes_remaining = min rctx.nbytes_remaining 32768 :=
              (Nat.min_eq_left hle).symm
            simp [hle, ← this, nbytes_i_step]
          · have : ¬ rctx.nbytes_remaining = min rctx.nbytes_remaining 32768 := by
              rw [Nat.min_eq_right (by omega)]; omega
            simp [hle, this, nbytes_i_step]
        · left
          exact ⟨ret, by simp [hr]⟩


/-! ## Progress counters -/

theorem setup_counters (renv : ReqEnv) (rctx0 : zynqaes_reqctx) (ctx : zynqaes_ctx)
    (areq : ablkcipher_request) (h : (crypt_req_setup renv rctx0 ctx areq).1 = 0) :
    (crypt_req_setup renv rctx0 ctx areq).2.rctx.nbytes_i = 0
    ∧ (crypt_req_setup renv rctx0 ctx areq).2.rctx.nbytes_remaining = areq.nbytes
    ∧ (crypt_req_setup renv rctx0 ctx areq).2.rctx.nbytes_total = areq.nbytes := by
  unfold crypt_req_setup at h ⊢
  cases hs : renv.kmalloc_src_buf with
  | none => simp [hs, ENOMEM] at h
  | some src_mem =>
    cases hd : renv.kmalloc_dst_buf with
    | none => simp [hs, hd, ENOMEM] at h
    | some dst_mem =>
      simp only []
      split_ifs <;> simp

theorem setup_returns_zero (renv : ReqEnv) (rctx0 : zynqaes_reqctx) (ctx : zynqaes_ctx)
    (areq : ablkcipher_request) (hs : renv.kmalloc_src_buf.isSome = true)
    (hd : renv.kmalloc_dst_buf.isSome = true) :
    (crypt_req_setup renv rctx0 ctx areq).1 = 0 := by
  unfold crypt_req_setup
  cases h1 : renv.kmalloc_src_buf with
  | none => rw [h1] at hs; simp at hs
  | some src_mem =>
    cases h2 : renv.kmalloc_dst_buf with
    | none => rw [h2] at hd; simp at hd
    | some dst_mem => rfl

/-- C6: when both request buffers are allocated, the set-up of
`zynqaes_crypt_req` returns `0`; whenever it returns `0` it leaves
`nbytes_i = 0` and `nbytes_remaining = nbytes_total = areq->nbytes`, so that
`nbytes_i + nbytes_remaining = nbytes_total`; and that equation is kept by
every call of `zynqaes_enqueue_next_dma_op` on a request whose total fits a
`u32`: when the call submits a chunk both counters move by the chunk's payload
length, when it fails the request context is unchanged. -/
theorem counters_invariant (renv : ReqEnv) (rctx0 : zynqaes_reqctx) (ctx : zynqaes_ctx)
    (areq : ablkcipher_request) (env : ChunkEnv) (rctx : zynqaes_reqctx) :
    (renv.kmalloc_src_buf.isSome = true → renv.kmalloc_dst_buf.isSome = true →
      (crypt_req_setup renv rctx0 ctx areq).1 = 0)
    ∧ ((crypt_req_setup renv rctx0 ctx areq).1 = 0 →
      (crypt_req_setup renv rctx0 ctx areq).2.rctx.nbytes_i = 0
      ∧ (crypt_req_setup renv rctx0 ctx areq).2.rctx.nbytes_remaining = areq.nbytes
      ∧ (crypt_req_setup renv rctx0 ctx areq).2.rctx.nbytes_i
          + (crypt_req_setup renv rctx0 ctx areq).2.rctx.nbytes_remaining
          = (crypt_req_setup renv rctx0 ctx areq).2.rctx.nbytes_total)
    ∧ (rctx.nbytes_i + rctx.nbytes_remaining = rctx.nbytes_total →
        rctx.nbytes_total < 4294967296 →
      (zynqaes_enqueue_next_dma_op env rctx).2.1.nbytes_i
          + (zynqaes_enqueue_next_dma_op env rctx).2.1.nbytes_remaining
          = (zynqaes_enqueue_next_dma_op env rctx).2.1.nbytes_total
      ∧ (zynqaes_enqueue_next_dma_op env rctx).2.1.nbytes_total = rctx.nbytes_total
      ∧ (∀ c, (zynqaes_enqueue_next_dma_op env rctx).2.2 = some c →
          c.rx_nbytes = min rctx.nbytes_remaining 32768
          ∧ (zynqaes_enqueue_next_dma_op env rctx).2.1.nbytes_i = rctx.nbytes_i + c.rx_nbytes
          ∧ (zynqaes_enqueue_next_dma_op env rctx).2.1.nbytes_remaining + c.rx_nbytes
              = rctx.nbytes_remaining)
      ∧ ((zynqaes_enqueue_next_dma_op env rctx).2.2 = none →
          (zynqaes_enqueue_next_dma_op env rctx).2.1 = rctx)) := by
  refine ⟨setup_returns_zero renv rctx0 ctx areq, ?_, ?_⟩
  · intro h
    obtain ⟨h1, h2, h3⟩ := setup_counters renv rctx0 ctx areq h
    rw [h1, h2, h3]
    simp
  · intro hinv hlt
    rcases enqueue_cases env rctx with ⟨ret, he⟩ | ⟨tx, rx, he⟩
    · rw [he]
      exact ⟨hinv, rfl, fun c hc => by simp at hc, fun _ => rfl⟩
    · rw [he]
      have hmin : min rctx.nbytes_remaining 32768 ≤ rctx.nbytes_remaining := Nat.min_le_left _ _
      have hmod : (rctx.nbytes_i + min rctx.nbytes_remaining 32768) % 4294967296
          = rctx.nbytes_i + min rctx.nbytes_remaining 32768 := Nat.mod_eq_of_lt (by omega)
      refine ⟨?_, rfl, ?_, ?_⟩
      · show (rctx.nbytes_i + min rctx.nbytes_remaining 32768) % 4294967296
            + (rctx.nbytes_remaining - min rctx.nbytes_remaining 32768) = rctx.nbytes_total
        rw [hmod]
        omega
      · intro c hc
        have hc2 : chunk_of rctx tx rx = c := Option.some.inj hc
        subst hc2
        show min rctx.nbytes_remaining 32768 = min rctx.nbytes_remaining 32768
          ∧ (rctx.nbytes_i + min rctx.nbytes_remaining 32768) % 4294967296
              = rctx.nbytes_i + min rctx.nbytes_remaining 32768
          ∧ (rctx.nbytes_remaining - min rctx.nbytes_remaining 32768)
              + min rctx.nbytes_remaining 32768 = rctx.nbytes_remaining
        exact ⟨rfl, hmod, by omega⟩
      · intro hc
        simp at hc

theorem counters_invariant_witness :
    (sample_renv.kmalloc_src_buf.isSome = true ∧ sample_renv.kmalloc_dst_buf.isSome = true)
    ∧ (crypt_req_setup sample_renv (sample_rctx 0x20) ⟨sample_key⟩ sample_areq).1 = 0
    ∧ ((crypt_req_setup sample_renv (sample_rctx 0x20) ⟨sample_key⟩ sample_areq).2.rctx.nbytes_i
          = 0
      ∧ (crypt_req_setup sample_renv (sample_rctx 0x20) ⟨sample_key⟩
          sample_areq).2.rctx.nbytes_remaining = sample_areq.nbytes
      ∧ (crypt_req_setup sample_renv (sample_rctx 0x20) ⟨sample_key⟩ sample_areq).2.rctx.nbytes_i
          + (crypt_req_setup sample_renv (sample_rctx 0x20) ⟨sample_key⟩
              sample_areq).2.rctx.nbytes_remaining
          = (crypt_req_setup sample_renv (sample_rctx 0x20) ⟨sample_key⟩
              sample_areq).2.rctx.nbytes_total)
    ∧ ((sample_rctx 0x20).nbytes_i + (sample_rctx 0x20).nbytes_remaining
          = (sample_rctx 0x20).nbytes_total
      ∧ (sample_rctx 0x20).nbytes_total < 4294967296)
    ∧ ((zynqaes_enqueue_next_dma_op sample_env (sample_rctx 0x20)).2.1.nbytes_i
          + (zynqaes_enqueue_next_dma_op sample_env (sample_rctx 0x20)).2.1.nbytes_remaining
          = (zynqaes_enqueue_next_dma_op sample_env (sample_rctx 0x20)).2.1.nbytes_total
      ∧ (zynqaes_enqueue_next_dma_op sample_env (sample_rctx 0x20)).2.1.nbytes_total
          = (sample_rctx 0x20).nbytes_total
      ∧ (∀ c, (zynqaes_enqueue_next_dma_op sample_env (sample_rctx 0x20)).2.2 = some c →
          c.rx_nbytes = min (sample_rctx 0x20).nbytes_remaining 32768
          ∧ (zynqaes_enqueue_next_dma_op sample_env (sample_rctx 0x20)).2.1.nbytes_i
              = (sample_rctx 0x20).nbytes_i + c.rx_nbytes
          ∧ (zynqaes_enqueue_next_dma_op sample_env (sample_rctx 0x20)).2.1.nbytes_remaining
              + c.rx_nbytes = (sample_rctx 0x20).nbytes_remaining)
      ∧ ((zynqaes_enqueue_next_dma_op sample_env (sample_rctx 0x20)).2.2 = none →
          (zynqaes_enqueue_next_dma_op sample_env (sample_rctx 0x20)).2.1
            = sample_rctx 0x20)) :=
  ⟨⟨rfl, rfl⟩,
   (counters_invariant sample_renv (sample_rctx 0x20) ⟨sample_key⟩ sample_areq sample_env
      (sample_rctx 0x20)).1 rfl rfl,
   (counters_invariant sample_renv (sample_rctx 0x20) ⟨sample_key⟩ sample_areq sample_env
      (sample_rctx 0x20)).2.1
      ((counters_invariant sample_renv (sample_rctx 0x20) ⟨sample_key⟩ sample_areq sample_env
        (sample_rctx 0x20)).1 rfl rfl),
   ⟨by decide, by decide⟩,
   (counters_invariant sample_renv (sample_rctx 0x20) ⟨sample_key⟩ sample_areq sample_env
      (sample_rctx 0x20)).2.2 (by decide) (by decide)⟩

/-! ## Chunk count and chunk lengths -/

theorem enqueue_all_spec (envs : List ChunkEnv) :
    ∀ (rctx : zynqaes_reqctx), envs.all ChunkEnv.ok = true →
      (rctx.nbytes_remaining + 32767) / 32768 ≤ envs.length →
      ∃ chunks, enqueue_all envs rctx = some chunks
        ∧ chunks.length = (rctx.nbytes_remaining + 32767) / 32768
        ∧ (∀ k (hk : k < chunks.length),
            (chunks.get ⟨k, hk⟩).rx_nbytes
              = min (rctx.nbytes_remaining
                      - ((chunks.take k).map zynqaes_dma_ctx.rx_nbytes).sum) 32768)
        ∧ (∀ c ∈ chunks, c.rx_nbytes ≤ 32768)
        ∧ (chunks.map zynqaes_dma_ctx.rx_nbytes).sum = rctx.nbytes_remaining := by
  induction envs with
  | nil =>
    intro rctx _ hlen
    have h0 : rctx.nbytes_remaining = 0 := by
      simp only [List.length_nil, Nat.le_zero] at hlen
      by_contra hne
      have : 1 ≤ (rctx.nbytes_remaining + 32767) / 32768 :=
        (Nat.le_div_iff_mul_le (by decide)).2 (by omega)
      omega
    refine ⟨[], by simp [enqueue_all, h0], by simp [h0], ?_, by simp, by simp [h0]⟩
    intro k hk
    simp at hk
  | cons env envs ih =>
    intro rctx hok hlen
    simp only [List.all_cons, Bool.and_eq_true] at hok
    by_cases h0 : rctx.nbytes_remaining = 0
    · refine ⟨[], by simp [enqueue_all, h0], by simp [h0], ?_, by simp, by simp [h0]⟩
      intro k hk
      simp at hk
    · obtain ⟨tx, rx, _, _, _, _, he⟩ := enqueue_of_ok env rctx hok.1
      have hrem : (advance rctx).nbytes_remaining
          = rctx.nbytes_remaining - min rctx.nbytes_remaining 32768 := rfl
      have hcount : (rctx.nbytes_remaining + 32767) / 32768
          = ((advance rctx).nbytes_remaining + 32767) / 32768 + 1 := by
        rw [hrem]
        omega
      obtain ⟨cs, hcs, hl, hk, hb, hsum⟩ := ih (advance rctx) hok.2 (by
        simp only [List.length_cons] at hlen
        omega)
      refine ⟨chunk_of rctx tx rx :: cs, ?_, ?_, ?_, ?_, ?_⟩
      · simp [enqueue_all, h0, he, hcs]
      · simp only [List.length_cons, hl, hcount]
      · intro k hk2
        cases k with
        | zero => simp [chunk_of]
        | succ j =>
          have hj : j < cs.length := by simpa using hk2
          have := hk j hj
          simp only [List.get_cons_succ, List.take_succ_cons, List.map_cons, List.sum_cons]
          rw [this, hrem]
          have hc : (chunk_of rctx tx rx).rx_nbytes = min rctx.nbytes_remaining 32768 := rfl
          rw [hc, Nat.sub_sub]
      · intro c hc
        simp only [List.mem_cons] at hc
        rcases hc with hc | hc
        · subst hc
          exact Nat.min_le_right _ _
        · exact hb c hc
      · simp only [List.map_cons, List.sum_cons, hsum, hrem]
        have hc : (chunk_of rctx tx rx).rx_nbytes = min rctx.nbytes_remaining 32768 := rfl
        rw [hc]
        omega

theorem sample_env_ok : sample_env.ok = true :=
  (chunk_env_ok_iff sample_env).2
    ⟨rfl, ⟨_, rfl, List.length_replicate _ _⟩, ⟨_, rfl, List.length_replicate _ _⟩,
      rfl, rfl, rfl, rfl⟩

/-- C2: for a request of `L` bytes (`nbytes_i = 0`, `nbytes_remaining = L`),
when every allocation and DMA submission succeeds, repeated application of
`zynqaes_enqueue_next_dma_op` until `nbytes_remaining = 0` produces exactly
`ceil(L / 32768)` chunks; the payload length of chunk `k` is the minimum of the
bytes remaining before it and `32768`; no chunk exceeds `32768` bytes; and the
chunk payload lengths add up to `L`. -/
theorem chunk_count_and_lengths (L : Nat) (rctx : zynqaes_reqctx) (envs : List ChunkEnv)
    (hi : rctx.nbytes_i = 0) (hr : rctx.nbytes_remaining = L)
    (hok : envs.all ChunkEnv.ok = true) (hlen : (L + 32767) / 32768 ≤ envs.length) :
    ∃ chunks, enqueue_all envs rctx = some chunks
      ∧ chunks.length = (L + 32767) / 32768
      ∧ (∀ k (hk : k < chunks.length),
          (chunks.get ⟨k, hk⟩).rx_nbytes
            = min (L - ((chunks.take k).map zynqaes_dma_ctx.rx_nbytes).sum) 32768)
      ∧ (∀ c ∈ chunks, c.rx_nbytes ≤ 32768)
      ∧ (chunks.map zynqaes_dma_ctx.rx_nbytes).sum = L := by
  have _ := hi
  subst hr
  exact enqueue_all_spec envs rctx hok hlen

theorem chunk_count_and_lengths_witness :
    ∃ chunks, enqueue_all [sample_env] (sample_rctx 0x20) = some chunks
      ∧ chunks.length = (16 + 32767) / 32768
      ∧ (∀ k (hk : k < chunks.length),
          (chunks.get ⟨k, hk⟩).rx_nbytes
            = min (16 - ((chunks.take k).map zynqaes_dma_ctx.rx_nbytes).sum) 32768)
      ∧ (∀ c ∈ chunks, c.rx_nbytes ≤ 32768)
      ∧ (chunks.map zynqaes_dma_ctx.rx_nbytes).sum = 16 :=
  chunk_count_and_lengths 16 (sample_rctx 0x20) [sample_env] rfl rfl
    (by simp [sample_env_ok]) (by decide)


/-! ## CBC serialization -/

theorem sys_enqueue_cases (env : ChunkEnv) (s : Sys) :
    (∃ ret, Sys.enqueue env s = (ret, s))
    ∨ (∃ tx rx, Sys.enqueue env s
        = (0, { s with rctx := advance s.rctx,
                       inflight := s.inflight ++ [chunk_of s.rctx tx rx],
                       log := Event.submit s.rctx.nbytes_i (min s.rctx.nbytes_remaining 32768)
                                :: s.log })) := by
  unfold Sys.enqueue
  rcases enqueue_cases env s.rctx with ⟨ret, he⟩ | ⟨tx, rx, he⟩
  · left
    exact ⟨ret, by rw [he]⟩
  · right
    exact ⟨tx, rx, by rw [he]; rfl⟩

theorem cbc_inv_enqueue (env : ChunkEnv) (s : Sys) (h : CbcInv s) (hi : s.inflight = [])
    (hw : s.wq = []) (hr : s.rctx.nbytes_remaining ≠ 0) : CbcInv (Sys.enqueue env s).2 := by
  rcases sys_enqueue_cases env s with ⟨ret, he⟩ | ⟨tx, rx, he⟩
  · rw [he]; exact h
  · rw [he]
    have hmin : min s.rctx.nbytes_remaining 32768 ≤ s.rctx.nbytes_remaining :=
      Nat.min_le_left _ _
    have hpos : 0 < min s.rctx.nbytes_remaining 32768 := by
      rw [Nat.lt_min]; omega
    have hsum := h.sum
    have hfit := h.fits
    have hmod : (s.rctx.nbytes_i + min s.rctx.nbytes_remaining 32768) % 4294967296
        = s.rctx.nbytes_i + min s.rctx.nbytes_remaining 32768 := Nat.mod_eq_of_lt (by omega)
    have hcount := h.count
    rw [hi] at hcount
    simp only [List.length_nil, Nat.add_zero] at hcount
    constructor
    · exact h.cbc
    · show (s.rctx.nbytes_i + min s.rctx.nbytes_remaining 32768) % 4294967296
          + (s.rctx.nbytes_remaining - min s.rctx.nbytes_remaining 32768) = s.rctx.nbytes_total
      rw [hmod]; omega
    · exact h.fits
    · simp [hi, hw]
    · simp [hi, submit_offsets, n_copy_out, hcount]
    · intro o ho
      show o < (s.rctx.nbytes_i + min s.rctx.nbytes_remaining 32768) % 4294967296
      rw [hmod]
      simp only [submit_offsets, List.mem_cons] at ho
      rcases ho with ho | ho
      · omega
      · have := h.below o ho
        omega
    · intro c hc hl
      simp only [hi, List.nil_append, List.mem_singleton] at hc
      subst hc
      show s.rctx.nbytes_remaining - min s.rctx.nbytes_remaining 32768 ≠ 0
      have hgt : ¬ s.rctx.nbytes_remaining ≤ 32768 := by
        simpa [chunk_of] using hl
      rw [Nat.min_eq_right (by omega)]
      omega
    · intro hne
      exact absurd hw hne
    · simp only [serialized, Bool.and_eq_true, beq_iff_eq, List.all_eq_true, decide_eq_true_eq]
      exact ⟨⟨hcount, h.below⟩, h.ser⟩

theorem cbc_inv_callback (s : Sys) (c : zynqaes_dma_ctx) (rx : List Nat) (h : CbcInv s)
    (hi : s.inflight = [c]) :
    CbcInv (zynqaes_dma_callback { s with inflight := [] } { c with rx_buf := rx }) := by
  have f2 : ∀ d, (get_rxkbuf_at s.rctx d).cmd = s.rctx.cmd :=
    fun d => (get_rxkbuf_at_frame s.rctx d).2.1
  have f4 : ∀ d, (get_rxkbuf_at s.rctx d).nbytes_total = s.rctx.nbytes_total :=
    fun d => (get_rxkbuf_at_frame s.rctx d).2.2.2.1
  have f5 : ∀ d, (get_rxkbuf_at s.rctx d).nbytes_remaining = s.rctx.nbytes_remaining :=
    fun d => (get_rxkbuf_at_frame s.rctx d).2.2.2.2.1
  have f6 : ∀ d, (get_rxkbuf_at s.rctx d).nbytes_i = s.rctx.nbytes_i :=
    fun d => (get_rxkbuf_at_frame s.rctx d).2.2.2.2.2
  have hone := h.one
  have hcount := h.count
  rw [hi] at hone hcount
  simp only [List.length_singleton] at hone hcount
  have hwq : s.wq = [] := List.eq_nil_of_length_eq_zero (by omega)
  unfold zynqaes_dma_callback
  simp only []
  by_cases hl : c.is_last = true
  · simp only [hl, if_true]
    constructor
    · show is_cbc_op (get_rxkbuf_at _ _).cmd = true
      rw [f2]; exact h.cbc
    · show (get_rxkbuf_at _ _).nbytes_i
          + (get_rxkbuf_at _ _).nbytes_remaining
          = (get_rxkbuf_at _ _).nbytes_total
      rw [f4, f5, f6]; exact h.sum
    · show (get_rxkbuf_at _ _).nbytes_total < _
      rw [f4]; exact h.fits
    · simp [hwq]
    · simp [submit_offsets, n_copy_out, hcount]
    · intro o ho
      show o < (get_rxkbuf_at _ _).nbytes_i
      rw [f6]
      exact h.below o (by simpa [submit_offsets] using ho)
    · intro c2 hc2
      simp at hc2
    · intro hne
      exact absurd hwq hne
    · simpa [serialized] using h.ser
  · have hl2 : c.is_last = false := by simpa using hl
    have hcbc : ∀ d, is_cbc_op (get_rxkbuf_at s.rctx d).cmd = true := by
      intro d; rw [f2]; exact h.cbc
    simp only [hl2, Bool.false_eq_true, if_false, hcbc, if_true]
    constructor
    · exact hcbc _
    · show (get_rxkbuf_at _ _).nbytes_i
          + (get_rxkbuf_at _ _).nbytes_remaining
          = (get_rxkbuf_at _ _).nbytes_total
      rw [f4, f5, f6]; exact h.sum
    · show (get_rxkbuf_at _ _).nbytes_total < _
      rw [f4]; exact h.fits
    · simp [hwq]
    · simp [submit_offsets, n_copy_out, hcount]
    · intro o ho
      show o < (get_rxkbuf_at _ _).nbytes_i
      rw [f6]
      exact h.below o (by simpa [submit_offsets] using ho)
    · intro c2 hc2
      simp at hc2
    · intro _
      show (get_rxkbuf_at _ _).nbytes_remaining ≠ 0
      rw [f5]
      exact h.more_inflight c (by simp [hi]) hl2
    · simpa [serialized] using h.ser


theorem setup_shape (renv : ReqEnv) (rctx0 : zynqaes_reqctx) (ctx : zynqaes_ctx)
    (areq : ablkcipher_request) :
    (crypt_req_setup renv rctx0 ctx areq).2.inflight = []
    ∧ (crypt_req_setup renv rctx0 ctx areq).2.wq = []
    ∧ (crypt_req_setup renv rctx0 ctx areq).2.log = []
    ∧ (crypt_req_setup renv rctx0 ctx areq).2.rctx.cmd = rctx0.cmd
    ∧ (crypt_req_setup renv rctx0 ctx areq).2.areq = areq := by
  unfold crypt_req_setup
  cases hs : renv.kmalloc_src_buf with
  | none => simp
  | some src_mem =>
    cases hd : renv.kmalloc_dst_buf with
    | none => simp
    | some dst_mem =>
      simp only []
      split_ifs <;> simp

theorem cbc_inv_loop (envs : List ChunkEnv) (s : Sys) (h : CbcInv s) (hi : s.inflight = [])
    (hw : s.wq = []) (r : Int × Sys) (hr : crypt_req_loop envs s = some r) : CbcInv r.2 := by
  cases envs with
  | nil =>
    unfold crypt_req_loop at hr
    split_ifs at hr with h0
    simp only [Option.some.injEq] at hr
    subst hr
    exact h
  | cons env envs =>
    unfold crypt_req_loop at hr
    by_cases h0 : s.rctx.nbytes_remaining = 0
    · rw [if_pos h0] at hr
      simp only [Option.some.injEq] at hr
      subst hr
      exact h
    · rw [if_neg h0] at hr
      have hinv := cbc_inv_enqueue env s h hi hw h0
      by_cases h1 : (Sys.enqueue env s).1 ≠ 0
      · rw [if_pos h1] at hr
        have := Option.some.inj hr
        subst this
        exact hinv
      · rw [if_neg h1, if_pos hinv.cbc] at hr
        have := Option.some.inj hr
        subst this
        exact hinv

theorem cbc_inv_step (hw : List Nat → List Nat) (s s1 : Sys) (h : CbcInv s)
    (hs : Step hw s s1) : CbcInv s1 := by
  cases hs
  · rename_i hc
    unfold dma_complete at hc
    cases hi : s.inflight with
    | nil => simp [hi] at hc
    | cons c rest =>
      have hone := h.one
      rw [hi] at hone
      simp only [List.length_cons] at hone
      have hrest : rest = [] := List.eq_nil_of_length_eq_zero (by omega)
      subst hrest
      simp only [hi] at hc
      split_ifs at hc
      simp only [Option.some.injEq] at hc
      subst hc
      exact cbc_inv_callback s c _ h hi
  · rename_i env hne
    unfold zynqaes_done_task
    cases hq : s.wq with
    | nil => exact absurd hq hne
    | cons w rest =>
      have hone := h.one
      rw [hq] at hone
      simp only [List.length_cons] at hone
      have hrest : rest = [] := List.eq_nil_of_length_eq_zero (by omega)
      have hinf : s.inflight = [] := List.eq_nil_of_length_eq_zero (by omega)
      subst hrest
      simp only []
      apply cbc_inv_enqueue env { s with wq := [] } _ hinf rfl (h.more_wq hne)
      exact { cbc := h.cbc, sum := h.sum, fits := h.fits, one := by simp [hinf],
              count := h.count, below := h.below, more_inflight := h.more_inflight,
              more_wq := fun hh => absurd rfl hh, ser := h.ser }

theorem quiet_reachable (hw : List Nat → List Nat) (s0 s : Sys) (hi : s0.inflight = [])
    (hq : s0.wq = []) (hr : Reachable hw s0 s) : s = s0 := by
  induction hr with
  | start => rfl
  | step a b _ hstep ih =>
    subst ih
    cases hstep
    · rename_i hc
      simp [dma_complete, hi] at hc
    · rename_i env hne
      exact absurd hq hne

/-- C8: for a CBC request (`0x40` or `0x41`) of any `u32` length, whatever the
allocations, the DMA calls and the device answer, every state reachable from
the state left by `zynqaes_crypt_req` through completions
(`zynqaes_dma_callback`) and continuations (`zynqaes_done_task`) has at most
one chunk in flight, and its record is serialized: each chunk was submitted
after the completion of every earlier chunk had been handled, at an offset
above every earlier offset. -/
theorem cbc_serialization (hw : List Nat → List Nat) (renv : ReqEnv) (rctx0 : zynqaes_reqctx)
    (ctx : zynqaes_ctx) (areq : ablkcipher_request) (r : Int × Sys) (s : Sys)
    (hcmd : rctx0.cmd = 0x40 ∨ rctx0.cmd = 0x41) (hfit : areq.nbytes < 4294967296)
    (hdisp : zynqaes_crypt_req renv rctx0 ctx areq = some r) (hreach : Reachable hw r.2 s) :
    s.inflight.length ≤ 1 ∧ serialized s.log = true := by
  obtain ⟨g1, g2, g3, g4, _⟩ := setup_shape renv rctx0 ctx areq
  unfold zynqaes_crypt_req at hdisp
  simp only [] at hdisp
  split_ifs at hdisp with hret
  · simp only [Option.some.injEq] at hdisp
    subst hdisp
    have := quiet_reachable hw _ s g1 g2 hreach
    subst this
    rw [g1, g3]
    exact ⟨by simp, rfl⟩
  · have hret0 : (crypt_req_setup renv rctx0 ctx areq).1 = 0 := by
      by_contra hne
      exact hret hne
    obtain ⟨c1, c2, c3⟩ := setup_counters renv rctx0 ctx areq hret0
    have hinv0 : CbcInv (crypt_req_setup renv rctx0 ctx areq).2 :=
      { cbc := by
          rw [g4]
          rcases hcmd with h | h <;> rw [h] <;> decide
        sum := by rw [c1, c2, c3]; simp
        fits := by rw [c3]; exact hfit
        one := by simp [g1, g2]
        count := by simp [g1, g3, submit_offsets, n_copy_out]
        below := by simp [g3, submit_offsets]
        more_inflight := by simp [g1]
        more_wq := fun hh => absurd g2 hh
        ser := by simp [g3, serialized] }
    have hinv : CbcInv r.2 := cbc_inv_loop renv.chunks _ hinv0 g1 g2 r hdisp
    have hall : CbcInv s := by
      induction hreach with
      | start => exact hinv
      | step a b _ hstep ih => exact cbc_inv_step hw a b ih hstep
    exact ⟨by have := hall.one; omega, hall.ser⟩


theorem sample_dispatch_cbc :
    zynqaes_crypt_req sample_renv (sample_rctx 0x40) ⟨sample_key⟩ sample_areq
      = some (sample_dispatched 0x40) := by
  rfl

theorem cbc_serialization_witness :
    (sample_dispatched 0x40).2.inflight.length ≤ 1
      ∧ serialized (sample_dispatched 0x40).2.log = true :=
  cbc_serialization (fun _ => []) sample_renv (sample_rctx 0x40) ⟨sample_key⟩ sample_areq
    (sample_dispatched 0x40) (sample_dispatched 0x40).2 (by decide) (by decide)
    sample_dispatch_cbc (Reachable.start)


/-! ## Finalization -/

theorem run_quiet (hw : List Nat → List Nat) (fuel : Nat) (envs : List ChunkEnv) (s : Sys)
    (hi : s.inflight = []) (hq : s.wq = []) : run hw fuel envs s = s := by
  cases fuel with
  | zero => rfl
  | succ n => simp [run, dma_complete, hi, hq]

theorem zero_dispatch (cmd : Nat) :
    zynqaes_crypt_req zero_renv (zynqaes_crypt (sample_rctx 0) cmd) ⟨sample_key⟩ zero_areq
      = some (0, (crypt_req_setup zero_renv (zynqaes_crypt (sample_rctx 0) cmd) ⟨sample_key⟩
          zero_areq).2) := by
  have h0 := setup_counters zero_renv (zynqaes_crypt (sample_rctx 0) cmd) ⟨sample_key⟩ zero_areq
  have hret : (crypt_req_setup zero_renv (zynqaes_crypt (sample_rctx 0) cmd) ⟨sample_key⟩
      zero_areq).1 = 0 := by
    unfold crypt_req_setup zero_renv
    simp only []
  obtain ⟨_, h2, _⟩ := h0 hret
  unfold zynqaes_crypt_req
  simp only [hret, ne_eq, not_true_eq_false, if_false]
  have h2z : (crypt_req_setup zero_renv (zynqaes_crypt (sample_rctx 0) cmd) ⟨sample_key⟩
      zero_areq).2.rctx.nbytes_remaining = 0 := h2
  show crypt_req_loop [sample_env] _ = _
  unfold crypt_req_loop
  rw [if_pos h2z]

/-- C5 (what the code does): a request of length zero, under any of the four
commands and with every allocation succeeding, makes `zynqaes_crypt_req` return
`0` without submitting a chunk; no completion and no work item will ever run,
and `crypto_finalize_cipher_request` is never called, however long the request
is left running. -/
theorem zero_length_request_never_finalized (hw : List Nat → List Nat) (fuel : Nat)
    (envs : List ChunkEnv) :
    zero_length_outcome hw fuel envs 0x20 = some (0, [], [], 0, none)
    ∧ zero_length_outcome hw fuel envs 0x30 = some (0, [], [], 0, none)
    ∧ zero_length_outcome hw fuel envs 0x40 = some (0, [], [], 0, none)
    ∧ zero_length_outcome hw fuel envs 0x41 = some (0, [], [], 0, none) := by
  have key : ∀ cmd, zero_length_outcome hw fuel envs cmd = some (0, [], [], 0, none) := by
    intro cmd
    obtain ⟨g1, g2, g3, _, _⟩ := setup_shape zero_renv (zynqaes_crypt (sample_rctx 0) cmd)
      ⟨sample_key⟩ zero_areq
    unfold zero_length_outcome
    rw [zero_dispatch cmd]
    simp only [Option.map_some']
    rw [run_quiet hw fuel envs _ g1 g2]
    simp [g1, g2, g3, finalize_count, count_finalize, Sys.result]
  exact ⟨key _, key _, key _, key _⟩


/-! ## The pipeline, chunk by chunk -/

theorem supported_cases (cmd : Nat) (h : is_ecb_op cmd = true ∨ is_cbc_op cmd = true) :
    cmd = 0x20 ∨ cmd = 0x30 ∨ cmd = 0x40 ∨ cmd = 0x41 := by
  simp only [is_ecb_op, is_cbc_op, Bool.or_eq_true, beq_iff_eq, ZYNQAES_ECB_ENCRYPT,
    ZYNQAES_ECB_DECRYPT, ZYNQAES_CBC_ENCRYPT, ZYNQAES_CBC_DECRYPT] at h
  omega

theorem chunk_of_at (cmd : Nat) (key src : List Nat) (rctx : zynqaes_reqctx) (tx rx : List Nat)
    (hsup : is_ecb_op cmd = true ∨ is_cbc_op cmd = true) (hkey : key.length = 16)
    (hwf : ReqWf cmd key src rctx) (hlt : rctx.nbytes_i < 2147483648)
    (htx : tx.length = 32804) (hrx : rx.length = 32768) :
    ChunkAt cmd key src rctx.iv rctx.nbytes_i (chunk_of rctx tx rx) := by
  obtain ⟨c1, c2, c3, _, c5, _, c7, _⟩ := hwf
  have hp : i32 rctx.nbytes_i = (rctx.nbytes_i : Int) := i32_of_lt _ hlt
  have hb : bytes_at rctx.src_buf (i32 rctx.nbytes_i) = rctx.src_buf.drop rctx.nbytes_i := by
    rw [hp, bytes_at_natCast]
  have hrem : rctx.nbytes_remaining = src.length - rctx.nbytes_i := by omega
  have hk : rctx.ctx.key.length = 16 := by rw [c2]; exact hkey
  have hmin : min rctx.nbytes_remaining 32768 ≤ 32768 := Nat.min_le_right _ _
  have hsrc : min rctx.nbytes_remaining 32768 ≤ (rctx.src_buf.drop rctx.nbytes_i).length := by
    rw [List.length_drop, c3, ← hrem]
    exact Nat.min_le_left _ _
  refine ⟨hp, hp, by rw [← hrem]; rfl, ?_, hrx, by rw [← hrem]; rfl⟩
  rw [← hrem]
  show ((zynqaes_set_txkbuf rctx (bytes_at rctx.src_buf (i32 rctx.nbytes_i)) tx
      (min rctx.nbytes_remaining 32768) rctx.cmd).1).take
      (zynqaes_set_txkbuf rctx (bytes_at rctx.src_buf (i32 rctx.nbytes_i)) tx
      (min rctx.nbytes_remaining 32768) rctx.cmd).2 = _
  rw [hb, c1, ← c3]
  unfold zynqaes_set_txkbuf frame_of
  rcases supported_cases cmd hsup with h | h | h | h
  · subst h
    obtain ⟨h1, h2, _⟩ := ecb_set_txkbuf_spec rctx (rctx.src_buf.drop rctx.nbytes_i) tx
      (min rctx.nbytes_remaining 32768) 0x20 hk hsrc (by omega) (by omega)
    simp only [ZYNQAES_ECB_ENCRYPT, true_or, if_true]
    rw [h1, h2, c2]
    simp [is_cbc_op]
  · subst h
    obtain ⟨h1, h2, _⟩ := ecb_set_txkbuf_spec rctx (rctx.src_buf.drop rctx.nbytes_i) tx
      (min rctx.nbytes_remaining 32768) 0x30 hk hsrc (by omega) (by omega)
    simp only [ZYNQAES_ECB_DECRYPT, or_true, if_true]
    rw [h1, h2, c2]
    simp [is_cbc_op]
  · subst h
    obtain ⟨h1, h2, _⟩ := cbc_set_txkbuf_spec rctx (rctx.src_buf.drop rctx.nbytes_i) tx
      (min rctx.nbytes_remaining 32768) 0x40 hk c7 hsrc (by omega) (by omega)
    have hne : ¬ ((0x40 : Nat) = ZYNQAES_ECB_ENCRYPT ∨ (0x40 : Nat) = ZYNQAES_ECB_DECRYPT) := by
      decide
    rw [if_neg hne]
    simp only [ZYNQAES_CBC_ENCRYPT, true_or, if_true]
    rw [h1, h2, c2]
    simp [is_cbc_op]
  · subst h
    obtain ⟨h1, h2, _⟩ := cbc_set_txkbuf_spec rctx (rctx.src_buf.drop rctx.nbytes_i) tx
      (min rctx.nbytes_remaining 32768) 0x41 hk c7 hsrc (by omega) (by omega)
    have hne : ¬ ((0x41 : Nat) = ZYNQAES_ECB_ENCRYPT ∨ (0x41 : Nat) = ZYNQAES_ECB_DECRYPT) := by
      decide
    rw [if_neg hne]
    simp only [ZYNQAES_CBC_DECRYPT, or_true, if_true]
    rw [h1, h2, c2]
    simp [is_cbc_op]


theorem callback_rctx (s : Sys) (c : zynqaes_dma_ctx) :
    (zynqaes_dma_callback s c).rctx = get_rxkbuf_at s.rctx c
    ∧ (zynqaes_dma_callback s c).inflight = s.inflight
    ∧ (zynqaes_dma_callback s c).areq.nbytes = s.areq.nbytes := by
  unfold zynqaes_dma_callback
  simp only []
  split_ifs <;> exact ⟨rfl, rfl, rfl⟩

theorem callback_last (s : Sys) (c : zynqaes_dma_ctx) (h : c.is_last = true) :
    (zynqaes_dma_callback s c).wq = s.wq
    ∧ (zynqaes_dma_callback s c).log
        = Event.finalize 0 :: Event.copy_out c.dst_buf_ptr c.rx_nbytes c.is_last :: s.log
    ∧ (zynqaes_dma_callback s c).areq.dst
        = memcpy s.areq.dst 0 (zynqaes_dma_callback s c).rctx.dst_buf
            (zynqaes_dma_callback s c).rctx.nbytes_total := by
  unfold zynqaes_dma_callback scatterwalk_map_and_copy
  simp only [h, if_true]
  refine ⟨?_, ?_, ?_⟩ <;> first | rfl | trivial

theorem callback_more_cbc (s : Sys) (c : zynqaes_dma_ctx) (h : c.is_last = false)
    (hc : is_cbc_op s.rctx.cmd = true) :
    (zynqaes_dma_callback s c).wq = s.wq ++ [c]
    ∧ (zynqaes_dma_callback s c).log
        = Event.queue_work c.dst_buf_ptr
            :: Event.copy_out c.dst_buf_ptr c.rx_nbytes c.is_last :: s.log
    ∧ (zynqaes_dma_callback s c).areq = s.areq := by
  have hcc : is_cbc_op (get_rxkbuf_at s.rctx c).cmd = true := by
    rw [(get_rxkbuf_at_frame _ _).2.1]; exact hc
  unfold zynqaes_dma_callback
  simp only [h, Bool.false_eq_true, if_false, hcc, if_true]
  refine ⟨?_, ?_, ?_⟩ <;> first | rfl | trivial

theorem callback_more_ecb (s : Sys) (c : zynqaes_dma_ctx) (h : c.is_last = false)
    (hc : is_cbc_op s.rctx.cmd = false) :
    (zynqaes_dma_callback s c).wq = s.wq
    ∧ (zynqaes_dma_callback s c).log
        = Event.copy_out c.dst_buf_ptr c.rx_nbytes c.is_last :: s.log
    ∧ (zynqaes_dma_callback s c).areq = s.areq := by
  have hcc : is_cbc_op (get_rxkbuf_at s.rctx c).cmd = false := by
    rw [(get_rxkbuf_at_frame _ _).2.1]; exact hc
  unfold zynqaes_dma_callback
  simp only [h, Bool.false_eq_true, if_false, hcc]
  refine ⟨?_, ?_, ?_⟩ <;> first | rfl | trivial

theorem memcpy_congr_src (dst a b : List Nat) (off n : Nat) (h : a.take n = b.take n) :
    memcpy dst off a n = memcpy dst off b n := by
  unfold memcpy
  rw [h]

theorem memcpy_rx_take (rx out : List Nat) (n : Nat) (h : n ≤ out.length) :
    (memcpy rx 0 out n).take n = out.take n := by
  have := memcpy_take_end rx out 0 n (Nat.zero_le _) h
  simpa using this

theorem get_rxkbuf_next_iv (rctx : zynqaes_reqctx) (off n : Nat) (rx out : List Nat)
    (hiv : rctx.iv.length = 16) (hn : 16 ≤ n) (hd : off + n ≤ rctx.dst_buf.length)
    (hrx : n ≤ rx.length) (hout : n ≤ out.length) :
    (zynqaes_get_rxkbuf rctx off off (memcpy rx 0 out n) n rctx.cmd).iv
      = next_iv rctx.cmd rctx.iv out ((rctx.src_buf.drop off).take n) n := by
  have hlen : (memcpy rx 0 out n).length = rx.length :=
    memcpy_length rx out 0 n (by omega) hout
  unfold next_iv
  by_cases h1 : rctx.cmd = ZYNQAES_CBC_ENCRYPT
  · rw [h1, if_pos rfl]
    rw [get_rxkbuf_iv_enc rctx off off n _ hiv hn hd (by omega), memcpy_rx_take rx out n hout]
  · rw [if_neg h1]
    by_cases h2 : rctx.cmd = ZYNQAES_CBC_DECRYPT
    · rw [h2, if_pos rfl]
      rw [get_rxkbuf_iv_dec rctx off off n _ hiv]
      rw [List.drop_take, List.drop_drop]
      have e1 : n - (n - 16) = 16 := by omega
      have e2 : off + (n - 16) = n - 16 + off := by omega
      rw [e1, e2]
    · rw [if_neg h2]
      exact get_rxkbuf_iv_other rctx off off n rctx.cmd _ (by simp [is_cbc_op, h1, h2])


theorem complete_head (hw : List Nat → List Nat) (cmd : Nat) (key src : List Nat) (s : Sys)
    (c : zynqaes_dma_ctx) (rest : List zynqaes_dma_ctx) (off n : Nat) (out : List Nat)
    (hinf : s.inflight = c :: rest) (hc : ChunkAt cmd key src s.rctx.iv off c)
    (hcmd : s.rctx.cmd = cmd) (hsrc : s.rctx.src_buf = src)
    (hdl : s.rctx.dst_buf.length = src.length) (hivl : s.rctx.iv.length = 16)
    (htot : s.rctx.nbytes_total = src.length) (han : s.areq.nbytes = src.length)
    (hoff : off < src.length) (h16 : 16 ∣ off) (hL16 : 16 ∣ src.length)
    (hn : n = min (src.length - off) 32768)
    (hout : out = hw (frame_of cmd key s.rctx.iv ((src.drop off).take n))) :
    (out.length < n → dma_complete hw s = none)
    ∧ (n ≤ out.length → ∃ s2, dma_complete hw s = some s2
        ∧ Completed cmd src s s2 rest off n out) := by
  obtain ⟨c1, c2, c3, c4, c5, c6⟩ := hc
  rw [← hn] at c3 c4
  obtain ⟨tx_buf, rx_buf, tx_nbytes, rx_nbytes, sp, dp, is_last⟩ := c
  simp only at c1 c2 c3 c4 c5 c6
  subst c1 c2 c3
  have hn16 : 16 ≤ rx_nbytes := by omega
  have hnle : rx_nbytes ≤ 32768 := by omega
  have hon : off + rx_nbytes ≤ src.length := by omega
  have hcomp : dma_complete hw s
      = if out.length < rx_nbytes then none
        else some (zynqaes_dma_callback { s with inflight := rest }
          ⟨tx_buf, memcpy rx_buf 0 out rx_nbytes, tx_nbytes, rx_nbytes, (off : Int), (off : Int), is_last⟩) := by
    unfold dma_complete
    rw [hinf]
    simp only [c4, ← hout]
  constructor
  · intro hlt
    rw [hcomp, if_pos hlt]
  · intro hle
    refine ⟨_, by rw [hcomp, if_neg (by omega)], ?_⟩
    obtain ⟨r0, r2, r3⟩ := callback_rctx { s with inflight := rest }
      ⟨tx_buf, memcpy rx_buf 0 out rx_nbytes, tx_nbytes, rx_nbytes, (off : Int), (off : Int), is_last⟩
    have r1 := r0.trans (get_rxkbuf_at_ptr s.rctx
      ⟨tx_buf, memcpy rx_buf 0 out rx_nbytes, tx_nbytes, rx_nbytes, (off : Int), (off : Int), is_last⟩
      off rfl rfl)
    obtain ⟨f1, f2, f3, f4, f5, f6⟩ := get_rxkbuf_frame s.rctx off off rx_nbytes s.rctx.cmd
      (memcpy rx_buf 0 out rx_nbytes)
    have hdst : (zynqaes_dma_callback { s with inflight := rest }
        ⟨tx_buf, memcpy rx_buf 0 out rx_nbytes, tx_nbytes, rx_nbytes, (off : Int), (off : Int), is_last⟩).rctx.dst_buf
        = memcpy s.rctx.dst_buf off out rx_nbytes := by
      rw [r1, get_rxkbuf_dst]
      exact memcpy_congr_src _ _ _ _ _ (memcpy_rx_take rx_buf out rx_nbytes hle)
    have hdlen : (memcpy s.rctx.dst_buf off out rx_nbytes).length = src.length := by
      rw [memcpy_length _ _ _ _ (by omega) hle, hdl]
    constructor
    · exact r2
    · exact hdst
    · rw [r1, ← hcmd, ← hsrc]
      exact get_rxkbuf_next_iv s.rctx off rx_nbytes rx_buf out hivl hn16 (by omega) (by omega) hle
    · rw [r1]; exact f2
    · rw [r1]; exact f1
    · rw [r1]; exact f3
    · rw [r1]; exact f4
    · rw [r1]; exact f5
    · rw [r1]; exact f6
    · exact r3
    · intro hlast
      have hl : is_last = true := by rw [c6]; simpa using hlast
      obtain ⟨l1, l2, l3⟩ := callback_last { s with inflight := rest }
        ⟨tx_buf, memcpy rx_buf 0 out rx_nbytes, tx_nbytes, rx_nbytes, (off : Int), (off : Int), is_last⟩ hl
      refine ⟨l1, ?_⟩
      unfold Sys.result
      rw [l2, if_pos (List.mem_cons_self _ _), l3, r3, hdst]
      have ht : (zynqaes_dma_callback { s with inflight := rest }
          ⟨tx_buf, memcpy rx_buf 0 out rx_nbytes, tx_nbytes, rx_nbytes, (off : Int), (off : Int), is_last⟩).rctx.nbytes_total = src.length := by
        rw [r1, f4, htot]
      rw [ht]
      show some ((memcpy s.areq.dst 0 (memcpy s.rctx.dst_buf off out rx_nbytes) src.length).take
        s.areq.nbytes) = _
      rw [han]
      congr 1
      unfold memcpy at hdlen ⊢
      simp only [List.take_zero, List.nil_append]
      rw [List.take_of_length_le (Nat.le_of_eq hdlen)]
      rw [List.take_append_of_le_length (Nat.le_of_eq hdlen.symm)]
      rw [List.take_of_length_le (Nat.le_of_eq hdlen)]
    · intro hmore
      have hl : is_last = false := by rw [c6]; simp only [decide_eq_false_iff_not]; omega
      by_cases hcb : is_cbc_op cmd = true
      · obtain ⟨m1, m2, m3⟩ := callback_more_cbc { s with inflight := rest }
          ⟨tx_buf, memcpy rx_buf 0 out rx_nbytes, tx_nbytes, rx_nbytes, (off : Int), (off : Int), is_last⟩ hl (by rw [← hcmd] at hcb; exact hcb)
        refine ⟨m3, ?_, fun _ => ⟨_, m1⟩, fun h => by rw [h] at hcb; simp at hcb⟩
        intro hnf
        rw [m2]
        simpa using hnf
      · have hcb2 : is_cbc_op cmd = false := by simpa using hcb
        obtain ⟨m1, m2, m3⟩ := callback_more_ecb { s with inflight := rest }
          ⟨tx_buf, memcpy rx_buf 0 out rx_nbytes, tx_nbytes, rx_nbytes, (off : Int), (off : Int), is_last⟩ hl (by rw [← hcmd] at hcb2; exact hcb2)
        refine ⟨m3, ?_, fun h => absurd h hcb, fun _ => m1⟩
        intro hnf
        rw [m2]
        simpa using hnf


theorem next_iv_length (cmd : Nat) (iv out payload : List Nat) (n : Nat) (hiv : iv.length = 16)
    (hn : 16 ≤ n) (hout : n ≤ out.length) (hp : payload.length = n) :
    (next_iv cmd iv out payload n).length = 16 := by
  unfold next_iv
  split_ifs
  · simp; omega
  · simp; omega
  · exact hiv

theorem req_wf_after (cmd : Nat) (key src : List Nat) (s s2 : Sys)
    (rest : List zynqaes_dma_ctx) (off n : Nat) (out : List Nat)
    (hc : Completed cmd src s s2 rest off n out) (hwf : ReqWf cmd key src s.rctx)
    (hn : 16 ≤ n) (hout : n ≤ out.length) (hon : off + n ≤ src.length) :
    ReqWf cmd key src s2.rctx := by
  obtain ⟨w1, w2, w3, w4, w5, w6, w7, w8⟩ := hwf
  refine ⟨by rw [hc.cmd_eq, w1], by rw [hc.ctx_eq, w2], by rw [hc.src_eq, w3],
    by rw [hc.total, w4], by rw [hc.pos, hc.remaining, w5], ?_, ?_, by rw [hc.pos]; exact w8⟩
  · rw [hc.dst, memcpy_length _ _ _ _ (by omega) hout, w6]
  · rw [hc.iv]
    exact next_iv_length cmd _ out _ n w7 hn hout (by simp; omega)

theorem sys_enqueue_ok (cmd : Nat) (key src : List Nat) (env : ChunkEnv) (s : Sys)
    (hok : env.ok = true) (hsup : is_ecb_op cmd = true ∨ is_cbc_op cmd = true)
    (hkey : key.length = 16) (hwf : ReqWf cmd key src s.rctx)
    (hfit : src.length ≤ 2147483648) (hL16 : 16 ∣ src.length)
    (hrem0 : s.rctx.nbytes_remaining ≠ 0) :
    ∃ c, Sys.enqueue env s
        = (0, { s with rctx := advance s.rctx, inflight := s.inflight ++ [c],
                       log := Event.submit s.rctx.nbytes_i (min s.rctx.nbytes_remaining 32768)
                                :: s.log })
      ∧ ChunkAt cmd key src s.rctx.iv s.rctx.nbytes_i c
      ∧ ReqWf cmd key src (advance s.rctx)
      ∧ (advance s.rctx).nbytes_i = s.rctx.nbytes_i + min (src.length - s.rctx.nbytes_i) 32768
      ∧ (advance s.rctx).nbytes_remaining
          = s.rctx.nbytes_remaining - min (src.length - s.rctx.nbytes_i) 32768 := by
  obtain ⟨tx, rx, _, _, htl, hrl, he⟩ := enqueue_of_ok env s.rctx hok
  have hat := chunk_of_at cmd key src s.rctx tx rx hsup hkey hwf
    (by have := hwf.sum; omega) htl hrl
  obtain ⟨w1, w2, w3, w4, w5, w6, w7, w8⟩ := hwf
  have hrem : s.rctx.nbytes_remaining = src.length - s.rctx.nbytes_i := by omega
  have hmod : (s.rctx.nbytes_i + min s.rctx.nbytes_remaining 32768) % 4294967296
      = s.rctx.nbytes_i + min s.rctx.nbytes_remaining 32768 := Nat.mod_eq_of_lt (by omega)
  refine ⟨chunk_of s.rctx tx rx, ?_, hat, ?_, ?_, ?_⟩
  · unfold Sys.enqueue
    rw [he]
    rfl
  · refine ⟨w1, w2, w3, w4, ?_, w6, w7, ?_⟩
    · show (s.rctx.nbytes_i + min s.rctx.nbytes_remaining 32768) % 4294967296
          + (s.rctx.nbytes_remaining - min s.rctx.nbytes_remaining 32768) = src.length
      rw [hmod]; omega
    · show 16 ∣ (s.rctx.nbytes_i + min s.rctx.nbytes_remaining 32768) % 4294967296
      rw [hmod]
      omega
  · show (s.rctx.nbytes_i + min s.rctx.nbytes_remaining 32768) % 4294967296 = _
    rw [hmod, hrem]
  · show s.rctx.nbytes_remaining - min s.rctx.nbytes_remaining 32768 = _
    rw [hrem]


theorem dma_complete_nil (hw : List Nat → List Nat) (s : Sys) (h : s.inflight = []) :
    dma_complete hw s = none := by
  unfold dma_complete
  rw [h]

theorem ref_chunks_short (hw : List Nat → List Nat) (cmd : Nat) (key src iv dst : List Nat)
    (k off : Nat)
    (h : (hw (frame_of cmd key iv ((src.drop off).take (min (src.length - off) 32768)))).length
      < min (src.length - off) 32768) :
    ref_chunks hw cmd key src (k + 1) iv off dst = none := by
  unfold ref_chunks
  simp only [h, if_true]

theorem ref_chunks_last (hw : List Nat → List Nat) (cmd : Nat) (key src iv dst : List Nat)
    (k off : Nat)
    (h : ¬ (hw (frame_of cmd key iv ((src.drop off).take (min (src.length - off) 32768)))).length
      < min (src.length - off) 32768) (hl : src.length - off ≤ 32768) :
    ref_chunks hw cmd key src (k + 1) iv off dst
      = some (memcpy dst off
          (hw (frame_of cmd key iv ((src.drop off).take (min (src.length - off) 32768))))
          (min (src.length - off) 32768)) := by
  unfold ref_chunks
  simp only [h, if_false, hl, if_true]

theorem ref_chunks_more (hw : List Nat → List Nat) (cmd : Nat) (key src iv dst : List Nat)
    (k off : Nat)
    (h : ¬ (hw (frame_of cmd key iv ((src.drop off).take (min (src.length - off) 32768)))).length
      < min (src.length - off) 32768) (hl : ¬ src.length - off ≤ 32768) :
    ref_chunks hw cmd key src (k + 1) iv off dst
      = ref_chunks hw cmd key src k
          (next_iv cmd iv
            (hw (frame_of cmd key iv ((src.drop off).take (min (src.length - off) 32768))))
            ((src.drop off).take (min (src.length - off) 32768)) (min (src.length - off) 32768))
          (off + min (src.length - off) 32768)
          (memcpy dst off
            (hw (frame_of cmd key iv ((src.drop off).take (min (src.length - off) 32768))))
            (min (src.length - off) 32768)) := by
  conv_lhs => unfold ref_chunks
  simp only [h, if_false, hl]

theorem ref_chunks_some (hw : List Nat → List Nat) (cmd : Nat) (key src : List Nat)
    (hfull : ∀ iv p, p.length ≤ (hw (frame_of cmd key iv p)).length) :
    ∀ (k : Nat) (iv : List Nat) (off : Nat) (dst : List Nat), off < src.length →
      src.length - off ≤ k * 32768 →
      ∃ r, ref_chunks hw cmd key src k iv off dst = some r := by
  intro k
  induction k with
  | zero => intro iv off dst hoff hk; omega
  | succ k ih =>
    intro iv off dst hoff hk
    have hp : ((src.drop off).take (min (src.length - off) 32768)).length
        = min (src.length - off) 32768 := by
      rw [List.length_take, List.length_drop]
      omega
    have hns : ¬ (hw (frame_of cmd key iv
        ((src.drop off).take (min (src.length - off) 32768)))).length
        < min (src.length - off) 32768 := by
      have := hfull iv ((src.drop off).take (min (src.length - off) 32768))
      rw [hp] at this
      omega
    by_cases hlast : src.length - off ≤ 32768
    · exact ⟨_, ref_chunks_last _ _ _ _ _ _ _ _ hns hlast⟩
    · rw [ref_chunks_more _ _ _ _ _ _ _ _ hns hlast]
      exact ih _ _ _ (by omega) (by omega)

theorem result_none (s : Sys) (h : Event.finalize 0 ∉ s.log) : Sys.result s = none := by
  unfold Sys.result
  rw [if_neg h]

theorem cbc_run (hw : List Nat → List Nat) (cmd : Nat) (key src : List Nat)
    (hcbc : is_cbc_op cmd = true) (hkey : key.length = 16) (hfit : src.length ≤ 2147483648)
    (hL16 : 16 ∣ src.length) :
    ∀ (k : Nat) (s : Sys) (env : ChunkEnv) (envs : List ChunkEnv) (fuel : Nat),
      s.inflight = [] → s.wq = [] → Event.finalize 0 ∉ s.log → ReqWf cmd key src s.rctx →
      s.rctx.nbytes_remaining ≠ 0 → s.areq.nbytes = src.length → env.ok = true →
      envs.all ChunkEnv.ok = true → k ≤ envs.length + 1 → 2 * k ≤ fuel + 1 →
      s.rctx.nbytes_remaining ≤ k * 32768 →
      Sys.result (run hw fuel envs (Sys.enqueue env s).2)
        = ref_chunks hw cmd key src k s.rctx.iv s.rctx.nbytes_i s.rctx.dst_buf := by
  intro k
  induction k with
  | zero =>
    intro s env envs fuel _ _ _ _ hrem _ _ _ _ _ hk
    omega
  | succ k ih =>
    intro s env envs fuel hinf hwq hnf hwf hrem han hok hoks hlen hfuel hk
    obtain ⟨c, he, hat, hwf1, hi1, hr1⟩ :=
      sys_enqueue_ok cmd key src env s hok (Or.inr hcbc) hkey hwf hfit hL16 hrem
    rw [he]
    simp only [hinf, List.nil_append]
    have hsum := hwf.sum
    have hb := hwf.blocks_i
    have hoff : s.rctx.nbytes_i < src.length := by omega
    obtain ⟨hshort, hfull⟩ := complete_head hw cmd key src
      { s with rctx := advance s.rctx, inflight := [c],
               log := Event.submit s.rctx.nbytes_i (min s.rctx.nbytes_remaining 32768) :: s.log }
      c [] s.rctx.nbytes_i (min (src.length - s.rctx.nbytes_i) 32768)
      (hw (frame_of cmd key s.rctx.iv
        ((src.drop s.rctx.nbytes_i).take (min (src.length - s.rctx.nbytes_i) 32768))))
      rfl hat hwf1.cmd_eq hwf1.src_eq hwf1.dst_len hwf1.iv_len hwf1.total han hoff hb hL16
      rfl rfl
    cases fuel with
    | zero => omega
    | succ f =>
      unfold run
      by_cases hlt : (hw (frame_of cmd key s.rctx.iv
          ((src.drop s.rctx.nbytes_i).take (min (src.length - s.rctx.nbytes_i) 32768)))).length
          < min (src.length - s.rctx.nbytes_i) 32768
      · rw [hshort hlt, ref_chunks_short _ _ _ _ _ _ _ _ hlt]
        simp only [hwq]
        apply result_none
        simpa using hnf
      · obtain ⟨s2, hc2, hcomp⟩ := hfull (by omega)
        rw [hc2]
        simp only []
        have hinf2 : s2.inflight = [] := hcomp.inflight
        by_cases hlast : src.length - s.rctx.nbytes_i ≤ 32768
        · obtain ⟨hw2, hres⟩ := hcomp.last hlast
          rw [run_quiet hw f envs s2 hinf2 (by rw [hw2]; exact hwq), hres,
            ref_chunks_last _ _ _ _ _ _ _ _ hlt hlast]
          rfl
        · obtain ⟨_, hnf2, hwq2, _⟩ := hcomp.more (by omega)
          obtain ⟨w, hw2⟩ := hwq2 hcbc
          simp only [hwq, List.nil_append] at hw2
          have hk1 : 1 ≤ k := by
            by_contra hk0
            have : k = 0 := by omega
            subst this
            omega
          cases envs with
          | nil => simp only [List.length_nil] at hlen; omega
          | cons env2 envs1 =>
            cases f with
            | zero => omega
            | succ f1 =>
              unfold run
              rw [dma_complete_nil hw s2 hinf2]
              simp only [hw2]
              have hdt : zynqaes_done_task env2 s2 = (Sys.enqueue env2 { s2 with wq := [] }).2 := by
                unfold zynqaes_done_task
                rw [hw2]
              rw [hdt]
              have hn16 : 16 ≤ min (src.length - s.rctx.nbytes_i) 32768 := by omega
              have hwf2 : ReqWf cmd key src s2.rctx :=
                req_wf_after cmd key src _ s2 [] _ _ _ hcomp hwf1 hn16 (by omega) (by omega)
              simp only [List.all_cons, Bool.and_eq_true] at hoks
              have hrem2 : s2.rctx.nbytes_remaining
                  = s.rctx.nbytes_remaining - min (src.length - s.rctx.nbytes_i) 32768 := by
                rw [hcomp.remaining]; exact hr1
              rw [ih { s2 with wq := [] } env2 envs1 f1 hinf2 rfl
                (hnf2 (by simpa using hnf)) hwf2 (by rw [hrem2]; omega)
                (by rw [show ({ s2 with wq := [] } : Sys).areq.nbytes = s2.areq.nbytes from rfl,
                      hcomp.nbytes]; exact han)
                hoks.1 hoks.2 (by simp only [List.length_cons] at hlen; omega) (by omega)
                (by rw [show ({ s2 with wq := [] } : Sys).rctx = s2.rctx from rfl, hrem2]; omega)]
              rw [ref_chunks_more _ _ _ _ _ _ _ _ hlt hlast]
              show ref_chunks hw cmd key src k s2.rctx.iv s2.rctx.nbytes_i s2.rctx.dst_buf = _
              rw [hcomp.iv, hcomp.pos, hcomp.dst]
              rw [show (advance s.rctx).nbytes_i
                    = s.rctx.nbytes_i + min (src.length - s.rctx.nbytes_i) 32768 from hi1]
              rfl


theorem req_env_ok_iff (renv : ReqEnv) (n : Nat) :
    renv.ok n = true ↔
      (∃ sm, renv.kmalloc_src_buf = some sm ∧ sm.length = n)
      ∧ (∃ dm, renv.kmalloc_dst_buf = some dm ∧ dm.length = n)
      ∧ renv.chunks.all ChunkEnv.ok = true := by
  unfold ReqEnv.ok
  cases h1 : renv.kmalloc_src_buf <;> cases h2 : renv.kmalloc_dst_buf <;>
    simp [Bool.and_eq_true, and_assoc]

theorem setup_ok (renv : ReqEnv) (rctx0 : zynqaes_reqctx) (ctx : zynqaes_ctx)
    (areq : ablkcipher_request) (cmd : Nat) (hcmd : rctx0.cmd = cmd)
    (hok : renv.ok areq.nbytes = true) (hsrc : areq.src.length = areq.nbytes)
    (hinfo : is_cbc_op cmd = true → areq.info.length = 16) (hiv0 : rctx0.iv.length = 16) :
    (crypt_req_setup renv rctx0 ctx areq).1 = 0
    ∧ ReqWf cmd ctx.key areq.src (crypt_req_setup renv rctx0 ctx areq).2.rctx
    ∧ (crypt_req_setup renv rctx0 ctx areq).2.rctx.nbytes_i = 0
    ∧ (crypt_req_setup renv rctx0 ctx areq).2.rctx.nbytes_remaining = areq.nbytes
    ∧ (crypt_req_setup renv rctx0 ctx areq).2.rctx.iv
        = (if is_cbc_op cmd then areq.info else rctx0.iv)
    ∧ (∃ dm, renv.kmalloc_dst_buf = some dm
        ∧ (crypt_req_setup renv rctx0 ctx areq).2.rctx.dst_buf = dm) := by
  obtain ⟨⟨sm, hsm, hsl⟩, ⟨dm, hdm, hdl⟩, _⟩ := (req_env_ok_iff renv areq.nbytes).1 hok
  have hsb : memcpy sm 0 (areq.src.drop 0) areq.nbytes = areq.src := by
    rw [memcpy_zero_full _ _ _ hsl, List.drop_zero, List.take_of_length_le (Nat.le_of_eq hsrc)]
  subst hcmd
  unfold crypt_req_setup scatterwalk_map_and_copy
  simp only [hsm, hdm, Bool.false_eq_true, if_false, hsb]
  by_cases hc : is_cbc_op rctx0.cmd = true
  · have hi := hinfo hc
    have hib : memcpy rctx0.iv 0 areq.info AES_BLOCK_SIZE = areq.info := by
      rw [memcpy_zero_full _ _ _ hiv0, List.take_of_length_le (Nat.le_of_eq hi)]
    rw [if_pos hc, if_pos hc, hib]
    exact ⟨trivial, ⟨rfl, rfl, rfl, hsrc.symm, by simp [hsrc], by simp [hdl, hsrc], hi,
      by simp⟩, rfl, rfl, rfl, dm, rfl, rfl⟩
  · rw [if_neg hc, if_neg hc]
    exact ⟨trivial, ⟨rfl, rfl, rfl, hsrc.symm, by simp [hsrc], by simp [hdl, hsrc], hiv0,
      by simp⟩, rfl, rfl, rfl, dm, rfl, rfl⟩

theorem dispatch_cbc (renv : ReqEnv) (rctx0 : zynqaes_reqctx) (ctx : zynqaes_ctx)
    (areq : ablkcipher_request) (cmd : Nat) (env : ChunkEnv) (envs0 : List ChunkEnv)
    (hcmd : rctx0.cmd = cmd) (hcbc : is_cbc_op cmd = true) (hkey : ctx.key.length = 16)
    (hok : renv.ok areq.nbytes = true) (hsrc : areq.src.length = areq.nbytes)
    (hinfo : areq.info.length = 16) (hiv0 : rctx0.iv.length = 16)
    (hpos : 0 < areq.nbytes) (hfit : areq.nbytes ≤ 2147483648) (hL16 : 16 ∣ areq.nbytes)
    (hch : renv.chunks = env :: envs0) :
    zynqaes_crypt_req renv rctx0 ctx areq
      = some (0, (Sys.enqueue env (crypt_req_setup renv rctx0 ctx areq).2).2) := by
  obtain ⟨h0, hwf, hi, hr, _, _⟩ := setup_ok renv rctx0 ctx areq cmd hcmd hok hsrc
    (fun _ => hinfo) hiv0
  obtain ⟨_, _, hall⟩ := (req_env_ok_iff renv areq.nbytes).1 hok
  rw [hch] at hall
  simp only [List.all_cons, Bool.and_eq_true] at hall
  obtain ⟨c, he, _, hwf1, _, _⟩ := sys_enqueue_ok cmd ctx.key areq.src env
    (crypt_req_setup renv rctx0 ctx areq).2 hall.1 (Or.inr hcbc) hkey hwf
    (by rw [hsrc]; exact hfit) (by rw [hsrc]; exact hL16) (by rw [hr]; omega)
  unfold zynqaes_crypt_req
  simp only [h0, ne_eq, not_true_eq_false, if_false, hch]
  unfold crypt_req_loop
  rw [if_neg (by rw [hr]; omega)]
  simp only []
  have h1 : (Sys.enqueue env (crypt_req_setup renv rctx0 ctx areq).2).1 = 0 := by rw [he]
  have h2 : is_cbc_op (Sys.enqueue env (crypt_req_setup renv rctx0 ctx areq).2).2.rctx.cmd
      = true := by
    rw [he]
    show is_cbc_op (advance _).cmd = true
    rw [hwf1.cmd_eq]
    exact hcbc
  rw [if_neg (by rw [h1]; simp), if_pos h2]


/-! ## The accelerator on the frames of the driver -/

theorem frame_cmd_frame_of (cmd : Nat) (key iv p : List Nat) (h : cmd < 256) :
    frame_cmd (frame_of cmd key iv p) = cmd := by
  unfold frame_cmd frame_of
  rw [cmd_bytes_of_lt cmd h]
  simp

theorem frame_key (cmd : Nat) (key iv p : List Nat) (hkey : key.length = 16) :
    ((frame_of cmd key iv p).drop 4).take 16 = key := by
  unfold frame_of
  have : cmd_bytes cmd ++ key ++ (if is_cbc_op cmd = true then iv else []) ++ p
      = cmd_bytes cmd ++ (key ++ ((if is_cbc_op cmd = true then iv else []) ++ p)) := by simp
  rw [this, List.drop_left' (cmd_bytes_length cmd), List.take_left' hkey]

theorem frame_ecb_payload (cmd : Nat) (key iv p : List Nat) (hkey : key.length = 16)
    (h : is_cbc_op cmd = false) : (frame_of cmd key iv p).drop 20 = p := by
  unfold frame_of
  simp only [h, Bool.false_eq_true, if_false, List.append_nil]
  exact List.drop_left' (by simp [cmd_bytes_length, hkey])

theorem frame_cbc_iv (cmd : Nat) (key iv p : List Nat) (hkey : key.length = 16)
    (hiv : iv.length = 16) (h : is_cbc_op cmd = true) :
    ((frame_of cmd key iv p).drop 20).take 16 = iv := by
  unfold frame_of
  simp only [h, if_true]
  have : cmd_bytes cmd ++ key ++ iv ++ p = (cmd_bytes cmd ++ key) ++ (iv ++ p) := by simp
  rw [this, List.drop_left' (by simp [cmd_bytes_length, hkey]), List.take_left' hiv]

theorem frame_cbc_payload (cmd : Nat) (key iv p : List Nat) (hkey : key.length = 16)
    (hiv : iv.length = 16) (h : is_cbc_op cmd = true) : (frame_of cmd key iv p).drop 36 = p := by
  unfold frame_of
  simp only [h, if_true]
  exact List.drop_left' (by simp [cmd_bytes_length, hkey, hiv])

theorem accelerator_ecb_encrypt (E D : List Nat → List Nat → List Nat) (key iv p : List Nat)
    (hkey : key.length = 16) :
    accelerator E D (frame_of 0x20 key iv p) = ecb_reference E key p := by
  unfold accelerator
  simp only [frame_cmd_frame_of 0x20 key iv p (by decide), frame_key 0x20 key iv p hkey,
    frame_ecb_payload 0x20 key iv p hkey (by decide), ZYNQAES_ECB_ENCRYPT, if_true]

theorem accelerator_ecb_decrypt (E D : List Nat → List Nat → List Nat) (key iv p : List Nat)
    (hkey : key.length = 16) :
    accelerator E D (frame_of 0x30 key iv p) = ecb_reference D key p := by
  unfold accelerator
  simp only [frame_cmd_frame_of 0x30 key iv p (by decide), frame_key 0x30 key iv p hkey,
    frame_ecb_payload 0x30 key iv p hkey (by decide), ZYNQAES_ECB_ENCRYPT,
    ZYNQAES_ECB_DECRYPT, if_true]
  simp

theorem accelerator_cbc_encrypt (E D : List Nat → List Nat → List Nat) (key iv p : List Nat)
    (hkey : key.length = 16) (hiv : iv.length = 16) :
    accelerator E D (frame_of 0x40 key iv p) = cbc_encrypt_reference E key iv p := by
  unfold accelerator
  simp only [frame_cmd_frame_of 0x40 key iv p (by decide), frame_key 0x40 key iv p hkey,
    frame_cbc_iv 0x40 key iv p hkey hiv (by decide),
    frame_cbc_payload 0x40 key iv p hkey hiv (by decide), ZYNQAES_ECB_ENCRYPT,
    ZYNQAES_ECB_DECRYPT, ZYNQAES_CBC_ENCRYPT, if_true]
  simp

theorem accelerator_cbc_decrypt (E D : List Nat → List Nat → List Nat) (key iv p : List Nat)
    (hkey : key.length = 16) (hiv : iv.length = 16) :
    accelerator E D (frame_of 0x41 key iv p) = cbc_decrypt_reference D key iv p := by
  unfold accelerator
  simp only [frame_cmd_frame_of 0x41 key iv p (by decide), frame_key 0x41 key iv p hkey,
    frame_cbc_iv 0x41 key iv p hkey hiv (by decide),
    frame_cbc_payload 0x41 key iv p hkey hiv (by decide), ZYNQAES_ECB_ENCRYPT,
    ZYNQAES_ECB_DECRYPT, ZYNQAES_CBC_ENCRYPT, ZYNQAES_CBC_DECRYPT, if_true]
  simp


/-! ## Reference ciphers: lengths, prefixes, concatenation -/

theorem xor_block_length (a b : List Nat) (ha : a.length = 16) (hb : b.length = 16) :
    (xor_block a b).length = 16 := by
  simp [xor_block, ha, hb]

theorem xor_block_cancel (a : List Nat) : ∀ b : List Nat, a.length ≤ b.length →
    xor_block (xor_block a b) b = a := by
  induction a with
  | nil => intro b _; simp [xor_block]
  | cons x xs ih =>
    intro b hb
    cases b with
    | nil => simp at hb
    | cons y ys =>
      have := ih ys (by simpa using hb)
      simp only [xor_block, List.zipWith_cons_cons] at this ⊢
      rw [this, Nat.xor_assoc, Nat.xor_self, Nat.xor_zero]

theorem take16_length (data : List Nat) (h : 16 ≤ data.length) : (data.take 16).length = 16 := by
  simp; omega

theorem ecb_blocks_length (F : List Nat → List Nat → List Nat) (key : List Nat)
    (hF : ∀ b, b.length = 16 → (F key b).length = 16) :
    ∀ (m : Nat) (data : List Nat), 16 * m ≤ data.length →
      (ecb_blocks F key m data).length = 16 * m := by
  intro m
  induction m with
  | zero => intro data _; simp [ecb_blocks]
  | succ m ih =>
    intro data h
    simp only [ecb_blocks, List.length_append]
    rw [hF _ (take16_length data (by omega)), ih (data.drop 16) (by simp; omega)]
    omega

theorem ecb_blocks_take (F : List Nat → List Nat → List Nat) (key : List Nat) :
    ∀ (m : Nat) (data : List Nat),
      ecb_blocks F key m (data.take (16 * m)) = ecb_blocks F key m data := by
  intro m
  induction m with
  | zero => intro data; simp [ecb_blocks]
  | succ m ih =>
    intro data
    simp only [ecb_blocks]
    rw [List.take_take, Nat.min_eq_left (by omega), List.drop_take]
    have : 16 * (m + 1) - 16 = 16 * m := by omega
    rw [this, ih]

theorem ecb_blocks_append (F : List Nat → List Nat → List Nat) (key : List Nat) :
    ∀ (a b : Nat) (data : List Nat),
      ecb_blocks F key (a + b) data
        = ecb_blocks F key a data ++ ecb_blocks F key b (data.drop (16 * a)) := by
  intro a
  induction a with
  | zero => intro b data; simp [ecb_blocks]
  | succ a ih =>
    intro b data
    have : a + 1 + b = (a + b) + 1 := by omega
    rw [this]
    simp only [ecb_blocks, List.append_assoc]
    rw [ih, List.drop_drop]
    have : 16 + 16 * a = 16 * (a + 1) := by omega
    rw [this]

theorem cbc_encrypt_blocks_length (E : List Nat → List Nat → List Nat) (key : List Nat)
    (hE : ∀ b, b.length = 16 → (E key b).length = 16) :
    ∀ (m : Nat) (iv data : List Nat), iv.length = 16 → 16 * m ≤ data.length →
      (cbc_encrypt_blocks E key m iv data).length = 16 * m := by
  intro m
  induction m with
  | zero => intro iv data _ _; simp [cbc_encrypt_blocks]
  | succ m ih =>
    intro iv data hiv h
    have hc : (E key (xor_block (data.take 16) iv)).length = 16 :=
      hE _ (xor_block_length _ _ (take16_length data (by omega)) hiv)
    simp only [cbc_encrypt_blocks, List.length_append]
    rw [hc, ih _ (data.drop 16) hc (by simp; omega)]
    omega

theorem cbc_encrypt_blocks_take (E : List Nat → List Nat → List Nat) (key : List Nat) :
    ∀ (m : Nat) (iv data : List Nat),
      cbc_encrypt_blocks E key m iv (data.take (16 * m)) = cbc_encrypt_blocks E key m iv data := by
  intro m
  induction m with
  | zero => intro iv data; simp [cbc_encrypt_blocks]
  | succ m ih =>
    intro iv data
    simp only [cbc_encrypt_blocks]
    rw [List.take_take, Nat.min_eq_left (by omega), List.drop_take]
    have : 16 * (m + 1) - 16 = 16 * m := by omega
    rw [this, ih]

theorem cbc_encrypt_blocks_append (E : List Nat → List Nat → List Nat) (key : List Nat)
    (hE : ∀ b, b.length = 16 → (E key b).length = 16) :
    ∀ (a b : Nat) (iv data : List Nat), iv.length = 16 → 16 * a ≤ data.length →
      cbc_encrypt_blocks E key (a + b) iv data
        = cbc_encrypt_blocks E key a iv data
          ++ cbc_encrypt_blocks E key b
              ((iv ++ cbc_encrypt_blocks E key a iv data).drop (16 * a)) (data.drop (16 * a)) := by
  intro a
  induction a with
  | zero =>
    intro b iv data _ _
    simp [cbc_encrypt_blocks]
  | succ a ih =>
    intro b iv data hiv h
    have hc : (E key (xor_block (data.take 16) iv)).length = 16 :=
      hE _ (xor_block_length _ _ (take16_length data (by omega)) hiv)
    have : a + 1 + b = (a + b) + 1 := by omega
    rw [this]
    simp only [cbc_encrypt_blocks, List.append_assoc]
    rw [ih b _ (data.drop 16) hc (by simp; omega), List.drop_drop]
    have e1 : 16 + 16 * a = 16 * (a + 1) := by omega
    rw [e1]
    have e2 : (iv ++ (E key (xor_block (data.take 16) iv)
        ++ cbc_encrypt_blocks E key a (E key (xor_block (data.take 16) iv)) (data.drop 16))).drop
          (16 * (a + 1))
        = (E key (xor_block (data.take 16) iv)
          ++ cbc_encrypt_blocks E key a (E key (xor_block (data.take 16) iv)) (data.drop 16)).drop
            (16 * a) := by
      rw [List.drop_append_eq_append_drop, List.drop_of_length_le (by omega), hiv]
      have : 16 * (a + 1) - 16 = 16 * a := by omega
      rw [this, List.nil_append]
    rw [e2]


theorem cbc_decrypt_blocks_length (D : List Nat → List Nat → List Nat) (key : List Nat)
    (hD : ∀ b, b.length = 16 → (D key b).length = 16) :
    ∀ (m : Nat) (iv data : List Nat), iv.length = 16 → 16 * m ≤ data.length →
      (cbc_decrypt_blocks D key m iv data).length = 16 * m := by
  intro m
  induction m with
  | zero => intro iv data _ _; simp [cbc_decrypt_blocks]
  | succ m ih =>
    intro iv data hiv h
    have hc : (data.take 16).length = 16 := take16_length data (by omega)
    simp only [cbc_decrypt_blocks, List.length_append]
    rw [xor_block_length _ _ (hD _ hc) hiv, ih _ (data.drop 16) hc (by simp; omega)]
    omega

theorem cbc_decrypt_blocks_take (D : List Nat → List Nat → List Nat) (key : List Nat) :
    ∀ (m : Nat) (iv data : List Nat),
      cbc_decrypt_blocks D key m iv (data.take (16 * m)) = cbc_decrypt_blocks D key m iv data := by
  intro m
  induction m with
  | zero => intro iv data; simp [cbc_decrypt_blocks]
  | succ m ih =>
    intro iv data
    simp only [cbc_decrypt_blocks]
    rw [List.take_take, Nat.min_eq_left (by omega), List.drop_take]
    have : 16 * (m + 1) - 16 = 16 * m := by omega
    rw [this, ih]

theorem cbc_decrypt_blocks_append (D : List Nat → List Nat → List Nat) (key : List Nat) :
    ∀ (a b : Nat) (iv data : List Nat), iv.length = 16 → 16 * a ≤ data.length →
      cbc_decrypt_blocks D key (a + b) iv data
        = cbc_decrypt_blocks D key a iv data
          ++ cbc_decrypt_blocks D key b (((iv ++ data).drop (16 * a)).take 16)
              (data.drop (16 * a)) := by
  intro a
  induction a with
  | zero =>
    intro b iv data hiv _
    simp [cbc_decrypt_blocks, List.take_left' hiv]
  | succ a ih =>
    intro b iv data hiv h
    have hc : (data.take 16).length = 16 := take16_length data (by omega)
    have : a + 1 + b = (a + b) + 1 := by omega
    rw [this]
    simp only [cbc_decrypt_blocks, List.append_assoc]
    rw [ih b _ (data.drop 16) hc (by simp; omega), List.drop_drop, List.take_append_drop]
    have e1 : 16 + 16 * a = 16 * (a + 1) := by omega
    rw [e1]
    have e2 : (iv ++ data).drop (16 * (a + 1)) = data.drop (16 * a) := by
      rw [List.drop_append_eq_append_drop, List.drop_of_length_le (by omega), hiv]
      have : 16 * (a + 1) - 16 = 16 * a := by omega
      rw [this, List.nil_append]
    rw [e2]

theorem ecb_round_trip (E D : List Nat → List Nat → List Nat) (key : List Nat)
    (hE : ∀ b, b.length = 16 → (E key b).length = 16)
    (hDE : ∀ b, b.length = 16 → D key (E key b) = b) :
    ∀ (m : Nat) (p : List Nat), 16 * m ≤ p.length →
      ecb_blocks D key m (ecb_blocks E key m p) = p.take (16 * m) := by
  intro m
  induction m with
  | zero => intro p _; simp [ecb_blocks]
  | succ m ih =>
    intro p h
    have hp : (p.take 16).length = 16 := take16_length p (by omega)
    have hc : (E key (p.take 16)).length = 16 := hE _ hp
    simp only [ecb_blocks]
    rw [List.take_left' hc, List.drop_left' hc, hDE _ hp, ih (p.drop 16) (by simp; omega)]
    have e : 16 * (m + 1) = 16 + 16 * m := by omega
    rw [e, List.take_add]

theorem cbc_round_trip (E D : List Nat → List Nat → List Nat) (key : List Nat)
    (hE : ∀ b, b.length = 16 → (E key b).length = 16)
    (hDE : ∀ b, b.length = 16 → D key (E key b) = b) :
    ∀ (m : Nat) (iv p : List Nat), iv.length = 16 → 16 * m ≤ p.length →
      cbc_decrypt_blocks D key m iv (cbc_encrypt_blocks E key m iv p) = p.take (16 * m) := by
  intro m
  induction m with
  | zero => intro iv p _ _; simp [cbc_decrypt_blocks]
  | succ m ih =>
    intro iv p hiv h
    have hp : (p.take 16).length = 16 := take16_length p (by omega)
    have hx : (xor_block (p.take 16) iv).length = 16 := xor_block_length _ _ hp hiv
    have hc : (E key (xor_block (p.take 16) iv)).length = 16 := hE _ hx
    simp only [cbc_encrypt_blocks, cbc_decrypt_blocks]
    rw [List.take_left' hc, List.drop_left' hc, hDE _ hx,
      xor_block_cancel _ _ (by omega), ih _ (p.drop 16) hc (by simp; omega)]
    have e : 16 * (m + 1) = 16 + 16 * m := by omega
    rw [e, List.take_add]


/-! ## Chunk-by-chunk processing equals a single pass -/

theorem ref_chunks_mode (hw : List Nat → List Nat) (cmd : Nat) (key src : List Nat)
    (mode chain : Nat → List Nat → List Nat → List Nat)
    (hH : ∀ iv p, iv.length = 16 → hw (frame_of cmd key iv p) = mode (p.length / 16) iv p)
    (hLen : ∀ a iv data, iv.length = 16 → 16 * a ≤ data.length →
      (mode a iv data).length = 16 * a)
    (hT : ∀ a iv data, mode a iv (data.take (16 * a)) = mode a iv data)
    (hA : ∀ a b iv data, iv.length = 16 → 16 * a ≤ data.length →
      mode (a + b) iv data = mode a iv data ++ mode b (chain a iv data) (data.drop (16 * a)))
    (hN : ∀ a iv data, 1 ≤ a → iv.length = 16 → 16 * a ≤ data.length →
      next_iv cmd iv (mode a iv data) (data.take (16 * a)) (16 * a) = chain a iv data)
    (hC : ∀ a iv data, iv.length = 16 → 16 * a ≤ data.length → (chain a iv data).length = 16)
    (hL16 : 16 ∣ src.length) :
    ∀ (k : Nat) (iv : List Nat) (off : Nat) (dst : List Nat),
      off < src.length → 16 ∣ off → dst.length = src.length → iv.length = 16 →
      src.length - off ≤ k * 32768 →
      ref_chunks hw cmd key src k iv off dst
        = some (dst.take off ++ mode ((src.length - off) / 16) iv (src.drop off)) := by
  intro k
  induction k with
  | zero => intro iv off dst hoff _ _ _ hk; omega
  | succ k ih =>
    intro iv off dst hoff h16 hdl hiv hk
    obtain ⟨a, ha⟩ : ∃ a, min (src.length - off) 32768 = 16 * a := by
      have : 16 ∣ min (src.length - off) 32768 := by omega
      exact this
    have ha1 : 1 ≤ a := by omega
    have hdata : 16 * a ≤ (src.drop off).length := by
      rw [List.length_drop]; omega
    have hplen : ((src.drop off).take (16 * a)).length = 16 * a := by
      rw [List.length_take]; omega
    have hout : hw (frame_of cmd key iv ((src.drop off).take (16 * a)))
        = mode a iv (src.drop off) := by
      rw [hH iv _ hiv, hplen, Nat.mul_div_cancel_left a (by decide : 0 < 16), hT]
    have holen : (mode a iv (src.drop off)).length = 16 * a := hLen a iv _ hiv hdata
    have hns : ¬ (hw (frame_of cmd key iv
        ((src.drop off).take (min (src.length - off) 32768)))).length
        < min (src.length - off) 32768 := by
      rw [ha, hout, holen]; omega
    by_cases hlast : src.length - off ≤ 32768
    · rw [ref_chunks_last _ _ _ _ _ _ _ _ hns hlast, ha, hout]
      have hn : 16 * a = src.length - off := by omega
      have hq : (src.length - off) / 16 = a := by omega
      rw [hq]
      have hd : dst.drop (off + 16 * a) = [] := List.drop_of_length_le (by omega)
      unfold memcpy
      rw [List.take_of_length_le (Nat.le_of_eq holen), hd, List.append_nil]
    · rw [ref_chunks_more _ _ _ _ _ _ _ _ hns hlast, ha, hout]
      have hn : 16 * a = 32768 := by omega
      rw [hN a iv (src.drop off) ha1 hiv hdata]
      have hdl2 : (memcpy dst off (mode a iv (src.drop off)) (16 * a)).length = src.length := by
        rw [memcpy_length _ _ _ _ (by omega) (by omega), hdl]
      rw [ih (chain a iv (src.drop off)) (off + 16 * a) _ (by omega) (by omega) hdl2
        (hC a iv _ hiv hdata) (by omega)]
      rw [memcpy_take_end _ _ _ _ (by omega) (by omega),
        List.take_of_length_le (Nat.le_of_eq holen)]
      obtain ⟨b, hb⟩ : ∃ b, src.length - (off + 16 * a) = 16 * b := by
        have : 16 ∣ src.length - (off + 16 * a) := by omega
        exact this
      have hq1 : (src.length - (off + 16 * a)) / 16 = b := by omega
      have hq2 : (src.length - off) / 16 = a + b := by omega
      rw [hq1, hq2, hA a b iv _ hiv hdata, List.drop_drop, List.append_assoc]


theorem ref_chunks_cbc_encrypt (E D : List Nat → List Nat → List Nat) (key src : List Nat)
    (hkey : key.length = 16) (hE : ∀ b, b.length = 16 → (E key b).length = 16)
    (hL16 : 16 ∣ src.length) (k : Nat) (iv : List Nat) (off : Nat) (dst : List Nat)
    (hoff : off < src.length) (h16 : 16 ∣ off) (hdl : dst.length = src.length)
    (hiv : iv.length = 16) (hk : src.length - off ≤ k * 32768) :
    ref_chunks (accelerator E D) 0x40 key src k iv off dst
      = some (dst.take off
          ++ cbc_encrypt_blocks E key ((src.length - off) / 16) iv (src.drop off)) := by
  refine ref_chunks_mode (accelerator E D) 0x40 key src (cbc_encrypt_blocks E key)
    (fun a iv data => (iv ++ cbc_encrypt_blocks E key a iv data).drop (16 * a))
    ?_ ?_ ?_ ?_ ?_ ?_ hL16 k iv off dst hoff h16 hdl hiv hk
  · intro iv p hiv
    rw [accelerator_cbc_encrypt E D key iv p hkey hiv]
    rfl
  · exact cbc_encrypt_blocks_length E key hE
  · exact cbc_encrypt_blocks_take E key
  · exact cbc_encrypt_blocks_append E key hE
  · intro a iv data ha hiv hd
    have hl := cbc_encrypt_blocks_length E key hE a iv data hiv hd
    unfold next_iv
    simp only [ZYNQAES_CBC_ENCRYPT, if_true]
    have h1 : (cbc_encrypt_blocks E key a iv data).take (16 * a)
        = cbc_encrypt_blocks E key a iv data := List.take_of_length_le (Nat.le_of_eq hl)
    have h0 : iv.drop (16 * a) = [] := List.drop_of_length_le (by omega)
    rw [h1, List.drop_append_eq_append_drop, h0, hiv, List.nil_append]
  · intro a iv data hiv hd
    have hl := cbc_encrypt_blocks_length E key hE a iv data hiv hd
    simp only [List.length_drop, List.length_append, hl, hiv]
    omega

theorem ref_chunks_cbc_decrypt (E D : List Nat → List Nat → List Nat) (key src : List Nat)
    (hkey : key.length = 16) (hD : ∀ b, b.length = 16 → (D key b).length = 16)
    (hL16 : 16 ∣ src.length) (k : Nat) (iv : List Nat) (off : Nat) (dst : List Nat)
    (hoff : off < src.length) (h16 : 16 ∣ off) (hdl : dst.length = src.length)
    (hiv : iv.length = 16) (hk : src.length - off ≤ k * 32768) :
    ref_chunks (accelerator E D) 0x41 key src k iv off dst
      = some (dst.take off
          ++ cbc_decrypt_blocks D key ((src.length - off) / 16) iv (src.drop off)) := by
  refine ref_chunks_mode (accelerator E D) 0x41 key src (cbc_decrypt_blocks D key)
    (fun a iv data => ((iv ++ data).drop (16 * a)).take 16)
    ?_ ?_ ?_ ?_ ?_ ?_ hL16 k iv off dst hoff h16 hdl hiv hk
  · intro iv p hiv
    rw [accelerator_cbc_decrypt E D key iv p hkey hiv]
    rfl
  · exact cbc_decrypt_blocks_length D key hD
  · exact cbc_decrypt_blocks_take D key
  · exact cbc_decrypt_blocks_append D key
  · intro a iv data ha hiv hd
    unfold next_iv
    have hne : ¬ ((0x41 : Nat) = ZYNQAES_CBC_ENCRYPT) := by decide
    rw [if_neg hne]
    simp only [ZYNQAES_CBC_DECRYPT, if_true]
    have h0 : iv.drop (16 * a) = [] := List.drop_of_length_le (by omega)
    rw [List.drop_append_eq_append_drop, h0, hiv, List.nil_append, List.drop_take]
    have : 16 * a - (16 * a - 16) = 16 := by omega
    rw [this]
  · intro a iv data hiv hd
    simp only [List.length_take, List.length_drop, List.length_append, hiv]
    omega

theorem ref_chunks_ecb (E D : List Nat → List Nat → List Nat)
    (F : List Nat → List Nat → List Nat) (cmd : Nat) (key src : List Nat)
    (hkey : key.length = 16) (hF : ∀ b, b.length = 16 → (F key b).length = 16)
    (hcmd : is_cbc_op cmd = false)
    (hacc : ∀ iv p, accelerator E D (frame_of cmd key iv p) = ecb_reference F key p)
    (hL16 : 16 ∣ src.length) (k : Nat) (iv : List Nat) (off : Nat) (dst : List Nat)
    (hoff : off < src.length) (h16 : 16 ∣ off) (hdl : dst.length = src.length)
    (hiv : iv.length = 16) (hk : src.length - off ≤ k * 32768) :
    ref_chunks (accelerator E D) cmd key src k iv off dst
      = some (dst.take off ++ ecb_blocks F key ((src.length - off) / 16) (src.drop off)) := by
  have _ := hkey
  refine ref_chunks_mode (accelerator E D) cmd key src (fun a _ data => ecb_blocks F key a data)
    (fun _ iv _ => iv) ?_ ?_ ?_ ?_ ?_ ?_ hL16 k iv off dst hoff h16 hdl hiv hk
  · intro iv p _
    rw [hacc iv p]
    rfl
  · intro a _ data _ hd
    exact ecb_blocks_length F key hF a data hd
  · intro a _ data
    exact ecb_blocks_take F key a data
  · intro a b _ data _ _
    exact ecb_blocks_append F key a b data
  · intro a iv data _ _ _
    unfold next_iv
    simp only [is_cbc_op, Bool.or_eq_false_iff, beq_eq_false_iff_ne, ne_eq] at hcmd
    rw [if_neg hcmd.1, if_neg hcmd.2]
  · intro a iv data hiv _
    exact hiv


/-! ## The CBC pipeline -/

theorem cbc_pipeline (hw : List Nat → List Nat) (cmd : Nat) (key iv payload dst0 : List Nat)
    (rctx0 : zynqaes_reqctx) (renv : ReqEnv) (envs : List ChunkEnv) (fuel : Nat)
    (hcbc : is_cbc_op cmd = true) (hkey : key.length = 16) (hiv : iv.length = 16)
    (hpos : 0 < payload.length) (h16 : 16 ∣ payload.length)
    (hfit : payload.length ≤ 2147483648) (hr0 : rctx0.iv.length = 16)
    (hrenv : renv.ok payload.length = true) (hch : renv.chunks ≠ [])
    (henvs : envs.all ChunkEnv.ok = true)
    (hlen : (payload.length + 32767) / 32768 ≤ envs.length + 1)
    (hfuel : 2 * ((payload.length + 32767) / 32768) ≤ fuel + 1) :
    ∃ s dm, zynqaes_crypt_req renv (zynqaes_crypt rctx0 cmd) ⟨key⟩
        ⟨payload.length, payload, dst0, iv⟩ = some (0, s)
      ∧ dm.length = payload.length
      ∧ Sys.result (run hw fuel envs s)
          = ref_chunks hw cmd key payload ((payload.length + 32767) / 32768) iv 0 dm := by
  obtain ⟨env, envs0, hce⟩ := List.exists_cons_of_ne_nil hch
  obtain ⟨_, _, hall⟩ := (req_env_ok_iff renv payload.length).1 hrenv
  rw [hce] at hall
  simp only [List.all_cons, Bool.and_eq_true] at hall
  have hd := dispatch_cbc renv (zynqaes_crypt rctx0 cmd) ⟨key⟩
    ⟨payload.length, payload, dst0, iv⟩ cmd env envs0 rfl hcbc hkey hrenv rfl hiv hr0 hpos hfit
    h16 hce
  obtain ⟨_, hwf, hi, hr, hiv2, dm, _, hdm⟩ := setup_ok renv (zynqaes_crypt rctx0 cmd) ⟨key⟩
    ⟨payload.length, payload, dst0, iv⟩ cmd rfl hrenv rfl (fun _ => hiv) hr0
  obtain ⟨g1, g2, g3, _, g5⟩ := setup_shape renv (zynqaes_crypt rctx0 cmd) ⟨key⟩
    ⟨payload.length, payload, dst0, iv⟩
  refine ⟨_, dm, hd, ?_, ?_⟩
  · rw [← hdm]; exact hwf.dst_len
  · have := cbc_run hw cmd key payload hcbc hkey hfit h16 ((payload.length + 32767) / 32768)
      (crypt_req_setup renv (zynqaes_crypt rctx0 cmd) ⟨key⟩ ⟨payload.length, payload, dst0, iv⟩).2
      env envs fuel g1 g2 (by rw [g3]; simp) hwf (by rw [hr]; show payload.length ≠ 0; omega)
      (by rw [g5]) hall.1 henvs hlen hfuel
      (by rw [hr]; show payload.length ≤ (payload.length + 32767) / 32768 * 32768; omega)
    rw [this, hiv2, hi, hdm, if_pos hcbc]

theorem cbc_encrypt_result (E D : List Nat → List Nat → List Nat)
    (key iv payload dst0 : List Nat) (rctx0 : zynqaes_reqctx) (renv : ReqEnv)
    (envs : List ChunkEnv) (fuel : Nat)
    (hkey : key.length = 16) (hiv : iv.length = 16)
    (hpos : 0 < payload.length) (h16 : 16 ∣ payload.length)
    (hfit : payload.length ≤ 2147483648)
    (hE : ∀ b, b.length = 16 → (E key b).length = 16)
    (hr0 : rctx0.iv.length = 16)
    (hrenv : renv.ok payload.length = true) (hch : renv.chunks ≠ [])
    (henvs : envs.all ChunkEnv.ok = true)
    (hlen : (payload.length + 32767) / 32768 ≤ envs.length + 1)
    (hfuel : 2 * ((payload.length + 32767) / 32768) ≤ fuel + 1) :
    ∃ s, zynqaes_crypt_req renv (zynqaes_crypt rctx0 0x40) ⟨key⟩
        ⟨payload.length, payload, dst0, iv⟩ = some (0, s)
      ∧ Sys.result (run (accelerator E D) fuel envs s)
          = some (cbc_encrypt_reference E key iv payload) := by
  obtain ⟨s, dm, h1, h2, h3⟩ := cbc_pipeline (accelerator E D) 0x40 key iv payload dst0 rctx0
    renv envs fuel (by decide) hkey hiv hpos h16 hfit hr0 hrenv hch henvs hlen hfuel
  refine ⟨s, h1, ?_⟩
  rw [h3, ref_chunks_cbc_encrypt E D key payload hkey hE h16 _ iv 0 dm hpos (by simp) h2 hiv
    (by simp; omega)]
  simp [cbc_encrypt_reference]

theorem cbc_decrypt_result (E D : List Nat → List Nat → List Nat)
    (key iv payload dst0 : List Nat) (rctx0 : zynqaes_reqctx) (renv : ReqEnv)
    (envs : List ChunkEnv) (fuel : Nat)
    (hkey : key.length = 16) (hiv : iv.length = 16)
    (hpos : 0 < payload.length) (h16 : 16 ∣ payload.length)
    (hfit : payload.length ≤ 2147483648)
    (hD : ∀ b, b.length = 16 → (D key b).length = 16)
    (hr0 : rctx0.iv.length = 16)
    (hrenv : renv.ok payload.length = true) (hch : renv.chunks ≠ [])
    (henvs : envs.all ChunkEnv.ok = true)
    (hlen : (payload.length + 32767) / 32768 ≤ envs.length + 1)
    (hfuel : 2 * ((payload.length + 32767) / 32768) ≤ fuel + 1) :
    ∃ s, zynqaes_crypt_req renv (zynqaes_crypt rctx0 0x41) ⟨key⟩
        ⟨payload.length, payload, dst0, iv⟩ = some (0, s)
      ∧ Sys.result (run (accelerator E D) fuel envs s)
          = some (cbc_decrypt_reference D key iv payload) := by
  obtain ⟨s, dm, h1, h2, h3⟩ := cbc_pipeline (accelerator E D) 0x41 key iv payload dst0 rctx0
    renv envs fuel (by decide) hkey hiv hpos h16 hfit hr0 hrenv hch henvs hlen hfuel
  refine ⟨s, h1, ?_⟩
  rw [h3, ref_chunks_cbc_decrypt E D key payload hkey hD h16 _ iv 0 dm hpos (by simp) h2 hiv
    (by simp; omega)]
  simp [cbc_decrypt_reference]

/-- C10: with the accelerator modelled as reference CBC over a block-cipher
pair `(E, D)` (both map 16-byte blocks to 16-byte blocks), for every 16-byte
key, 16-byte initial IV and payload whose length is a positive multiple of 16
(any number of chunks) and at most `2 ^ 31`, so that every chunk position fits
the signed `int nbytes_i` that `zynqaes_enqueue_next_dma_op` adds to the buffer
pointers, and for every destination scatterlist that can hold the result, the
request dispatched by `zynqaes_crypt_req` under `0x40` and run to the end
(completions delivered, `zynqaes_done_task` run, all allocations and
submissions succeeding) is finalized with the single-pass reference CBC
encryption of the payload under the initial IV in the destination; under
`0x41`, with the single-pass reference CBC decryption. -/
theorem chunked_cbc_equals_reference (E D : List Nat → List Nat → List Nat)
    (key iv payload dst0 : List Nat) (rctx0 : zynqaes_reqctx) (renv : ReqEnv)
    (envs : List ChunkEnv) (fuel : Nat)
    (hkey : key.length = 16) (hiv : iv.length = 16)
    (hpos : 0 < payload.length) (h16 : 16 ∣ payload.length)
    (hfit : payload.length ≤ 2147483648) (hdst : payload.length ≤ dst0.length)
    (hE : ∀ b, b.length = 16 → (E key b).length = 16)
    (hD : ∀ b, b.length = 16 → (D key b).length = 16)
    (hr0 : rctx0.iv.length = 16)
    (hrenv : renv.ok payload.length = true) (hch : renv.chunks ≠ [])
    (henvs : envs.all ChunkEnv.ok = true)
    (hlen : (payload.length + 32767) / 32768 ≤ envs.length + 1)
    (hfuel : 2 * ((payload.length + 32767) / 32768) ≤ fuel + 1) :
    (∃ s, zynqaes_crypt_req renv (zynqaes_crypt rctx0 0x40) ⟨key⟩
        ⟨payload.length, payload, dst0, iv⟩ = some (0, s)
      ∧ Sys.result (run (accelerator E D) fuel envs s)
          = some (cbc_encrypt_reference E key iv payload))
    ∧ (∃ s, zynqaes_crypt_req renv (zynqaes_crypt rctx0 0x41) ⟨key⟩
        ⟨payload.length, payload, dst0, iv⟩ = some (0, s)
      ∧ Sys.result (run (accelerator E D) fuel envs s)
          = some (cbc_decrypt_reference D key iv payload)) := by
  have _ := hdst
  exact ⟨cbc_encrypt_result E D key iv payload dst0 rctx0 renv envs fuel hkey hiv hpos h16 hfit
      hE hr0 hrenv hch henvs hlen hfuel,
    cbc_decrypt_result E D key iv payload dst0 rctx0 renv envs fuel hkey hiv hpos h16 hfit
      hD hr0 hrenv hch henvs hlen hfuel⟩

/-! ## The ECB pipeline: eager dispatch and sequential submission -/

theorem ecb_not_cbc (cmd : Nat) (h : is_ecb_op cmd = true) : is_cbc_op cmd = false := by
  simp only [is_ecb_op, Bool.or_eq_true, beq_iff_eq, ZYNQAES_ECB_ENCRYPT,
    ZYNQAES_ECB_DECRYPT] at h
  rcases h with h | h <;> subst h <;> decide

theorem next_iv_ecb (cmd : Nat) (iv out payload : List Nat) (n : Nat)
    (h : is_cbc_op cmd = false) : next_iv cmd iv out payload n = iv := by
  unfold next_iv
  simp only [is_cbc_op, Bool.or_eq_false_iff, beq_eq_false_iff_ne, ne_eq] at h
  rw [if_neg h.1, if_neg h.2]

theorem ecb_loop (cmd : Nat) (key src : List Nat) (hecb : is_ecb_op cmd = true)
    (hkey : key.length = 16) (hfit : src.length ≤ 2147483648) (hL16 : 16 ∣ src.length) :
    ∀ (envs : List ChunkEnv) (s : Sys), ReqWf cmd key src s.rctx →
      envs.all ChunkEnv.ok = true → (s.rctx.nbytes_remaining + 32767) / 32768 ≤ envs.length →
      ∃ s1 cs, crypt_req_loop envs s = some (0, s1)
        ∧ s1.inflight = s.inflight ++ cs
        ∧ ChunksFrom cmd key src s.rctx.iv s.rctx.nbytes_i cs
        ∧ s1.wq = s.wq ∧ s1.areq = s.areq
        ∧ s1.rctx.dst_buf = s.rctx.dst_buf ∧ s1.rctx.iv = s.rctx.iv
        ∧ s1.rctx.cmd = cmd ∧ s1.rctx.src_buf = src ∧ s1.rctx.nbytes_total = src.length
        ∧ (Event.finalize 0 ∉ s.log → Event.finalize 0 ∉ s1.log) := by
  intro envs
  induction envs with
  | nil =>
    intro s hwf _ hlen
    have h0 : s.rctx.nbytes_remaining = 0 := by
      simp only [List.length_nil] at hlen
      omega
    have hs := hwf.sum
    refine ⟨s, [], by simp [crypt_req_loop, h0], by simp, ?_, rfl, rfl, rfl, rfl,
      hwf.cmd_eq, hwf.src_eq, hwf.total, fun h => h⟩
    show src.length ≤ s.rctx.nbytes_i
    omega
  | cons env envs ih =>
    intro s hwf hok hlen
    have hs := hwf.sum
    by_cases h0 : s.rctx.nbytes_remaining = 0
    · refine ⟨s, [], by simp [crypt_req_loop, h0], by simp, ?_, rfl, rfl, rfl, rfl,
        hwf.cmd_eq, hwf.src_eq, hwf.total, fun h => h⟩
      show src.length ≤ s.rctx.nbytes_i
      omega
    · simp only [List.all_cons, Bool.and_eq_true] at hok
      obtain ⟨c, he, hat, hwf1, hi1, hr1⟩ :=
        sys_enqueue_ok cmd key src env s hok.1 (Or.inl hecb) hkey hwf hfit hL16 h0
      have hlen1 : ((advance s.rctx).nbytes_remaining + 32767) / 32768 ≤ envs.length := by
        rw [hr1]
        simp only [List.length_cons] at hlen
        omega
      obtain ⟨s1, cs, hl, g1, g2, g3, g4, g5, g6, g7, g8, g9, g10⟩ :=
        ih { s with rctx := advance s.rctx, inflight := s.inflight ++ [c],
                    log := Event.submit s.rctx.nbytes_i (min s.rctx.nbytes_remaining 32768)
                             :: s.log } hwf1 hok.2 hlen1
      refine ⟨s1, c :: cs, ?_, by rw [g1]; simp, ?_, g3, g4, g5, g6, g7, g8, g9, ?_⟩
      · unfold crypt_req_loop
        rw [if_neg h0]
        simp only [he, ne_eq, not_true_eq_false, if_false]
        have hnc : is_cbc_op (advance s.rctx).cmd = false := by
          rw [hwf1.cmd_eq]; exact ecb_not_cbc cmd hecb
        simp only [hnc, Bool.false_eq_true, if_false]
        exact hl
      · refine ⟨by omega, hat, ?_⟩
        have : (advance s.rctx).nbytes_i
            = s.rctx.nbytes_i + min (src.length - s.rctx.nbytes_i) 32768 := hi1
        rw [← this]
        exact g2
      · intro hnf
        exact g10 (by simpa using hnf)


theorem ecb_run (hw : List Nat → List Nat) (cmd : Nat) (key src : List Nat)
    (hecb : is_ecb_op cmd = true) (hL16 : 16 ∣ src.length) :
    ∀ (k : Nat) (s : Sys) (off fuel : Nat) (envs : List ChunkEnv),
      ChunksFrom cmd key src s.rctx.iv off s.inflight → off < src.length → 16 ∣ off →
      s.wq = [] → Event.finalize 0 ∉ s.log → s.rctx.cmd = cmd → s.rctx.src_buf = src →
      s.rctx.dst_buf.length = src.length → s.rctx.iv.length = 16 →
      s.rctx.nbytes_total = src.length → s.areq.nbytes = src.length → k ≤ fuel →
      src.length - off ≤ k * 32768 →
      Sys.result (run hw fuel envs s)
        = ref_chunks hw cmd key src k s.rctx.iv off s.rctx.dst_buf := by
  have hnc := ecb_not_cbc cmd hecb
  intro k
  induction k with
  | zero =>
    intro s off fuel envs _ hoff _ _ _ _ _ _ _ _ _ _ hk
    omega
  | succ k ih =>
    intro s off fuel envs hcs hoff h16 hwq hnf hcmd hsrc hdl hivl htot han hfuel hk
    cases hinf : s.inflight with
    | nil =>
      rw [hinf] at hcs
      have : src.length ≤ off := hcs
      omega
    | cons c rest =>
      rw [hinf] at hcs
      obtain ⟨_, hat, hrest⟩ := hcs
      obtain ⟨hshort, hfull⟩ := complete_head hw cmd key src s c rest off
        (min (src.length - off) 32768)
        (hw (frame_of cmd key s.rctx.iv ((src.drop off).take (min (src.length - off) 32768))))
        hinf hat hcmd hsrc hdl hivl htot han hoff h16 hL16 rfl rfl
      cases fuel with
      | zero => omega
      | succ f =>
        unfold run
        by_cases hlt : (hw (frame_of cmd key s.rctx.iv
            ((src.drop off).take (min (src.length - off) 32768)))).length
            < min (src.length - off) 32768
        · rw [hshort hlt, ref_chunks_short _ _ _ _ _ _ _ _ hlt]
          simp only [hwq]
          exact result_none s hnf
        · obtain ⟨s2, hc2, hcomp⟩ := hfull (by omega)
          rw [hc2]
          simp only []
          by_cases hlast : src.length - off ≤ 32768
          · obtain ⟨hw2, hres⟩ := hcomp.last hlast
            have hr0 : rest = [] := by
              cases rest with
              | nil => rfl
              | cons c2 r2 =>
                obtain ⟨hlt2, _, _⟩ := hrest
                omega
            rw [run_quiet hw f envs s2 (by rw [hcomp.inflight, hr0]) (by rw [hw2]; exact hwq),
              hres, ref_chunks_last _ _ _ _ _ _ _ _ hlt hlast]
          · obtain ⟨_, hnf2, _, hwq2⟩ := hcomp.more (by omega)
            have hiv2 : s2.rctx.iv = s.rctx.iv := by
              rw [hcomp.iv]; exact next_iv_ecb cmd _ _ _ _ hnc
            have hdl2 : s2.rctx.dst_buf.length = src.length := by
              rw [hcomp.dst, memcpy_length _ _ _ _ (by omega) (by omega), hdl]
            rw [ih s2 (off + min (src.length - off) 32768) f envs
              (by rw [hcomp.inflight, hiv2]; exact hrest) (by omega) (by omega)
              (by rw [hwq2 hnc]; exact hwq) (hnf2 hnf) (by rw [hcomp.cmd_eq]; exact hcmd)
              (by rw [hcomp.src_eq]; exact hsrc) hdl2 (by rw [hiv2]; exact hivl)
              (by rw [hcomp.total]; exact htot) (by rw [hcomp.nbytes]; exact han) (by omega)
              (by omega)]
            rw [ref_chunks_more _ _ _ _ _ _ _ _ hlt hlast, hcomp.dst, hiv2,
              next_iv_ecb cmd _ _ _ _ hnc]

theorem run_sequential_done (hw : List Nat → List Nat) (envs : List ChunkEnv) (s : Sys)
    (h : s.rctx.nbytes_remaining = 0) : run_sequential hw envs s = s := by
  cases envs with
  | nil => rfl
  | cons env envs => simp [run_sequential, h]

theorem ecb_sequential (hw : List Nat → List Nat) (cmd : Nat) (key src : List Nat)
    (hecb : is_ecb_op cmd = true) (hkey : key.length = 16) (hfit : src.length ≤ 2147483648)
    (hL16 : 16 ∣ src.length) :
    ∀ (k : Nat) (s : Sys) (envs : List ChunkEnv),
      s.inflight = [] → s.wq = [] → Event.finalize 0 ∉ s.log → ReqWf cmd key src s.rctx →
      s.rctx.nbytes_remaining ≠ 0 → s.areq.nbytes = src.length →
      envs.all ChunkEnv.ok = true → k ≤ envs.length →
      s.rctx.nbytes_remaining ≤ k * 32768 →
      Sys.result (run_sequential hw envs s)
        = ref_chunks hw cmd key src k s.rctx.iv s.rctx.nbytes_i s.rctx.dst_buf := by
  have hnc := ecb_not_cbc cmd hecb
  intro k
  induction k with
  | zero =>
    intro s envs _ _ _ _ hrem _ _ _ hk
    omega
  | succ k ih =>
    intro s envs hinf hwq hnf hwf hrem han hoks hlen hk
    cases envs with
    | nil => simp only [List.length_nil] at hlen; omega
    | cons env envs1 =>
      simp only [List.all_cons, Bool.and_eq_true] at hoks
      obtain ⟨c, he, hat, hwf1, hi1, hr1⟩ :=
        sys_enqueue_ok cmd key src env s hoks.1 (Or.inl hecb) hkey hwf hfit hL16 hrem
      have hsum := hwf.sum
      have hb := hwf.blocks_i
      have hoff : s.rctx.nbytes_i < src.length := by omega
      obtain ⟨hshort, hfull⟩ := complete_head hw cmd key src
        { s with rctx := advance s.rctx, inflight := s.inflight ++ [c],
                 log := Event.submit s.rctx.nbytes_i (min s.rctx.nbytes_remaining 32768)
                          :: s.log }
        c [] s.rctx.nbytes_i (min (src.length - s.rctx.nbytes_i) 32768)
        (hw (frame_of cmd key s.rctx.iv
          ((src.drop s.rctx.nbytes_i).take (min (src.length - s.rctx.nbytes_i) 32768))))
        (by simp [hinf]) hat hwf1.cmd_eq hwf1.src_eq hwf1.dst_len hwf1.iv_len hwf1.total han
        hoff hb hL16 rfl rfl
      unfold run_sequential
      rw [if_neg hrem]
      simp only [he, ne_eq, not_true_eq_false, if_false]
      by_cases hlt : (hw (frame_of cmd key s.rctx.iv
          ((src.drop s.rctx.nbytes_i).take (min (src.length - s.rctx.nbytes_i) 32768)))).length
          < min (src.length - s.rctx.nbytes_i) 32768
      · rw [hshort hlt, ref_chunks_short _ _ _ _ _ _ _ _ hlt]
        simp only []
        apply result_none
        simpa using hnf
      · obtain ⟨s2, hc2, hcomp⟩ := hfull (by omega)
        rw [hc2]
        simp only []
        have hrem2 : s2.rctx.nbytes_remaining
            = s.rctx.nbytes_remaining - min (src.length - s.rctx.nbytes_i) 32768 := by
          rw [hcomp.remaining]; exact hr1
        by_cases hlast : src.length - s.rctx.nbytes_i ≤ 32768
        · obtain ⟨_, hres⟩ := hcomp.last hlast
          rw [run_sequential_done hw envs1 s2 (by rw [hrem2]; omega), hres,
            ref_chunks_last _ _ _ _ _ _ _ _ hlt hlast]
          rfl
        · obtain ⟨_, hnf2, _, hwq2⟩ := hcomp.more (by omega)
          have hn16 : 16 ≤ min (src.length - s.rctx.nbytes_i) 32768 := by omega
          have hwf2 : ReqWf cmd key src s2.rctx :=
            req_wf_after cmd key src _ s2 [] _ _ _ hcomp hwf1 hn16 (by omega) (by omega)
          rw [ih s2 envs1 hcomp.inflight (by rw [hwq2 hnc]; exact hwq)
            (hnf2 (by simpa using hnf)) hwf2 (by rw [hrem2]; omega)
            (by rw [hcomp.nbytes]; exact han) hoks.2
            (by simp only [List.length_cons] at hlen; omega) (by rw [hrem2]; omega)]
          rw [ref_chunks_more _ _ _ _ _ _ _ _ hlt hlast, hcomp.iv, hcomp.pos, hcomp.dst]
          rw [show (advance s.rctx).nbytes_i
                = s.rctx.nbytes_i + min (src.length - s.rctx.nbytes_i) 32768 from hi1]
          rfl


theorem ecb_pipeline (hw : List Nat → List Nat) (cmd : Nat) (key info payload dst0 : List Nat)
    (rctx0 : zynqaes_reqctx) (renv : ReqEnv) (envs : List ChunkEnv) (fuel : Nat)
    (hecb : is_ecb_op cmd = true) (hkey : key.length = 16)
    (hpos : 0 < payload.length) (h16 : 16 ∣ payload.length)
    (hfit : payload.length ≤ 2147483648) (hr0 : rctx0.iv.length = 16)
    (hrenv : renv.ok payload.length = true)
    (hlen : (payload.length + 32767) / 32768 ≤ renv.chunks.length)
    (hfuel : (payload.length + 32767) / 32768 ≤ fuel) :
    ∃ s dm, zynqaes_crypt_req renv (zynqaes_crypt rctx0 cmd) ⟨key⟩
        ⟨payload.length, payload, dst0, info⟩ = some (0, s)
      ∧ renv.kmalloc_dst_buf = some dm ∧ dm.length = payload.length
      ∧ Sys.result (run hw fuel envs s)
          = ref_chunks hw cmd key payload ((payload.length + 32767) / 32768) rctx0.iv 0 dm := by
  have hnc := ecb_not_cbc cmd hecb
  obtain ⟨_, _, hall⟩ := (req_env_ok_iff renv payload.length).1 hrenv
  obtain ⟨h0, hwf, hi, hr, hiv2, dm, hdmk, hdm⟩ := setup_ok renv (zynqaes_crypt rctx0 cmd) ⟨key⟩
    ⟨payload.length, payload, dst0, info⟩ cmd rfl hrenv rfl
    (fun h => by rw [hnc] at h; simp at h) hr0
  obtain ⟨g1, g2, g3, _, g5⟩ := setup_shape renv (zynqaes_crypt rctx0 cmd) ⟨key⟩
    ⟨payload.length, payload, dst0, info⟩
  obtain ⟨s1, cs, hl, e1, e2, e3, e4, e5, e6, e7, e8, e9, e10⟩ :=
    ecb_loop cmd key payload hecb hkey hfit h16 renv.chunks
      (crypt_req_setup renv (zynqaes_crypt rctx0 cmd) ⟨key⟩
        ⟨payload.length, payload, dst0, info⟩).2 hwf hall (by rw [hr]; exact hlen)
  have hiv3 : (crypt_req_setup renv (zynqaes_crypt rctx0 cmd) ⟨key⟩
      ⟨payload.length, payload, dst0, info⟩).2.rctx.iv = rctx0.iv := by
    rw [hiv2, if_neg (by rw [hnc]; simp)]
    rfl
  rw [g1, List.nil_append] at e1
  rw [hi, hiv3] at e2
  rw [hiv3] at e6
  refine ⟨s1, dm, ?_, hdmk, by rw [← hdm]; exact hwf.dst_len, ?_⟩
  · unfold zynqaes_crypt_req
    simp only [h0, ne_eq, not_true_eq_false, if_false]
    exact hl
  · have hdl : s1.rctx.dst_buf.length = payload.length := by rw [e5]; exact hwf.dst_len
    rw [ecb_run hw cmd key payload hecb h16 ((payload.length + 32767) / 32768) s1 0 fuel envs
      (by rw [e1, e6]; exact e2) hpos (by simp) (by rw [e3]; exact g2)
      (e10 (by rw [g3]; simp)) e7 e8 hdl (by rw [e6]; exact hr0) e9 (by rw [e4, g5]) hfuel
      (by omega)]
    rw [e6, e5, hdm]

/-- C9: for an ECB request (`0x20` or `0x30`) over a payload whose length is a
positive multiple of 16 and at most `2 ^ 31`, so that every chunk position fits
the signed `int nbytes_i` that `zynqaes_enqueue_next_dma_op` adds to the buffer
pointers, with a destination scatterlist that can hold the result and with the
accelerator any function `hw` of the received frame, the result of the request
when `zynqaes_crypt_req` submits all chunks in its dispatch loop and the
completions are handled afterwards equals the result when, from the same
set-up, each chunk is submitted only after the completion of the previous one
has been handled (allocations and submissions succeed in both schedules, with
unrelated buffer contents); and when the device answers every frame in full,
that result is a finalized destination buffer. -/
theorem ecb_independence (hw : List Nat → List Nat) (cmd : Nat)
    (key info payload dst0 : List Nat) (rctx0 : zynqaes_reqctx) (renv : ReqEnv)
    (envs envs_seq : List ChunkEnv) (fuel : Nat)
    (hcmd : cmd = 0x20 ∨ cmd = 0x30) (hkey : key.length = 16)
    (hpos : 0 < payload.length) (h16 : 16 ∣ payload.length)
    (hfit : payload.length ≤ 2147483648) (hdst : payload.length ≤ dst0.length)
    (hr0 : rctx0.iv.length = 16)
    (hrenv : renv.ok payload.length = true)
    (hlen : (payload.length + 32767) / 32768 ≤ renv.chunks.length)
    (hseq : envs_seq.all ChunkEnv.ok = true)
    (hseqlen : (payload.length + 32767) / 32768 ≤ envs_seq.length)
    (hfuel : (payload.length + 32767) / 32768 ≤ fuel) :
    ∃ s, zynqaes_crypt_req renv (zynqaes_crypt rctx0 cmd) ⟨key⟩
        ⟨payload.length, payload, dst0, info⟩ = some (0, s)
      ∧ Sys.result (run hw fuel envs s)
          = Sys.result (run_sequential hw envs_seq
              (crypt_req_setup renv (zynqaes_crypt rctx0 cmd) ⟨key⟩
                ⟨payload.length, payload, dst0, info⟩).2)
      ∧ ((∀ iv p, p.length ≤ (hw (frame_of cmd key iv p)).length) →
          ∃ out, Sys.result (run hw fuel envs s) = some out) := by
  have _ := hdst
  have hecb : is_ecb_op cmd = true := by rcases hcmd with h | h <;> subst h <;> decide
  have hnc := ecb_not_cbc cmd hecb
  obtain ⟨s, dm, h1, h2, h3, h4⟩ := ecb_pipeline hw cmd key info payload dst0 rctx0 renv envs fuel
    hecb hkey hpos h16 hfit hr0 hrenv hlen hfuel
  obtain ⟨_, hwf, hi, hr, hiv2, dm2, hdmk, hdm⟩ := setup_ok renv (zynqaes_crypt rctx0 cmd)
    ⟨key⟩ ⟨payload.length, payload, dst0, info⟩ cmd rfl hrenv rfl
    (fun h => by rw [hnc] at h; simp at h) hr0
  obtain ⟨g1, g2, g3, _, g5⟩ := setup_shape renv (zynqaes_crypt rctx0 cmd) ⟨key⟩
    ⟨payload.length, payload, dst0, info⟩
  have hdd : dm2 = dm := by
    rw [h2] at hdmk
    exact (Option.some.inj hdmk).symm
  refine ⟨s, h1, ?_, ?_⟩
  swap
  · intro hfull
    rw [h4]
    exact ref_chunks_some hw cmd key payload hfull _ _ _ _ hpos (by omega)
  rw [h4, ecb_sequential hw cmd key payload hecb hkey hfit h16
    ((payload.length + 32767) / 32768) _ envs_seq g1 g2 (by rw [g3]; simp) hwf
    (by rw [hr]; show payload.length ≠ 0; omega) (by rw [g5]) hseq hseqlen
    (by rw [hr]; show payload.length ≤ (payload.length + 32767) / 32768 * 32768; omega)]
  have hiv3 : (crypt_req_setup renv (zynqaes_crypt rctx0 cmd) ⟨key⟩
      ⟨payload.length, payload, dst0, info⟩).2.rctx.iv = rctx0.iv := by
    rw [hiv2, if_neg (by rw [hnc]; simp)]
    rfl
  rw [hiv3, hi, hdm, hdd]


theorem ecb_result (E D F : List Nat → List Nat → List Nat) (cmd : Nat)
    (key info payload dst0 : List Nat) (rctx0 : zynqaes_reqctx) (renv : ReqEnv)
    (envs : List ChunkEnv) (fuel : Nat)
    (hecb : is_ecb_op cmd = true)
    (hacc : ∀ iv p, accelerator E D (frame_of cmd key iv p) = ecb_reference F key p)
    (hkey : key.length = 16) (hpos : 0 < payload.length) (h16 : 16 ∣ payload.length)
    (hfit : payload.length ≤ 2147483648)
    (hF : ∀ b, b.length = 16 → (F key b).length = 16)
    (hr0 : rctx0.iv.length = 16) (hrenv : renv.ok payload.length = true)
    (hlen : (payload.length + 32767) / 32768 ≤ renv.chunks.length)
    (hfuel : (payload.length + 32767) / 32768 ≤ fuel) :
    ∃ s, zynqaes_crypt_req renv (zynqaes_crypt rctx0 cmd) ⟨key⟩
        ⟨payload.length, payload, dst0, info⟩ = some (0, s)
      ∧ Sys.result (run (accelerator E D) fuel envs s) = some (ecb_reference F key payload) := by
  obtain ⟨s, dm, h1, _, h3, h4⟩ := ecb_pipeline (accelerator E D) cmd key info payload dst0
    rctx0 renv envs fuel hecb hkey hpos h16 hfit hr0 hrenv hlen hfuel
  refine ⟨s, h1, ?_⟩
  rw [h4, ref_chunks_ecb E D F cmd key payload hkey hF (ecb_not_cbc cmd hecb) hacc h16 _
    rctx0.iv 0 dm hpos (by simp) h3 hr0 (by simp; omega)]
  simp [ecb_reference]

theorem ecb_reference_length (F : List Nat → List Nat → List Nat) (key p : List Nat)
    (hF : ∀ b, b.length = 16 → (F key b).length = 16) (h16 : 16 ∣ p.length) :
    (ecb_reference F key p).length = p.length := by
  unfold ecb_reference
  rw [ecb_blocks_length F key hF _ p (Nat.mul_div_le _ _)]
  exact Nat.mul_div_cancel' h16

theorem cbc_encrypt_reference_length (E : List Nat → List Nat → List Nat) (key iv p : List Nat)
    (hE : ∀ b, b.length = 16 → (E key b).length = 16) (hiv : iv.length = 16)
    (h16 : 16 ∣ p.length) : (cbc_encrypt_reference E key iv p).length = p.length := by
  unfold cbc_encrypt_reference
  rw [cbc_encrypt_blocks_length E key hE _ iv p hiv (Nat.mul_div_le _ _)]
  exact Nat.mul_div_cancel' h16

theorem ecb_reference_round_trip (E D : List Nat → List Nat → List Nat) (key p : List Nat)
    (hE : ∀ b, b.length = 16 → (E key b).length = 16)
    (hDE : ∀ b, b.length = 16 → D key (E key b) = b) (h16 : 16 ∣ p.length) :
    ecb_reference D key (ecb_reference E key p) = p := by
  have hl := ecb_reference_length E key p hE h16
  unfold ecb_reference at hl ⊢
  rw [hl, ecb_round_trip E D key hE hDE _ p (Nat.mul_div_le _ _), Nat.mul_div_cancel' h16,
    List.take_length]

theorem cbc_reference_round_trip (E D : List Nat → List Nat → List Nat) (key iv p : List Nat)
    (hE : ∀ b, b.length = 16 → (E key b).length = 16)
    (hDE : ∀ b, b.length = 16 → D key (E key b) = b) (hiv : iv.length = 16)
    (h16 : 16 ∣ p.length) :
    cbc_decrypt_reference D key iv (cbc_encrypt_reference E key iv p) = p := by
  have hl := cbc_encrypt_reference_length E key iv p hE hiv h16
  unfold cbc_decrypt_reference
  rw [hl]
  unfold cbc_encrypt_reference
  rw [cbc_round_trip E D key hE hDE _ iv p hiv (Nat.mul_div_le _ _), Nat.mul_div_cancel' h16,
    List.take_length]


/-! ## Round trip -/

/-- C4: with the accelerator modelled as reference ECB and CBC over a
block-cipher pair `(E, D)` on 16-byte blocks with `D (E b) = b`, for every
16-byte key, 16-byte IV and payload whose length is a positive multiple of 16
(below, at or above 32768 bytes) and at most `2 ^ 31`, so that every chunk
position fits the signed `int nbytes_i` that `zynqaes_enqueue_next_dma_op` adds
to the buffer pointers, and for destination scatterlists that can hold the
results, the request pipeline (`zynqaes_crypt_req`,
then every completion handled by `zynqaes_dma_callback` and every queued work
item by `zynqaes_done_task`, all allocations and submissions succeeding) run
with the encrypt command finalizes with some destination `c`, and the pipeline
run with the matching decrypt command on `c` finalizes with the original
payload: for the ECB pair `(0x20, 0x30)` and for the CBC pair `(0x40, 0x41)`
with the same initial IV. -/
theorem round_trip (E D : List Nat → List Nat → List Nat)
    (key iv payload info1 info2 dst1 dst2 : List Nat) (rctx1 rctx2 : zynqaes_reqctx)
    (renv1 renv2 : ReqEnv) (envs1 envs2 : List ChunkEnv) (fuel : Nat)
    (hkey : key.length = 16) (hiv : iv.length = 16)
    (hpos : 0 < payload.length) (h16 : 16 ∣ payload.length)
    (hfit : payload.length ≤ 2147483648)
    (hdst1 : payload.length ≤ dst1.length) (hdst2 : payload.length ≤ dst2.length)
    (hE : ∀ b, b.length = 16 → (E key b).length = 16)
    (hD : ∀ b, b.length = 16 → (D key b).length = 16)
    (hDE : ∀ b, b.length = 16 → D key (E key b) = b)
    (hr1 : rctx1.iv.length = 16) (hr2 : rctx2.iv.length = 16)
    (hrenv1 : renv1.ok payload.length = true) (hrenv2 : renv2.ok payload.length = true)
    (hlen1 : (payload.length + 32767) / 32768 ≤ renv1.chunks.length)
    (hlen2 : (payload.length + 32767) / 32768 ≤ renv2.chunks.length)
    (henvs1 : envs1.all ChunkEnv.ok = true) (henvs2 : envs2.all ChunkEnv.ok = true)
    (hl1 : (payload.length + 32767) / 32768 ≤ envs1.length + 1)
    (hl2 : (payload.length + 32767) / 32768 ≤ envs2.length + 1)
    (hfuel : 2 * ((payload.length + 32767) / 32768) ≤ fuel + 1) :
    (∃ s1 c s2,
        zynqaes_crypt_req renv1 (zynqaes_crypt rctx1 0x20) ⟨key⟩
          ⟨payload.length, payload, dst1, info1⟩ = some (0, s1)
        ∧ Sys.result (run (accelerator E D) fuel envs1 s1) = some c
        ∧ zynqaes_crypt_req renv2 (zynqaes_crypt rctx2 0x30) ⟨key⟩
          ⟨c.length, c, dst2, info2⟩ = some (0, s2)
        ∧ Sys.result (run (accelerator E D) fuel envs2 s2) = some payload)
    ∧ (∃ s1 c s2,
        zynqaes_crypt_req renv1 (zynqaes_crypt rctx1 0x40) ⟨key⟩
          ⟨payload.length, payload, dst1, iv⟩ = some (0, s1)
        ∧ Sys.result (run (accelerator E D) fuel envs1 s1) = some c
        ∧ zynqaes_crypt_req renv2 (zynqaes_crypt rctx2 0x41) ⟨key⟩
          ⟨c.length, c, dst2, iv⟩ = some (0, s2)
        ∧ Sys.result (run (accelerator E D) fuel envs2 s2) = some payload) := by
  have _ := hdst1
  have _ := hdst2
  have hcount : 1 ≤ (payload.length + 32767) / 32768 := by omega
  have hne1 : renv1.chunks ≠ [] := by
    intro h; rw [h] at hlen1; simp at hlen1; omega
  have hne2 : renv2.chunks ≠ [] := by
    intro h; rw [h] at hlen2; simp at hlen2; omega
  constructor
  · obtain ⟨s1, h1, h2⟩ := ecb_result E D E 0x20 key info1 payload dst1 rctx1 renv1 envs1 fuel
      (by decide) (fun iv p => accelerator_ecb_encrypt E D key iv p hkey) hkey hpos h16 hfit hE
      hr1 hrenv1 hlen1 (by omega)
    have hcl := ecb_reference_length E key payload hE h16
    obtain ⟨s2, h3, h4⟩ := ecb_result E D D 0x30 key info2 (ecb_reference E key payload) dst2
      rctx2 renv2 envs2 fuel (by decide) (fun iv p => accelerator_ecb_decrypt E D key iv p hkey)
      hkey (by rw [hcl]; exact hpos) (by rw [hcl]; exact h16) (by rw [hcl]; exact hfit) hD hr2
      (by rw [hcl]; exact hrenv2) (by rw [hcl]; exact hlen2) (by rw [hcl]; omega)
    rw [ecb_reference_round_trip E D key payload hE hDE h16] at h4
    exact ⟨s1, _, s2, h1, h2, h3, h4⟩
  · obtain ⟨s1, h1, h2⟩ := cbc_encrypt_result E D key iv payload dst1 rctx1 renv1 envs1 fuel
      hkey hiv hpos h16 hfit hE hr1 hrenv1 hne1 henvs1 hl1 hfuel
    have hcl := cbc_encrypt_reference_length E key iv payload hE hiv h16
    obtain ⟨s2, h3, h4⟩ := cbc_decrypt_result E D key iv (cbc_encrypt_reference E key iv payload)
      dst2 rctx2 renv2 envs2 fuel hkey hiv (by rw [hcl]; exact hpos) (by rw [hcl]; exact h16)
      (by rw [hcl]; exact hfit) hD hr2 (by rw [hcl]; exact hrenv2) hne2 henvs2
      (by rw [hcl]; exact hl2) (by rw [hcl]; exact hfuel)
    rw [cbc_reference_round_trip E D key iv payload hE hDE hiv h16] at h4
    exact ⟨s1, _, s2, h1, h2, h3, h4⟩


/-! ## Sample instances -/

theorem sample_E_length (b : List Nat) (h : b.length = 16) :
    (sample_E sample_key b).length = 16 := by
  simp [sample_E, xor_block, h, sample_key]

theorem sample_D_length (b : List Nat) (h : b.length = 16) :
    (sample_D sample_key b).length = 16 := by
  simp [sample_D, xor_block, h, sample_key]

theorem sample_D_E (b : List Nat) (h : b.length = 16) :
    sample_D sample_key (sample_E sample_key b) = b := by
  unfold sample_D sample_E
  rw [List.reverse_reverse]
  exact xor_block_cancel b sample_key (by rw [h]; decide)

theorem one_env_ok : [sample_env].all ChunkEnv.ok = true := by
  simp only [List.all_cons, List.all_nil, sample_env_ok, Bool.and_true]

theorem two_envs_ok : [sample_env, sample_env].all ChunkEnv.ok = true := by
  simp only [List.all_cons, List.all_nil, sample_env_ok, Bool.and_true]

theorem big_payload_length : big_payload.length = 32784 := List.length_replicate _ _

theorem big_pos : 0 < big_payload.length := by
  rw [big_payload_length]; decide

theorem big_dvd : 16 ∣ big_payload.length := by
  rw [big_payload_length]; decide

theorem big_fit : big_payload.length ≤ 2147483648 := by
  rw [big_payload_length]; decide

theorem big_dst_fit : big_payload.length ≤ big_dst.length := by
  rw [big_payload_length]
  exact Nat.le_of_eq (List.length_replicate _ _).symm

theorem big_count : (big_payload.length + 32767) / 32768 = 2 := by
  rw [big_payload_length]

theorem big_chunks_le (n : Nat) (h : 2 ≤ n) : (big_payload.length + 32767) / 32768 ≤ n := by
  rw [big_count]; exact h

theorem big_fuel_le (n : Nat) (h : 4 ≤ n) :
    2 * ((big_payload.length + 32767) / 32768) ≤ n := by
  rw [big_count]; exact h

theorem big_renv_ok : big_renv.ok big_payload.length = true := by
  rw [big_payload_length]
  exact (req_env_ok_iff big_renv 32784).2
    ⟨⟨_, rfl, List.length_replicate _ _⟩, ⟨_, rfl, List.length_replicate _ _⟩, two_envs_ok⟩

theorem chunked_cbc_equals_reference_witness :
    (∃ s, zynqaes_crypt_req big_renv (zynqaes_crypt (sample_rctx 0) 0x40) ⟨sample_key⟩
        ⟨big_payload.length, big_payload, big_dst, sample_iv⟩ = some (0, s)
      ∧ Sys.result (run (accelerator sample_E sample_D) 3 [sample_env] s)
          = some (cbc_encrypt_reference sample_E sample_key sample_iv big_payload))
    ∧ (∃ s, zynqaes_crypt_req big_renv (zynqaes_crypt (sample_rctx 0) 0x41) ⟨sample_key⟩
        ⟨big_payload.length, big_payload, big_dst, sample_iv⟩ = some (0, s)
      ∧ Sys.result (run (accelerator sample_E sample_D) 3 [sample_env] s)
          = some (cbc_decrypt_reference sample_D sample_key sample_iv big_payload)) :=
  chunked_cbc_equals_reference sample_E sample_D sample_key sample_iv big_payload big_dst
    (sample_rctx 0) big_renv [sample_env] 3 (by decide) (by decide) big_pos big_dvd big_fit
    big_dst_fit sample_E_length sample_D_length (by decide) big_renv_ok (List.cons_ne_nil _ _) one_env_ok
    (big_chunks_le _ (by decide)) (big_fuel_le _ (by decide))

theorem ecb_independence_witness :
    ∃ s, zynqaes_crypt_req big_renv (zynqaes_crypt (sample_rctx 0) 0x20) ⟨sample_key⟩
        ⟨big_payload.length, big_payload, big_dst, []⟩ = some (0, s)
      ∧ Sys.result (run (accelerator sample_E sample_D) 2 [] s)
          = Sys.result (run_sequential (accelerator sample_E sample_D) [sample_env, sample_env]
              (crypt_req_setup big_renv (zynqaes_crypt (sample_rctx 0) 0x20) ⟨sample_key⟩
                ⟨big_payload.length, big_payload, big_dst, []⟩).2)
      ∧ ((∀ iv p, p.length ≤ (accelerator sample_E sample_D
            (frame_of 0x20 sample_key iv p)).length) →
          ∃ out, Sys.result (run (accelerator sample_E sample_D) 2 [] s) = some out) :=
  ecb_independence (accelerator sample_E sample_D) 0x20 sample_key [] big_payload big_dst
    (sample_rctx 0) big_renv [] [sample_env, sample_env] 2 (by decide) (by decide)
    big_pos big_dvd big_fit big_dst_fit (by decide) big_renv_ok (big_chunks_le _ (by decide)) two_envs_ok
    (big_chunks_le _ (by decide)) (big_chunks_le _ (by decide))

theorem round_trip_witness :
    (∃ s1 c s2,
        zynqaes_crypt_req big_renv (zynqaes_crypt (sample_rctx 0) 0x20) ⟨sample_key⟩
          ⟨big_payload.length, big_payload, big_dst, []⟩ = some (0, s1)
        ∧ Sys.result (run (accelerator sample_E sample_D) 3 [sample_env] s1) = some c
        ∧ zynqaes_crypt_req big_renv (zynqaes_crypt (sample_rctx 0) 0x30) ⟨sample_key⟩
          ⟨c.length, c, big_dst, []⟩ = some (0, s2)
        ∧ Sys.result (run (accelerator sample_E sample_D) 3 [sample_env] s2)
            = some big_payload)
    ∧ (∃ s1 c s2,
        zynqaes_crypt_req big_renv (zynqaes_crypt (sample_rctx 0) 0x40) ⟨sample_key⟩
          ⟨big_payload.length, big_payload, big_dst, sample_iv⟩ = some (0, s1)
        ∧ Sys.result (run (accelerator sample_E sample_D) 3 [sample_env] s1) = some c
        ∧ zynqaes_crypt_req big_renv (zynqaes_crypt (sample_rctx 0) 0x41) ⟨sample_key⟩
          ⟨c.length, c, big_dst, sample_iv⟩ = some (0, s2)
        ∧ Sys.result (run (accelerator sample_E sample_D) 3 [sample_env] s2)
            = some big_payload) :=
  round_trip sample_E sample_D sample_key sample_iv big_payload [] [] big_dst big_dst
    (sample_rctx 0) (sample_rctx 0) big_renv big_renv [sample_env] [sample_env] 3 (by decide)
    (by decide) big_pos big_dvd big_fit big_dst_fit big_dst_fit sample_E_length sample_D_length sample_D_E
    (by decide) (by decide) big_renv_ok big_renv_ok
    (big_chunks_le _ (by decide)) (big_chunks_le _ (by decide)) one_env_ok one_env_ok
    (big_chunks_le _ (by decide)) (big_chunks_le _ (by decide)) (big_fuel_le _ (by decide))


/-! ## Finalization: at most once, after the final copy-out -/

theorem sys_enqueue_keeps (env : ChunkEnv) (s : Sys) :
    (Sys.enqueue env s).2.wq = s.wq
    ∧ finalize_count (Sys.enqueue env s).2 = finalize_count s
    ∧ (Sys.enqueue env s).2.rctx.cmd = s.rctx.cmd := by
  rcases sys_enqueue_cases env s with ⟨ret, he⟩ | ⟨tx, rx, he⟩
  · rw [he]; exact ⟨rfl, rfl, rfl⟩
  · rw [he]
    exact ⟨rfl, rfl, rfl⟩

theorem fin_inv_enqueue (env : ChunkEnv) (s : Sys) (h : FinInv s) (hwq : s.wq = [])
    (hrem : s.rctx.nbytes_remaining ≠ 0) (hcount : finalize_count s = 0)
    (hcbc : is_cbc_op s.rctx.cmd = true → s.inflight = []) :
    FinInv (Sys.enqueue env s).2 := by
  rcases sys_enqueue_cases env s with ⟨ret, he⟩ | ⟨tx, rx, he⟩
  · rw [he]; exact h
  · have hk := sys_enqueue_keeps env s
    rw [he] at hk ⊢
    have hmin : min s.rctx.nbytes_remaining 32768 ≤ s.rctx.nbytes_remaining :=
      Nat.min_le_left _ _
    have hsum := h.sum
    have hfit := h.fits
    have hmod : (s.rctx.nbytes_i + min s.rctx.nbytes_remaining 32768) % 4294967296
        = s.rctx.nbytes_i + min s.rctx.nbytes_remaining 32768 := Nat.mod_eq_of_lt (by omega)
    have hold : ∀ c ∈ s.inflight, c.is_last = false := by
      intro c hc
      by_contra hl
      have : c.is_last = true := by simpa using hl
      exact hrem (h.last_rem c hc this)
    have hlast : (chunk_of s.rctx tx rx).is_last = decide (s.rctx.nbytes_remaining ≤ 32768) :=
      rfl
    constructor
    · show (s.rctx.nbytes_i + min s.rctx.nbytes_remaining 32768) % 4294967296
          + (s.rctx.nbytes_remaining - min s.rctx.nbytes_remaining 32768) = s.rctx.nbytes_total
      rw [hmod]; omega
    · exact h.fits
    · intro hne
      exact absurd hwq hne
    · intro c hc
      simp only [List.dropLast_concat] at hc
      exact hold c hc
    · intro c hc hl
      show s.rctx.nbytes_remaining - min s.rctx.nbytes_remaining 32768 = 0
      simp only [List.mem_append, List.mem_singleton] at hc
      rcases hc with hc | hc
      · rw [hold c hc] at hl; simp at hl
      · subst hc
        rw [hlast] at hl
        have : s.rctx.nbytes_remaining ≤ 32768 := by simpa using hl
        omega
    · intro hc c hcm hl
      show s.rctx.nbytes_remaining - min s.rctx.nbytes_remaining 32768 ≠ 0
      have hin := hcbc hc
      simp only [hin, List.nil_append, List.mem_singleton] at hcm
      subst hcm
      rw [hlast] at hl
      have : ¬ s.rctx.nbytes_remaining ≤ 32768 := by simpa using hl
      omega
    · intro hc
      have hin := hcbc hc
      simp [hin, hwq]
    · left
      rw [hk.2.1]
      exact hcount

theorem mem_dropLast_cons (c : zynqaes_dma_ctx) (rest : List zynqaes_dma_ctx)
    (x : zynqaes_dma_ctx) (h : x ∈ rest.dropLast) : x ∈ (c :: rest).dropLast := by
  cases rest with
  | nil => simp at h
  | cons y ys =>
    rw [List.dropLast_cons₂]
    exact List.mem_cons_of_mem _ h

theorem fin_inv_callback (s : Sys) (c : zynqaes_dma_ctx) (rest : List zynqaes_dma_ctx)
    (rx : List Nat) (h : FinInv s) (hi : s.inflight = c :: rest) :
    FinInv (zynqaes_dma_callback { s with inflight := rest } { c with rx_buf := rx }) := by
  obtain ⟨_, f2, _, f4, f5, f6⟩ := get_rxkbuf_at_frame s.rctx { c with rx_buf := rx }
  obtain ⟨r1, r2, _⟩ := callback_rctx { s with inflight := rest } { c with rx_buf := rx }
  have hwq : s.wq = [] := by
    by_contra hne
    have := (h.wq_cbc hne).2.1
    rw [hi] at this
    simp at this
  have hcount : finalize_count s = 0 := by
    rcases h.fin with h0 | ⟨_, _, h3, _⟩
    · exact h0
    · rw [hi] at h3; simp at h3
  have hcmd : (zynqaes_dma_callback { s with inflight := rest } { c with rx_buf := rx }).rctx.cmd
      = s.rctx.cmd := by rw [r1]; exact f2
  have hremeq : (zynqaes_dma_callback { s with inflight := rest }
      { c with rx_buf := rx }).rctx.nbytes_remaining = s.rctx.nbytes_remaining := by
    rw [r1]; exact f5
  have hsum : (zynqaes_dma_callback { s with inflight := rest } { c with rx_buf := rx }).rctx.nbytes_i
      + (zynqaes_dma_callback { s with inflight := rest }
          { c with rx_buf := rx }).rctx.nbytes_remaining
      = (zynqaes_dma_callback { s with inflight := rest }
          { c with rx_buf := rx }).rctx.nbytes_total := by
    rw [r1, f4, f5, f6]; exact h.sum
  have hfits : (zynqaes_dma_callback { s with inflight := rest }
      { c with rx_buf := rx }).rctx.nbytes_total < 4294967296 := by
    rw [r1, f4]; exact h.fits
  by_cases hl : c.is_last = true
  · have hrest : rest = [] := by
      cases rest with
      | nil => rfl
      | cons y ys =>
        have := h.lasts c (by rw [hi, List.dropLast_cons₂]; exact List.mem_cons_self _ _)
        rw [this] at hl; simp at hl
    subst hrest
    obtain ⟨l1, l2, _⟩ := callback_last { s with inflight := [] } { c with rx_buf := rx } hl
    refine ⟨hsum, hfits, ?_, ?_, ?_, ?_, ?_, ?_⟩
    · intro hne; rw [l1] at hne; exact absurd hwq hne
    · rw [r2]; simp
    · rw [r2]; simp
    · rw [r2]; simp
    · intro _; rw [r2, l1]; simp [hwq]
    · right
      refine ⟨?_, ⟨c.dst_buf_ptr, c.rx_nbytes, s.log, by rw [l2]; simp [hl]⟩, r2, by
        rw [l1]; exact hwq⟩
      unfold finalize_count at hcount ⊢
      rw [l2]
      simp only [count_finalize, hcount]
  · have hl2 : c.is_last = false := by simpa using hl
    by_cases hcb : is_cbc_op s.rctx.cmd = true
    · obtain ⟨m1, m2, _⟩ := callback_more_cbc { s with inflight := rest } { c with rx_buf := rx }
        hl2 hcb
      have hone := h.cbc_one hcb
      rw [hi] at hone
      simp only [List.length_cons] at hone
      have hrest : rest = [] := List.eq_nil_of_length_eq_zero (by omega)
      subst hrest
      refine ⟨hsum, hfits, ?_, ?_, ?_, ?_, ?_, ?_⟩
      · intro _
        refine ⟨by rw [hcmd]; exact hcb, r2, ?_⟩
        rw [hremeq]
        exact h.more_rem hcb c (by rw [hi]; simp) hl2
      · rw [r2]; simp
      · rw [r2]; simp
      · rw [r2]; simp
      · intro _; rw [r2, m1]; simp [hwq]
      · left
        unfold finalize_count at hcount ⊢
        rw [m2]
        simp only [count_finalize, hcount]
    · have hcb2 : is_cbc_op s.rctx.cmd = false := by simpa using hcb
      obtain ⟨m1, m2, _⟩ := callback_more_ecb { s with inflight := rest } { c with rx_buf := rx }
        hl2 hcb2
      refine ⟨hsum, hfits, ?_, ?_, ?_, ?_, ?_, ?_⟩
      · intro hne; rw [m1] at hne; exact absurd hwq hne
      · rw [r2]
        intro x hx
        exact h.lasts x (by rw [hi]; exact mem_dropLast_cons c rest x hx)
      · rw [r2, hremeq]
        intro x hx
        exact h.last_rem x (by rw [hi]; exact List.mem_cons_of_mem _ hx)
      · intro hc; rw [hcmd] at hc; exact absurd hc hcb
      · intro hc; rw [hcmd] at hc; exact absurd hc hcb
      · left
        unfold finalize_count at hcount ⊢
        rw [m2]
        simp only [count_finalize, hcount]


theorem fin_inv_loop (envs : List ChunkEnv) :
    ∀ (s : Sys), FinInv s → s.wq = [] → finalize_count s = 0 →
      (is_cbc_op s.rctx.cmd = true → s.inflight = []) →
      ∀ r, crypt_req_loop envs s = some r → FinInv r.2 := by
  induction envs with
  | nil =>
    intro s h _ _ _ r hr
    unfold crypt_req_loop at hr
    split_ifs at hr
    have := Option.some.inj hr
    subst this
    exact h
  | cons env envs ih =>
    intro s h hwq hcount hcbc r hr
    unfold crypt_req_loop at hr
    by_cases h0 : s.rctx.nbytes_remaining = 0
    · rw [if_pos h0] at hr
      have := Option.some.inj hr
      subst this
      exact h
    · rw [if_neg h0] at hr
      have hinv := fin_inv_enqueue env s h hwq h0 hcount hcbc
      obtain ⟨k1, k2, k3⟩ := sys_enqueue_keeps env s
      by_cases h1 : (Sys.enqueue env s).1 ≠ 0
      · rw [if_pos h1] at hr
        have := Option.some.inj hr
        subst this
        exact hinv
      · rw [if_neg h1] at hr
        by_cases h2 : is_cbc_op (Sys.enqueue env s).2.rctx.cmd = true
        · rw [if_pos h2] at hr
          have := Option.some.inj hr
          subst this
          exact hinv
        · rw [if_neg h2] at hr
          exact ih (Sys.enqueue env s).2 hinv (by rw [k1]; exact hwq) (by rw [k2]; exact hcount)
            (fun hc => absurd hc h2) r hr

theorem fin_inv_step (hw : List Nat → List Nat) (s s1 : Sys) (h : FinInv s)
    (hs : Step hw s s1) : FinInv s1 := by
  cases hs
  · rename_i hc
    unfold dma_complete at hc
    cases hi : s.inflight with
    | nil => simp [hi] at hc
    | cons c rest =>
      simp only [hi] at hc
      split_ifs at hc
      have := Option.some.inj hc
      subst this
      exact fin_inv_callback s c rest _ h hi
  · rename_i env hne
    obtain ⟨hcb, hinf, hrem⟩ := h.wq_cbc hne
    have hcount : finalize_count s = 0 := by
      rcases h.fin with h0 | ⟨_, _, _, h4⟩
      · exact h0
      · exact absurd h4 hne
    unfold zynqaes_done_task
    cases hq : s.wq with
    | nil => exact absurd hq hne
    | cons w rest =>
      simp only []
      have hone := h.cbc_one hcb
      rw [hq] at hone
      simp only [List.length_cons] at hone
      have hrest : rest = [] := List.eq_nil_of_length_eq_zero (by omega)
      subst hrest
      apply fin_inv_enqueue env { s with wq := [] } _ rfl hrem hcount (fun _ => hinf)
      exact { sum := h.sum, fits := h.fits, wq_cbc := fun hh => absurd rfl hh,
              lasts := h.lasts, last_rem := h.last_rem, more_rem := h.more_rem,
              cbc_one := fun _ => by simp [hinf],
              fin := Or.inl hcount }

theorem finalize_at_most_once (hw : List Nat → List Nat) (renv : ReqEnv)
    (rctx0 : zynqaes_reqctx) (ctx : zynqaes_ctx) (areq : ablkcipher_request) (r : Int × Sys)
    (s : Sys) (hfit : areq.nbytes < 4294967296)
    (hdisp : zynqaes_crypt_req renv rctx0 ctx areq = some r) (hreach : Reachable hw r.2 s) :
    finalize_count s ≤ 1
    ∧ (finalize_count s = 1 →
        ∃ off n older, s.log = Event.finalize 0 :: Event.copy_out off n true :: older) := by
  obtain ⟨g1, g2, g3, g4, _⟩ := setup_shape renv rctx0 ctx areq
  unfold zynqaes_crypt_req at hdisp
  simp only [] at hdisp
  split_ifs at hdisp with hret
  · have := Option.some.inj hdisp
    subst this
    have := quiet_reachable hw _ s g1 g2 hreach
    subst this
    unfold finalize_count
    rw [g3]
    simp [count_finalize]
  · have hret0 : (crypt_req_setup renv rctx0 ctx areq).1 = 0 := by
      by_contra hne
      exact hret hne
    obtain ⟨c1, c2, c3⟩ := setup_counters renv rctx0 ctx areq hret0
    have hc0 : finalize_count (crypt_req_setup renv rctx0 ctx areq).2 = 0 := by
      unfold finalize_count
      rw [g3]
      rfl
    have hinv0 : FinInv (crypt_req_setup renv rctx0 ctx areq).2 :=
      { sum := by rw [c1, c2, c3]; simp
        fits := by rw [c3]; exact hfit
        wq_cbc := fun hh => absurd g2 hh
        lasts := by simp [g1]
        last_rem := by simp [g1]
        more_rem := by simp [g1]
        cbc_one := by simp [g1, g2]
        fin := Or.inl hc0 }
    have hinv : FinInv r.2 :=
      fin_inv_loop renv.chunks _ hinv0 g2 hc0 (fun _ => g1) r hdisp
    have hall : FinInv s := by
      induction hreach with
      | start => exact hinv
      | step a b _ hstep ih => exact fin_inv_step hw a b ih hstep
    rcases hall.fin with h0 | ⟨h1, h2, _, _⟩
    · rw [h0]
      exact ⟨by omega, fun h => by omega⟩
    · rw [h1]
      exact ⟨by omega, fun _ => h2⟩

theorem run_reachable (hw : List Nat → List Nat) :
    ∀ (fuel : Nat) (envs : List ChunkEnv) (s0 s : Sys), Reachable hw s0 s →
      Reachable hw s0 (run hw fuel envs s) := by
  intro fuel
  induction fuel with
  | zero => intro envs s0 s h; exact h
  | succ f ih =>
    intro envs s0 s h
    unfold run
    cases hc : dma_complete hw s with
    | some s1 =>
      simp only []
      exact ih envs s0 s1 (Reachable.step s s1 h (Step.complete s s1 hc))
    | none =>
      simp only []
      cases hq : s.wq with
      | nil => exact h
      | cons w rest =>
        cases envs with
        | nil => exact h
        | cons env envs1 =>
          simp only []
          exact ih envs1 s0 _ (Reachable.step s _ h (Step.work s env (by rw [hq]; simp)))


theorem count_finalize_pos (log : List Event) (h : Event.finalize 0 ∈ log) :
    1 ≤ count_finalize log := by
  induction log with
  | nil => simp at h
  | cons e es ih =>
    cases e with
    | finalize err => simp [count_finalize]
    | submit a b =>
      simp only [List.mem_cons] at h
      rcases h with h | h
      · cases h
      · simpa [count_finalize] using ih h
    | copy_out a b c =>
      simp only [List.mem_cons] at h
      rcases h with h | h
      · cases h
      · simpa [count_finalize] using ih h
    | queue_work a =>
      simp only [List.mem_cons] at h
      rcases h with h | h
      · cases h
      · simpa [count_finalize] using ih h

theorem result_some_finalized (s : Sys) (r : List Nat) (h : Sys.result s = some r) :
    1 ≤ finalize_count s := by
  unfold Sys.result at h
  split_ifs at h with hm
  exact count_finalize_pos s.log hm

/-- For a request of positive length (a multiple of 16, at most `2 ^ 31`) under
any of the four commands, when all allocations and submissions succeed and the device answers
every frame in full, the request run to the end has exactly one
`crypto_finalize_cipher_request` call in its record, placed right after the
copy-out of the chunk whose `is_last` flag is set. -/
theorem finalize_exactly_once (hw : List Nat → List Nat) (cmd : Nat)
    (key iv payload dst0 : List Nat) (rctx0 : zynqaes_reqctx) (renv : ReqEnv)
    (envs : List ChunkEnv) (fuel : Nat)
    (hcmd : cmd = 0x20 ∨ cmd = 0x30 ∨ cmd = 0x40 ∨ cmd = 0x41)
    (hkey : key.length = 16) (hiv : iv.length = 16)
    (hpos : 0 < payload.length) (h16 : 16 ∣ payload.length)
    (hfit : payload.length ≤ 2147483648) (hr0 : rctx0.iv.length = 16)
    (hrenv : renv.ok payload.length = true)
    (hlen : (payload.length + 32767) / 32768 ≤ renv.chunks.length)
    (henvs : envs.all ChunkEnv.ok = true)
    (hl : (payload.length + 32767) / 32768 ≤ envs.length + 1)
    (hfuel : 2 * ((payload.length + 32767) / 32768) ≤ fuel + 1)
    (hfull : ∀ iv p, p.length ≤ (hw (frame_of cmd key iv p)).length) :
    ∃ s, zynqaes_crypt_req renv (zynqaes_crypt rctx0 cmd) ⟨key⟩
        ⟨payload.length, payload, dst0, iv⟩ = some (0, s)
      ∧ finalize_count (run hw fuel envs s) = 1
      ∧ ∃ off n older, (run hw fuel envs s).log
          = Event.finalize 0 :: Event.copy_out off n true :: older := by
  have hcount : 1 ≤ (payload.length + 32767) / 32768 := by omega
  have hne : renv.chunks ≠ [] := by
    intro h; rw [h] at hlen; simp at hlen; omega
  have key_fact : ∃ s r, zynqaes_crypt_req renv (zynqaes_crypt rctx0 cmd) ⟨key⟩
      ⟨payload.length, payload, dst0, iv⟩ = some (0, s)
      ∧ Sys.result (run hw fuel envs s) = some r := by
    by_cases hcb : is_cbc_op cmd = true
    · obtain ⟨s, dm, h1, _, h3⟩ := cbc_pipeline hw cmd key iv payload dst0 rctx0 renv envs fuel
        hcb hkey hiv hpos h16 hfit hr0 hrenv hne henvs hl hfuel
      obtain ⟨r, hr⟩ := ref_chunks_some hw cmd key payload hfull
        ((payload.length + 32767) / 32768) iv 0 dm hpos (by omega)
      exact ⟨s, r, h1, by rw [h3, hr]⟩
    · have hecb : is_ecb_op cmd = true := by
        rcases hcmd with h | h | h | h <;> subst h <;> first | decide | exact absurd rfl hcb
      obtain ⟨s, dm, h1, _, _, h4⟩ := ecb_pipeline hw cmd key iv payload dst0 rctx0 renv envs
        fuel hecb hkey hpos h16 hfit hr0 hrenv hlen (by omega)
      obtain ⟨r, hr⟩ := ref_chunks_some hw cmd key payload hfull
        ((payload.length + 32767) / 32768) rctx0.iv 0 dm hpos (by omega)
      exact ⟨s, r, h1, by rw [h4, hr]⟩
  obtain ⟨s, r, h1, h2⟩ := key_fact
  have hge := result_some_finalized _ r h2
  obtain ⟨hle, hshape⟩ := finalize_at_most_once hw renv (zynqaes_crypt rctx0 cmd) ⟨key⟩
    ⟨payload.length, payload, dst0, iv⟩ (0, s) (run hw fuel envs s)
    (show payload.length < 4294967296 by omega) h1
    (run_reachable hw fuel envs s s Reachable.start)
  have h1c : finalize_count (run hw fuel envs s) = 1 := by omega
  exact ⟨s, h1, h1c, hshape h1c⟩


/-! ## Unrecognised command codes -/

theorem set_txkbuf_unsupported (rctx : zynqaes_reqctx) (payload tx_kbuf : List Nat) (n : Nat)
    (h1 : is_ecb_op rctx.cmd = false) (h2 : is_cbc_op rctx.cmd = false) :
    zynqaes_set_txkbuf rctx payload tx_kbuf n rctx.cmd = (tx_kbuf, 4294967284) := by
  simp only [is_ecb_op, is_cbc_op, Bool.or_eq_false_iff, beq_eq_false_iff_ne, ne_eq] at h1 h2
  unfold zynqaes_set_txkbuf
  rw [if_neg (by simp [h1.1, h1.2]), if_neg (by simp [h2.1, h2.2])]
  show (tx_kbuf, u32 (-ENOMEM)) = (tx_kbuf, 4294967284)
  have : u32 (-ENOMEM) = 4294967284 := by decide
  rw [this]

theorem enqueue_unsupported_any (env : ChunkEnv) (rctx : zynqaes_reqctx)
    (hok : env.ok = true) (h1 : is_ecb_op rctx.cmd = false) (h2 : is_cbc_op rctx.cmd = false) :
    ∃ c, zynqaes_enqueue_next_dma_op env rctx = (0, advance rctx, some c)
      ∧ c.tx_nbytes = 4294967284 ∧ c.rx_nbytes = min rctx.nbytes_remaining 32768 := by
  obtain ⟨tx, rx, _, _, _, _, he⟩ := enqueue_of_ok env rctx hok
  refine ⟨chunk_of rctx tx rx, he, ?_, rfl⟩
  show (zynqaes_set_txkbuf rctx (bytes_at rctx.src_buf (i32 rctx.nbytes_i)) tx
    (min rctx.nbytes_remaining 32768) rctx.cmd).2 = 4294967284
  rw [set_txkbuf_unsupported rctx _ tx _ h1 h2]

end ZynqAes
